import Mathlib

/-!
Plagiarism checker (rolling hash + KMP): a shallow embedding of `Summer.cpp`

Conventions of the embedding.

* A C++ `char` is modelled by the integer it promotes to (`Int`); a `string` is a
  `List Int`.  The character classification functions of `<cctype>` are the ones
  of the default "C" locale, which is the locale the program runs in.
* `int` and `long long` values are mathematical integers, and string lengths are
  assumed to fit an `int`.  The only products the program forms are of residues
  below `MOD`, which fit a signed 64-bit integer.  The `int` sums and differences
  that involve the parameters `minSize` and `phraseLength` (the test `i + len` of
  the loops over `len`, the bound `words.size() - phraseLength` of the loop over
  the phrases and its counter) can leave the range of an `int`: signed overflow
  is undefined behaviour in C++, and the embedding reports it as
  `Fault.signedOverflow`.
* The C++ operator `%` truncates towards zero: it is `Int.tmod`.
* Reading a `vector` or a `string` outside its bounds is undefined behaviour in
  C++; the embedding reports it as `Fault.outOfBounds`.
* `while` loops run on fuel; running out of fuel is `Fault.outOfFuel`.
* `similarity` is a `double` in the source; the embedding keeps the exact
  rational value of the quotient.
-/

namespace PlagiarismChecker

/-! ## Basic types -/

/-- Reasons for which a run of the embedded program has no ordinary result. -/
inductive Fault where
  | outOfBounds
  | outOfFuel
  | signedOverflow
  deriving DecidableEq, Repr

/-- The `static const int BASE = 256`. -/
def BASE : Int := 256

/-- The `static const int MOD = 1000000007`. -/
def MOD : Int := 1000000007

/-- The greatest value of an `int` (32 bits, two's complement). -/
def INT_MAX : Int := 2147483647

/-- The `vector::operator[]` read at an `int` index: defined inside the bounds only. -/
def vecGet {α : Type} (v : List α) (i : Int) : Except Fault α :=
  if 0 ≤ i then
    match v[i.toNat]? with
    | some a => .ok a
    | none => .error Fault.outOfBounds
  else .error Fault.outOfBounds

/-- The `string::operator[]` read: position `size()` holds the terminating `'\0'`. -/
def strGet (s : List Int) (i : Int) : Except Fault Int :=
  if 0 ≤ i then
    match s[i.toNat]? with
    | some c => .ok c
    | none => if i.toNat = s.length then .ok 0 else .error Fault.outOfBounds
  else .error Fault.outOfBounds

/-- The `string::substr(pos, len)` for `pos ≤ size()`: at most `len` characters from `pos`. -/
def substr (s : List Int) (pos len : Nat) : List Int :=
  (s.drop pos).take len

/-- The characters of a Lean string literal, as C++ `char` values (for ASCII literals). -/
def ofString (s : String) : List Int :=
  s.toList.map (fun c => (c.toNat : Int))

/-! ## Character classification (`<cctype>`, "C" locale) -/

/-- The `isalnum` of the "C" locale: decimal digits and the 52 ASCII letters. -/
def isalnum (c : Int) : Bool :=
  (48 ≤ c && c ≤ 57) || (65 ≤ c && c ≤ 90) || (97 ≤ c && c ≤ 122)

/-- The `isspace` of the "C" locale: space, `\t`, `\n`, `\v`, `\f`, `\r`. -/
def isspace (c : Int) : Bool :=
  c == 32 || (9 ≤ c && c ≤ 13)

/-- The `tolower` of the "C" locale: upper-case ASCII letters move by 32. -/
def tolower (c : Int) : Int :=
  if 65 ≤ c ∧ c ≤ 90 then c + 32 else c

/-! ## Text cleaning -/

/-- One turn of the loop of `preprocessText`: what character `c` appends to `result`. -/
def preprocessStep (result : List Int) (c : Int) : List Int :=
  if isalnum c then result ++ [tolower c]
  else if isspace c then result ++ [32]
  else result

/-- The `preprocessText`: lowercase, remove punctuation. -/
def preprocessText (text : List Int) : List Int :=
  text.foldl preprocessStep []

/-! ## Rolling hash -/

/-- The `struct RollingHash`: prefix hashes, powers of the base, and the length. -/
structure RollingHash where
  hash : List Int
  pow : List Int
  n : Nat
  deriving DecidableEq, Repr

/-- One turn of the constructor loop: fills `hash[i + 1]` and `pow[i + 1]`. -/
def RollingHash.fillStep (s : List Int) (hp : List Int × List Int) (i : Nat) :
    List Int × List Int :=
  (hp.1.set (i + 1) ((hp.1.getD i 0 * BASE + s.getD i 0).tmod MOD),
   hp.2.set (i + 1) ((hp.2.getD i 1 * BASE).tmod MOD))

/-- The constructor `RollingHash(const string& s)`. -/
def RollingHash.ofText (s : List Int) : RollingHash :=
  let n := s.length
  let hp := (List.range n).foldl (RollingHash.fillStep s)
    (List.replicate (n + 1) 0, List.replicate (n + 1) 1)
  { hash := hp.1, pow := hp.2, n := n }

/-- The `getHash(l, r)`. -/
def RollingHash.getHash (rh : RollingHash) (l r : Int) : Except Fault Int := do
  let hr ← vecGet rh.hash r
  let hl ← vecGet rh.hash l
  let p ← vecGet rh.pow (r - l)
  let result := hr - (hl * p).tmod MOD
  pure ((result + MOD).tmod MOD)

/-- The polynomial hash of a literal string, computed directly from its characters:
the sum of `code(s[k]) * 256^(|s| - 1 - k)`, reduced modulo `MOD`. -/
def polyHash (s : List Int) : Int :=
  ((List.range s.length).map (fun k => s.getD k 0 * BASE ^ (s.length - 1 - k))).sum % MOD

/-! ## KMP -/

/-- The loop of `computeLPS`; `fuel` bounds the number of turns. -/
def computeLPSLoop (pattern : List Int) (m : Nat) :
    Nat → Nat → Nat → List Nat → Except Fault (List Nat)
  | 0, _, i, lps => if i < m then .error Fault.outOfFuel else .ok lps
  | fuel + 1, len, i, lps =>
    if i < m then do
      let pi ← strGet pattern i
      let pl ← strGet pattern len
      if pi = pl then
        computeLPSLoop pattern m fuel (len + 1) (i + 1) (lps.set i (len + 1))
      else if len ≠ 0 then do
        let len' ← vecGet lps ((len : Int) - 1)
        computeLPSLoop pattern m fuel len' i lps
      else
        computeLPSLoop pattern m fuel len (i + 1) (lps.set i 0)
    else .ok lps

/-- The `computeLPS`: builds the longest prefix-suffix array. -/
def computeLPS (pattern : List Int) : Except Fault (List Nat) :=
  let m := pattern.length
  computeLPSLoop pattern m (2 * m) 0 1 (List.replicate m 0)

/-- The loop of `KMPSearch`; `fuel` bounds the number of turns. -/
def KMPSearchLoop (text pattern : List Int) (lps : List Nat) (n m : Nat) :
    Nat → Nat → Nat → List Int → Except Fault (List Int)
  | 0, i, _, found => if i < n then .error Fault.outOfFuel else .ok found
  | fuel + 1, i, j, found =>
    if i < n then do
      let pj ← strGet pattern j
      let ti ← strGet text i
      let i1 := if pj = ti then i + 1 else i
      let j1 := if pj = ti then j + 1 else j
      if j1 = m then do
        let j2 ← vecGet lps ((j1 : Int) - 1)
        KMPSearchLoop text pattern lps n m fuel i1 j2 (found ++ [(i1 : Int) - j1])
      else if i1 < n then do
        let pj1 ← strGet pattern j1
        let ti1 ← strGet text i1
        if pj1 ≠ ti1 then
          if j1 ≠ 0 then do
            let j2 ← vecGet lps ((j1 : Int) - 1)
            KMPSearchLoop text pattern lps n m fuel i1 j2 found
          else
            KMPSearchLoop text pattern lps n m fuel (i1 + 1) j1 found
        else
          KMPSearchLoop text pattern lps n m fuel i1 j1 found
      else
        KMPSearchLoop text pattern lps n m fuel i1 j1 found
    else .ok found

/-- The `KMPSearch`: the start positions of all matches of `pattern` in `text`. -/
def KMPSearch (text pattern : List Int) : Except Fault (List Int) := do
  let n := text.length
  let m := pattern.length
  let lps ← computeLPS pattern
  KMPSearchLoop text pattern lps n m (2 * n) 0 0 []

/-! ## Rolling hash matching -/

/-- The result record; the default value is the one the constructor builds. -/
structure PlagiarismResult where
  similarity : ℚ := 0
  rollingMatches : Nat := 0
  kmpMatches : Nat := 0
  largestSubstringLength : Nat := 0
  largestSubstring : List Int := []
  deriving DecidableEq

/-- The `unordered_map<long long, vector<int>>`: keys with their position lists. -/
abbrev HashMap := List (Int × List Nat)

/-- The `hashMap[h].push_back(i)`. -/
def HashMap.pushBack : HashMap → Int → Nat → HashMap
  | [], h, i => [(h, [i])]
  | (k, v) :: rest, h, i =>
    if k = h then (k, v ++ [i]) :: rest else (k, v) :: HashMap.pushBack rest h i

/-- The lookup behind `hashMap.count(h)` and `hashMap[h]`. -/
def HashMap.find : HashMap → Int → Option (List Nat)
  | [], _ => none
  | (k, v) :: rest, h => if k = h then some v else HashMap.find rest h

/-- The values `minSize, minSize + 1, ...` with `i + len ≤ size`: the values taken by
`len` in `for (int len = minSize; i + len <= size; ++len)` when no sum overflows. -/
def lenValues (minSize : Int) (i size : Nat) : List Int :=
  (List.range ((size : Int) - i - minSize + 1).toNat).map (fun (k : Nat) => minSize + (k : Int))

/-- The header `for (int len = minSize; i + len <= size; ++len)`, the sum `i + len`
being an `int`.  The first test overflows when `i + minSize` exceeds `INT_MAX`.
When the loop runs, `len` grows by one up to the last test, which is of
`i + len = size + 1` and overflows when `size` is `INT_MAX`. -/
def lensFrom (minSize : Int) (i size : Nat) : Except Fault (List Int) :=
  if INT_MAX < (i : Int) + minSize then .error Fault.signedOverflow
  else if (i : Int) + minSize ≤ (size : Int) ∧ INT_MAX ≤ (size : Int) then
    .error Fault.signedOverflow
  else .ok (lenValues minSize i size)

/-- The inner loop that indexes the substrings of `text2` starting at `i`. -/
def indexLens (getHash2 : Int → Int → Except Fault Int) (i : Nat) :
    List Int → HashMap → Except Fault HashMap
  | [], hashMap => .ok hashMap
  | len :: rest, hashMap => do
    let h ← getHash2 i (i + len)
    indexLens getHash2 i rest (hashMap.pushBack h i)

/-- The outer loop that indexes `text2`, over the start positions `is`. -/
def indexPositions (getHash2 : Int → Int → Except Fault Int) (minSize : Int) (size2 : Nat) :
    List Nat → HashMap → Except Fault HashMap
  | [], hashMap => .ok hashMap
  | i :: rest, hashMap => do
    let lens ← lensFrom minSize i size2
    let hashMap' ← indexLens getHash2 i lens hashMap
    indexPositions getHash2 minSize size2 rest hashMap'

/-- The loop `for (int pos : hashMap[h])` with its literal comparison; `acc` is
`(maxLen, maxSubstring)`. -/
def verifyAt (proc1 proc2 : List Int) (i : Nat) (len : Int) :
    List Nat → Nat × List Int → Nat × List Int
  | [], acc => acc
  | pos :: rest, acc =>
    verifyAt proc1 proc2 i len rest
      (if substr proc1 i len.toNat = substr proc2 pos len.toNat then
        (if len > (acc.1 : Int) then (len.toNat, substr proc1 i len.toNat) else acc)
      else acc)

/-- The loop over `len` at one start position `i` of `text1`. -/
def scanLens (getHash1 : Int → Int → Except Fault Int) (hashMap : HashMap)
    (proc1 proc2 : List Int) (i : Nat) :
    List Int → Nat × List Int → Except Fault (Nat × List Int)
  | [], acc => .ok acc
  | len :: rest, acc => do
    let h ← getHash1 i (i + len)
    match hashMap.find h with
    | some positions =>
      scanLens getHash1 hashMap proc1 proc2 i rest (verifyAt proc1 proc2 i len positions acc)
    | none => scanLens getHash1 hashMap proc1 proc2 i rest acc

/-- The `for (int k = i; k < i + maxLen; ++k) matched[k] = true`. -/
def markRange (matched : List Bool) (i maxLen : Nat) : List Bool :=
  (List.range maxLen).foldl (fun mt k => mt.set (i + k) true) matched

/-- The variables the scan of `text1` updates.  The fields `regions` and `attempts`
are logs, of the accepted regions `(i, maxLen)` and of the values of `i` at which
the body of the scan loop runs: the source does not keep them, and the scan only
appends to them. -/
structure ScanState where
  matched : List Bool
  rollingMatches : Nat
  largestSubstringLength : Nat
  largestSubstring : List Int
  regions : List (Nat × Nat)
  attempts : List Nat
  deriving DecidableEq

/-- The body of the scan loop runs at position `i`: the log of attempts grows. -/
def ScanState.attempt (st : ScanState) (i : Nat) : ScanState :=
  { st with attempts := st.attempts ++ [i] }

/-- The update made when `maxLen > 0` at position `i`. -/
def ScanState.accept (st : ScanState) (i maxLen : Nat) (maxSubstring : List Int) : ScanState :=
  { matched := markRange st.matched i maxLen
    rollingMatches := st.rollingMatches + 1
    largestSubstringLength :=
      if maxLen > st.largestSubstringLength then maxLen else st.largestSubstringLength
    largestSubstring :=
      if maxLen > st.largestSubstringLength then maxSubstring else st.largestSubstring
    regions := st.regions ++ [(i, maxLen)]
    attempts := st.attempts }

/-- The scan of `text1` from position `i`; every turn moves `i` forward, so
`fuel = |proc1|` turns are enough. -/
def scanFrom (getHash1 : Int → Int → Except Fault Int) (hashMap : HashMap)
    (proc1 proc2 : List Int) (minSize : Int) :
    Nat → Nat → ScanState → Except Fault ScanState
  | 0, i, st => if i < proc1.length then .error Fault.outOfFuel else .ok st
  | fuel + 1, i, st =>
    if i < proc1.length then do
      let lens ← lensFrom minSize i proc1.length
      let best ← scanLens getHash1 hashMap proc1 proc2 i lens (0, [])
      if best.1 > 0 then
        scanFrom getHash1 hashMap proc1 proc2 minSize fuel (i + best.1)
          ((st.attempt i).accept i best.1 best.2)
      else
        scanFrom getHash1 hashMap proc1 proc2 minSize fuel (i + 1) (st.attempt i)
    else .ok st

/-- The state before the scan: nothing matched, all counters zero. -/
def ScanState.init (size1 : Nat) : ScanState :=
  { matched := List.replicate size1 false
    rollingMatches := 0
    largestSubstringLength := 0
    largestSubstring := []
    regions := []
    attempts := [] }

/-- Lines 131 to 167 of `checkWithRollingHash`, for any two hash oracles. -/
def rollingScanWith (getHash1 getHash2 : Int → Int → Except Fault Int)
    (proc1 proc2 : List Int) (minSize : Int) : Except Fault ScanState := do
  let hashMap ← indexPositions getHash2 minSize proc2.length (List.range proc2.length) []
  scanFrom getHash1 hashMap proc1 proc2 minSize proc1.length 0 (ScanState.init proc1.length)

/-- Lines 128 to 167 of `checkWithRollingHash`, on the two normalized texts. -/
def rollingScan (proc1 proc2 : List Int) (minSize : Int) : Except Fault ScanState :=
  rollingScanWith (RollingHash.ofText proc1).getHash (RollingHash.ofText proc2).getHash
    proc1 proc2 minSize

/-- The `count(matched.begin(), matched.end(), true)`. -/
def matchedCount (st : ScanState) : Nat :=
  st.matched.count true

/-- The `checkWithRollingHash`. -/
def checkWithRollingHash (text1 text2 : List Int) (minSize : Int) :
    Except Fault PlagiarismResult :=
  let proc1 := preprocessText text1
  let proc2 := preprocessText text2
  if proc1.isEmpty || proc2.isEmpty then .ok {}
  else do
    let st ← rollingScan proc1 proc2 minSize
    pure { similarity := (matchedCount st : ℚ) / (proc1.length : ℚ) * 100
           rollingMatches := st.rollingMatches
           kmpMatches := 0
           largestSubstringLength := st.largestSubstringLength
           largestSubstring := st.largestSubstring }

/-! ## Phrase matching -/

/-- The `while (ss >> word)`: `cur` is the word being read. -/
def splitWordsAux : List Int → List Int → List (List Int)
  | [], cur => if cur.isEmpty then [] else [cur]
  | c :: cs, cur =>
    if isspace c then
      (if cur.isEmpty then splitWordsAux cs [] else cur :: splitWordsAux cs [])
    else splitWordsAux cs (cur ++ [c])

/-- The words extracted from a string stream over `s`. -/
def splitWords (s : List Int) : List (List Int) :=
  splitWordsAux s []

/-- The loop over `j` that joins `words[i .. i + phraseLength)` with spaces. -/
def buildPhrase (words : List (List Int)) (i : Nat) (phraseLength : Int) :
    List Nat → List Int → Except Fault (List Int)
  | [], phrase => .ok phrase
  | j :: rest, phrase => do
    let w ← vecGet words ((i : Int) + j)
    let phrase' := phrase ++ w
    buildPhrase words i phraseLength rest
      (if (j : Int) < phraseLength - 1 then phrase' ++ [32] else phrase')

/-- The `unordered_set::insert`. -/
def insertUnique (set : List (List Int)) (x : List Int) : List (List Int) :=
  if x ∈ set then set else set ++ [x]

/-- The loop over `i` that collects the phrases. -/
def collectPhrases (words : List (List Int)) (phraseLength : Int) :
    List Nat → List (List Int) → Except Fault (List (List Int))
  | [], phrases => .ok phrases
  | i :: rest, phrases => do
    let phrase ← buildPhrase words i phraseLength (List.range phraseLength.toNat) []
    collectPhrases words phraseLength rest (insertUnique phrases phrase)

/-- The set `phrases` of `checkWithKMP`, in insertion order: the loop
`for (int i = 0; i <= (int)words.size() - phraseLength; ++i)`.  The bound and the
counter are `int`s.  For `phraseLength ≥ 1` the bound is below `words.size()`.
For `phraseLength ≤ 0` the subtraction overflows when the difference exceeds
`INT_MAX`, and when the difference is `INT_MAX` the test never fails and `++i`
overflows. -/
def phraseSet (text1 : List Int) (phraseLength : Int) : Except Fault (List (List Int)) :=
  let words := splitWords (preprocessText text1)
  if phraseLength ≤ 0 ∧ INT_MAX ≤ (words.length : Int) - phraseLength then
    .error Fault.signedOverflow
  else
    collectPhrases words phraseLength
      (List.range ((words.length : Int) - phraseLength + 1).toNat) []

/-- The loop `for (const string& phrase : phrases)`, visiting the set in the order `order`. -/
def sumMatches (proc2 : List Int) : List (List Int) → Nat → Except Fault Nat
  | [], totalMatches => .ok totalMatches
  | phrase :: rest, totalMatches => do
    let found ← KMPSearch proc2 phrase
    sumMatches proc2 rest (totalMatches + found.length)

/-- The `checkWithKMP`. -/
def checkWithKMP (text1 text2 : List Int) (phraseLength : Int) : Except Fault Nat := do
  let phrases ← phraseSet text1 phraseLength
  sumMatches (preprocessText text2) phrases 0

/-! ## The report -/

/-- The `if` chain of `displayResults`: the level line it prints for `result`. -/
def displayResultsLevel (result : PlagiarismResult) : String :=
  if result.similarity > 70 then "Plagiarism Level: HIGH"
  else if result.similarity > 40 then "Plagiarism Level: MODERATE"
  else if result.similarity > 15 then "Plagiarism Level: LOW"
  else "Plagiarism Level: NONE"

/-! ## Reference notions used in the statements -/

/-- What `preprocessText` keeps of one character, as the specification words it. -/
def normalizeChar (c : Int) : List Int :=
  if isalnum c then [tolower c] else if isspace c then [32] else []

/-- A lowercase letter, a digit or a space. -/
def isNormalized (c : Int) : Prop :=
  (97 ≤ c ∧ c ≤ 122) ∨ (48 ≤ c ∧ c ≤ 57) ∨ c = 32

/-- The pattern `pat` occurs literally in `text` at start position `p`. -/
def occursAt (text pat : List Int) (p : Nat) : Prop :=
  p + pat.length ≤ text.length ∧ substr text p pat.length = pat

instance (text pat : List Int) (p : Nat) : Decidable (occursAt text pat p) :=
  inferInstanceAs (Decidable (p + pat.length ≤ text.length ∧ substr text p pat.length = pat))

/-- The start positions `p` with `0 ≤ p ≤ |text| - |pat|` at which `pat` occurs in
`text`, in increasing order. -/
def occurrences (text pat : List Int) : List Nat :=
  (List.range (text.length + 1 - pat.length)).filter (fun p => occursAt text pat p)

/-- The windows of `k` consecutive words, each joined by single spaces. -/
def windowPhrases (words : List (List Int)) (k : Nat) : List (List Int) :=
  (List.range (words.length + 1 - k)).map
    (fun i => List.intercalate [32] ((words.drop i).take k))

/-- Hash-free reading of the loop over `len` at position `i`: every start position
of `text2` is a candidate for the literal comparison. -/
def scanLensRef (proc1 proc2 : List Int) (i : Nat) :
    List Int → Nat × List Int → Nat × List Int
  | [], acc => acc
  | len :: rest, acc =>
    scanLensRef proc1 proc2 i rest (verifyAt proc1 proc2 i len (List.range proc2.length) acc)

/-- No test `i + len <= size` of a loop over `len` overflows an `int`, at any start
position `i < size` of a text of length `size`: the first test is of
`i + minSize ≤ size - 1 + minSize`, the last one of at most `size + 1`. -/
def NoOverflow (minSize : Int) (size : Nat) : Prop :=
  (size : Int) < INT_MAX ∧ (size : Int) + minSize ≤ INT_MAX + 1

instance (minSize : Int) (size : Nat) : Decidable (NoOverflow minSize size) :=
  inferInstanceAs (Decidable ((size : Int) < INT_MAX ∧ (size : Int) + minSize ≤ INT_MAX + 1))

/-- Hash-free reading of the scan of `text1`: greedy longest literal match. -/
def scanFromRef (proc1 proc2 : List Int) (minSize : Int) :
    Nat → Nat → ScanState → Except Fault ScanState
  | 0, i, st => if i < proc1.length then .error Fault.outOfFuel else .ok st
  | fuel + 1, i, st =>
    if i < proc1.length then
      let best := scanLensRef proc1 proc2 i (lenValues minSize i proc1.length) (0, [])
      if best.1 > 0 then
        scanFromRef proc1 proc2 minSize fuel (i + best.1)
          ((st.attempt i).accept i best.1 best.2)
      else
        scanFromRef proc1 proc2 minSize fuel (i + 1) (st.attempt i)
    else .ok st

/-- Hash-free reading of lines 128 to 167 of `checkWithRollingHash`. -/
def rollingScanRef (proc1 proc2 : List Int) (minSize : Int) : Except Fault ScanState :=
  scanFromRef proc1 proc2 minSize proc1.length 0 (ScanState.init proc1.length)

/-- Horner evaluation of a string in base `BASE`, without reduction. -/
def horner (s : List Int) : Int :=
  s.foldl (fun acc c => acc * BASE + c) 0

/-- The value the constructor stores in `hash[k]`. -/
def prefixHash (s : List Int) : Nat → Int
  | 0 => 0
  | k + 1 => (prefixHash s k * BASE + s.getD k 0).tmod MOD

/-- The value the constructor stores in `pow[k]`. -/
def powMod : Nat → Int
  | 0 => 1
  | k + 1 => (powMod k * BASE).tmod MOD

/-! ## Predicates and invariants used in the proofs -/

/-- Position `pos` is recorded under key `h`. -/
def HashMap.Has (hm : HashMap) (h : Int) (pos : Nat) : Prop :=
  ∃ ps, HashMap.find hm h = some ps ∧ pos ∈ ps

/-- The index `hm` serves position `i` of `text1` faithfully: the hashes are defined,
every literal match is reachable through the map, and the map holds positions of
`text2` only. -/
structure IndexServes (getHash1 : Int → Int → Except Fault Int) (hm : HashMap)
    (proc1 proc2 : List Int) (i : Nat) (lens : List Int) : Prop where
  total : ∀ len ∈ lens, ∃ h, getHash1 i (i + len) = .ok h
  complete : ∀ len ∈ lens, 0 < len → ∀ pos, pos < proc2.length →
    substr proc1 i len.toNat = substr proc2 pos len.toNat →
    ∀ h, getHash1 i (i + len) = .ok h → HashMap.Has hm h pos
  sound : ∀ h pos, HashMap.Has hm h pos → pos < proc2.length

/-- The state after the turns at `i, i + 1, ..., size - 1` when none accepts a region:
only the log of attempts has grown. -/
def ScanState.skipTo (st : ScanState) (i size : Nat) : ScanState :=
  { st with attempts := st.attempts ++ List.range' i (size - i) }

/-- The region `r = (i, maxLen)` of `text1` is a literal substring of `text2`, of
length at least `minSize`. -/
def RegionLiteral (proc1 proc2 : List Int) (minSize : Int) (r : Nat × Nat) : Prop :=
  minSize ≤ (r.2 : Int) ∧ 0 < r.2 ∧ r.1 + r.2 ≤ proc1.length
    ∧ ∃ pos, pos + r.2 ≤ proc2.length ∧ substr proc1 r.1 r.2 = substr proc2 pos r.2

/-- What the scan keeps true of its state, whatever the hash oracles answer. -/
structure ScanInv (proc1 proc2 : List Int) (minSize : Int) (st : ScanState) : Prop where
  regions : ∀ r ∈ st.regions, RegionLiteral proc1 proc2 minSize r
  count : st.rollingMatches = st.regions.length
  largestLen : st.largestSubstring.length = st.largestSubstringLength
  largest : st.largestSubstringLength ≠ 0 → ∃ r ∈ st.regions,
    r.2 = st.largestSubstringLength ∧ st.largestSubstring = substr proc1 r.1 r.2

instance instDecidableEqExcept {ε α : Type} [DecidableEq ε] [DecidableEq α] :
    DecidableEq (Except ε α)
  | .ok a, .ok b =>
    if h : a = b then isTrue (by rw [h]) else isFalse (fun e => h (by cases e; rfl))
  | .error a, .error b =>
    if h : a = b then isTrue (by rw [h]) else isFalse (fun e => h (by cases e; rfl))
  | .ok _, .error _ => isFalse (fun e => by cases e)
  | .error _, .ok _ => isFalse (fun e => by cases e)

/-- The first `k` characters of `p` are the `k` characters of `t` that end at
position `i` (exclusive). -/
def MatchesEndingAt (p t : List Int) (k i : Nat) : Prop :=
  k ≤ i ∧ ∀ x, x < k → p.getD x 0 = t.getD (i - k + x) 0

/-- The number `b` is the length of the longest proper prefix of `p[0..j)` that is
also a suffix of `p[0..j)`. -/
def IsLongestBorder (p : List Int) (j b : Nat) : Prop :=
  b < j ∧ MatchesEndingAt p p b j ∧ ∀ k, k < j → MatchesEndingAt p p k j → k ≤ b

/-- The table `lps` is the longest prefix-suffix table of `p`. -/
def IsLpsTable (p : List Int) (lps : List Nat) : Prop :=
  lps.length = p.length ∧
    ∀ x, x < p.length → ∃ b, lps[x]? = some b ∧ IsLongestBorder p (x + 1) b

/-- What holds at the top of the loop of `computeLPS`. -/
structure LpsInv (p : List Int) (len i : Nat) (lps : List Nat) : Prop where
  i_pos : 1 ≤ i
  i_le : i ≤ p.length
  len_lt : len < i
  size : lps.length = p.length
  border : MatchesEndingAt p p len i
  cand : ∀ k, k < i → MatchesEndingAt p p k i → p.getD k 0 = p.getD i 0 → k ≤ len
  filled : ∀ x, x < i → ∃ b, lps[x]? = some b ∧ IsLongestBorder p (x + 1) b

/-- The matches of `p` in `t` that end at or before position `i`, as `KMPSearch` lists them. -/
def foundUpTo (t p : List Int) (i : Nat) : List Int :=
  ((List.range (i + 1 - p.length)).filter (fun s => occursAt t p s)).map (fun (s : Nat) => (s : Int))

/-- What holds at the top of the loop of `KMPSearch`. -/
structure KmpInv (p t : List Int) (i j : Nat) (found : List Int) : Prop where
  i_le : i ≤ t.length
  j_lt : j < p.length
  pre : MatchesEndingAt p t j i
  cand : ∀ k, k < p.length → MatchesEndingAt p t k i → p.getD k 0 = t.getD i 0 → k ≤ j
  found_eq : found = foundUpTo t p i

/-- The phrase built from the window of `k` words that starts at word `i`. -/
def windowPhrase (words : List (List Int)) (k i : Nat) : List Int :=
  List.intercalate [32] ((words.drop i).take k)

/-- The number `k` is the length of a proper prefix of `s` that is also a suffix of `s`. -/
def IsProperPrefixSuffix (s : List Int) (k : Nat) : Prop :=
  k < s.length ∧ s.take k = s.drop (s.length - k)

/-- The substring `text1[i .. i + len)` occurs literally somewhere in `text2`. -/
def MatchAt (proc1 proc2 : List Int) (i len : Nat) : Prop :=
  i + len ≤ proc1.length
    ∧ ∃ pos, pos + len ≤ proc2.length ∧ substr proc1 i len = substr proc2 pos len

/-- The number `maxLen` is the greatest `len ≥ minSize` such that `text1[i .. i + len)`
occurs in `text2`, and 0 if there is no such `len`. -/
def IsGreatestMatch (proc1 proc2 : List Int) (minSize : Int) (i maxLen : Nat) : Prop :=
  (maxLen = 0 ∧ ∀ len : Nat, minSize ≤ (len : Int) → ¬ MatchAt proc1 proc2 i len)
  ∨ (minSize ≤ (maxLen : Int) ∧ MatchAt proc1 proc2 i maxLen
      ∧ ∀ len : Nat, minSize ≤ (len : Int) → MatchAt proc1 proc2 i len → len ≤ maxLen)

/-- The `maxLen` of the hash-free scan at position `i`. -/
def bestLenRef (proc1 proc2 : List Int) (minSize : Int) (i : Nat) : Nat :=
  (scanLensRef proc1 proc2 i (lenValues minSize i proc1.length) (0, [])).1

/-- The region the hash-free scan accepts at position `a`, if it accepts one there. -/
def regionAtRef (proc1 proc2 : List Int) (minSize : Int) (a : Nat) : Option (Nat × Nat) :=
  if bestLenRef proc1 proc2 minSize a > 0 then some (a, bestLenRef proc1 proc2 minSize a)
  else none

/-- The position the scan moves to after its turn at position `i`: past the accepted
region (`i += maxLen - 1; ++i`), or one step on (`++i`). -/
def nextAttemptRef (proc1 proc2 : List Int) (minSize : Int) (i : Nat) : Nat :=
  if bestLenRef proc1 proc2 minSize i > 0 then i + bestLenRef proc1 proc2 minSize i else i + 1

/-- The values of `i` at which the body of the scan loop runs, in order. -/
def attemptsFromRef (proc1 proc2 : List Int) (minSize : Int) : Nat → Nat → List Nat
  | 0, _ => []
  | fuel + 1, i =>
    if i < proc1.length then
      i :: attemptsFromRef proc1 proc2 minSize fuel (nextAttemptRef proc1 proc2 minSize i)
    else []

/-- The greatest length among the regions, 0 for no region. -/
def maxRegionLen (regions : List (Nat × Nat)) : Nat :=
  (regions.map Prod.snd).foldl max 0

/-- What the scan keeps true of the order of its regions and of the marks, when it
stands at position `i`. -/
structure ScanOrder (proc1 : List Int) (i : Nat) (st : ScanState) : Prop where
  pos_le : i ≤ proc1.length
  size : st.matched.length = proc1.length
  ends : ∀ r ∈ st.regions, 0 < r.2 ∧ r.1 + r.2 ≤ i
  disjoint : st.regions.Pairwise (fun r1 r2 => r1.1 + r1.2 ≤ r2.1)
  unmarked : ∀ k, i ≤ k → k < proc1.length → st.matched[k]? = some false
  count : st.matched.count true = (st.regions.map Prod.snd).sum
  matches_eq : st.rollingMatches = st.regions.length
  largest : st.largestSubstringLength = maxRegionLen st.regions

/-! # Theorems -/

/-! ## Text cleaning: lemmas -/

theorem preprocessStep_eq (result : List Int) (c : Int) :
    preprocessStep result c = result ++ normalizeChar c := by
  unfold preprocessStep normalizeChar
  split_ifs <;> simp

theorem foldl_preprocessStep (text acc : List Int) :
    text.foldl preprocessStep acc = acc ++ text.flatMap normalizeChar := by
  induction text generalizing acc with
  | nil => simp
  | cons c cs ih => simp [List.foldl_cons, ih, preprocessStep_eq, List.flatMap_cons]

theorem preprocessText_eq_flatMap (text : List Int) :
    preprocessText text = text.flatMap normalizeChar := by
  simp [preprocessText, foldl_preprocessStep]

theorem preprocessText_append (a b : List Int) :
    preprocessText (a ++ b) = preprocessText a ++ preprocessText b := by
  simp [preprocessText_eq_flatMap]

theorem preprocessText_cons (c : Int) (cs : List Int) :
    preprocessText (c :: cs) = normalizeChar c ++ preprocessText cs := by
  simp [preprocessText_eq_flatMap, List.flatMap_cons]

theorem isNormalized_of_mem_normalizeChar {c d : Int} (h : d ∈ normalizeChar c) :
    isNormalized d := by
  unfold normalizeChar at h
  unfold isNormalized
  split_ifs at h with h1 h2
  · simp only [List.mem_singleton] at h
    subst h
    simp only [isalnum, Bool.or_eq_true, Bool.and_eq_true, decide_eq_true_eq] at h1
    unfold tolower
    split_ifs <;> omega
  · simp only [List.mem_singleton] at h
    omega
  · simp at h

theorem isNormalized_of_mem_preprocessText {text : List Int} {d : Int}
    (h : d ∈ preprocessText text) : isNormalized d := by
  rw [preprocessText_eq_flatMap, List.mem_flatMap] at h
  obtain ⟨c, _, hc⟩ := h
  exact isNormalized_of_mem_normalizeChar hc

theorem normalizeChar_of_isNormalized {d : Int} (h : isNormalized d) :
    normalizeChar d = [d] := by
  unfold isNormalized at h
  unfold normalizeChar isalnum isspace tolower
  rcases h with h | h | h
  · have h1 : (decide (97 ≤ d) && decide (d ≤ 122)) = true := by simp [h.1, h.2]
    have h2 : ¬ (65 ≤ d ∧ d ≤ 90) := by omega
    simp [h1, h2]
  · have h1 : (decide (48 ≤ d) && decide (d ≤ 57)) = true := by simp [h.1, h.2]
    have h2 : ¬ (65 ≤ d ∧ d ≤ 90) := by omega
    simp [h1, h2]
  · subst h
    decide

theorem preprocessText_of_forall_isNormalized (s : List Int)
    (h : ∀ d ∈ s, isNormalized d) : preprocessText s = s := by
  induction s with
  | nil => rfl
  | cons c cs ih =>
    rw [preprocessText_cons, normalizeChar_of_isNormalized (h c (List.mem_cons_self _ _)),
      ih (fun d hd => h d (List.mem_cons_of_mem _ hd))]
    rfl

theorem length_normalizeChar (c : Int) :
    (normalizeChar c).length = if (isalnum c || isspace c) then 1 else 0 := by
  unfold normalizeChar
  by_cases h1 : isalnum c = true
  · simp [h1]
  · by_cases h2 : isspace c = true
    · simp [h1, h2]
    · simp [h1, h2]

theorem length_preprocessText (text : List Int) :
    (preprocessText text).length = text.countP (fun c => isalnum c || isspace c) := by
  induction text with
  | nil => rfl
  | cons c cs ih =>
    rw [preprocessText_cons, List.length_append, ih, length_normalizeChar, List.countP_cons]
    omega

/-- C5. Normalization is idempotent: applying `preprocessText` to its own output
changes nothing, for every text. -/
theorem preprocessText_idempotent (x : List Int) :
    preprocessText (preprocessText x) = preprocessText x :=
  preprocessText_of_forall_isNormalized _ (fun _ hd => isNormalized_of_mem_preprocessText hd)

theorem isalnum_iff (c : Int) :
    isalnum c = true ↔ (48 ≤ c ∧ c ≤ 57) ∨ (65 ≤ c ∧ c ≤ 90) ∨ (97 ≤ c ∧ c ≤ 122) := by
  simp only [isalnum, Bool.or_eq_true, Bool.and_eq_true, decide_eq_true_eq]
  tauto

theorem isspace_iff (c : Int) : isspace c = true ↔ c = 32 ∨ (9 ≤ c ∧ c ≤ 13) := by
  simp only [isspace, Bool.or_eq_true, beq_iff_eq, Bool.and_eq_true, decide_eq_true_eq]

/-- The table of `normalizeChar` in ASCII codes: digits and lowercase letters are kept,
uppercase letters move by 32, the six whitespace characters give a space, and every
other character gives nothing. -/
theorem normalizeChar_table (c : Int) :
    normalizeChar c =
      if (48 ≤ c ∧ c ≤ 57) ∨ (97 ≤ c ∧ c ≤ 122) then [c]
      else if 65 ≤ c ∧ c ≤ 90 then [c + 32]
      else if c = 32 ∨ (9 ≤ c ∧ c ≤ 13) then [32]
      else [] := by
  unfold normalizeChar tolower
  by_cases h1 : (48 ≤ c ∧ c ≤ 57) ∨ (97 ≤ c ∧ c ≤ 122)
  · have ha : isalnum c = true := (isalnum_iff c).mpr (by omega)
    have h2 : ¬ (65 ≤ c ∧ c ≤ 90) := by omega
    simp [ha, h1, h2]
  · by_cases h2 : 65 ≤ c ∧ c ≤ 90
    · have ha : isalnum c = true := (isalnum_iff c).mpr (by omega)
      simp [ha, h1, h2]
    · have ha : ¬ isalnum c = true := fun h => by
        have := (isalnum_iff c).mp h
        omega
      by_cases h3 : c = 32 ∨ (9 ≤ c ∧ c ≤ 13)
      · have hs : isspace c = true := (isspace_iff c).mpr h3
        simp [ha, hs, h1, h2, h3]
      · have hs : ¬ isspace c = true := fun h => h3 ((isspace_iff c).mp h)
        simp [ha, hs, h1, h2, h3]

theorem preprocessText_whitespace (ws : List Int) (hws : ∀ c ∈ ws, c = 32 ∨ (9 ≤ c ∧ c ≤ 13)) :
    preprocessText ws = List.replicate ws.length 32 := by
  induction ws with
  | nil => rfl
  | cons c cs ih =>
    have hc := hws c (List.mem_cons_self _ _)
    rw [preprocessText_cons, ih (fun d hd => hws d (List.mem_cons_of_mem _ hd)),
      normalizeChar_table, if_neg (by omega), if_neg (by omega), if_pos hc]
    rfl

/-- C6. For an ASCII text `x`, `preprocessText` maps each character in order: an
alphanumeric character to its lowercase form, a whitespace character to exactly one
space, any other character to nothing.  So the output holds only lowercase letters,
digits and spaces, its length is the number of alphanumeric-or-whitespace characters
of `x`, and a run of whitespace, wherever it stands in `x` (also at either end), gives
as many spaces as it has characters: nothing is merged or trimmed. -/
theorem preprocessText_characterization (x : List Int) (_hascii : ∀ c ∈ x, 0 ≤ c ∧ c ≤ 127) :
    preprocessText x = x.flatMap normalizeChar
    ∧ (∀ c ∈ x, normalizeChar c =
        if (48 ≤ c ∧ c ≤ 57) ∨ (97 ≤ c ∧ c ≤ 122) then [c]
        else if 65 ≤ c ∧ c ≤ 90 then [c + 32]
        else if c = 32 ∨ (9 ≤ c ∧ c ≤ 13) then [32]
        else [])
    ∧ (∀ d ∈ preprocessText x, isNormalized d)
    ∧ (preprocessText x).length = x.countP (fun c => isalnum c || isspace c)
    ∧ (∀ a ws b : List Int, x = a ++ ws ++ b → (∀ c ∈ ws, c = 32 ∨ (9 ≤ c ∧ c ≤ 13)) →
        preprocessText x
          = preprocessText a ++ List.replicate ws.length 32 ++ preprocessText b) := by
  refine ⟨preprocessText_eq_flatMap x, fun c _ => normalizeChar_table c,
    fun d hd => isNormalized_of_mem_preprocessText hd, length_preprocessText x, ?_⟩
  intro a ws b hx hws
  rw [hx, preprocessText_append, preprocessText_append, preprocessText_whitespace ws hws]

/-- Witness for C6, at the text `" A,  b\t"`. -/
theorem preprocessText_characterization_witness :
    preprocessText (ofString " A,  b\t") = ofString " a  b "
    ∧ (preprocessText (ofString " A,  b\t")).length
        = (ofString " A,  b\t").countP (fun c => isalnum c || isspace c) :=
  ⟨by decide,
   (preprocessText_characterization (ofString " A,  b\t") (by decide)).2.2.2.1⟩

/-! ## Rolling hash: lemmas -/

theorem vecGet_natCast {α : Type} (v : List α) (k : Nat) (a : α) (h : v[k]? = some a) :
    vecGet v (k : Int) = .ok a := by
  simp [vecGet, h]

theorem horner_foldl (s : List Int) (acc : Int) :
    s.foldl (fun a c => a * BASE + c) acc = acc * BASE ^ s.length + horner s := by
  induction s generalizing acc with
  | nil => simp [horner]
  | cons c cs ih =>
    simp only [List.foldl_cons, List.length_cons, horner]
    rw [ih, ih (0 * BASE + c)]
    ring

theorem horner_append (a b : List Int) :
    horner (a ++ b) = horner a * BASE ^ b.length + horner b := by
  unfold horner
  rw [List.foldl_append, horner_foldl]
  rfl

theorem horner_concat (s : List Int) (c : Int) : horner (s ++ [c]) = horner s * BASE + c := by
  rw [horner_append]
  simp [horner]

theorem polySum_eq_horner (s : List Int) :
    ((List.range s.length).map (fun k => s.getD k 0 * BASE ^ (s.length - 1 - k))).sum
      = horner s := by
  induction s using List.reverseRecOn with
  | nil => rfl
  | append_singleton s c ih =>
    rw [horner_concat, ← ih]
    simp only [List.length_append, List.length_singleton, List.range_succ, List.map_append,
      List.sum_append, List.map_cons, List.map_nil, List.sum_cons, List.sum_nil]
    have h1 : (s ++ [c]).getD s.length 0 = c := by simp
    rw [h1]
    have h2 : (List.map (fun k => (s ++ [c]).getD k 0 * BASE ^ (s.length + 1 - 1 - k))
        (List.range s.length))
        = List.map (fun k => (s.getD k 0 * BASE ^ (s.length - 1 - k)) * BASE)
          (List.range s.length) := by
      apply List.map_congr_left
      intro k hk
      have hk' : k < s.length := List.mem_range.mp hk
      have e1 : (s ++ [c]).getD k 0 = s.getD k 0 := by
        simp [List.getD_eq_getElem?_getD, List.getElem?_append_left hk']
      have e2 : s.length + 1 - 1 - k = (s.length - 1 - k) + 1 := by omega
      rw [e1, e2, pow_succ]
      ring
    rw [h2, List.sum_map_mul_right]
    simp

theorem polyHash_eq_horner (s : List Int) : polyHash s = horner s % MOD := by
  unfold polyHash
  rw [polySum_eq_horner]

theorem horner_nonneg (s : List Int) (hs : ∀ c ∈ s, 0 ≤ c) : 0 ≤ horner s := by
  induction s using List.reverseRecOn with
  | nil => simp [horner]
  | append_singleton s c ih =>
    rw [horner_concat]
    have h1 := ih (fun d hd => hs d (List.mem_append_left _ hd))
    have h2 := hs c (by simp)
    have : (0 : Int) ≤ BASE := by decide
    positivity

theorem take_succ_eq (s : List Int) (k : Nat) (hk : k < s.length) :
    s.take (k + 1) = s.take k ++ [s.getD k 0] := by
  rw [List.take_succ]
  simp [List.getD_eq_getElem?_getD, List.getElem?_eq_getElem hk]

theorem prefixHash_eq (s : List Int) (hs : ∀ c ∈ s, 0 ≤ c) (k : Nat) (hk : k ≤ s.length) :
    prefixHash s k = horner (s.take k) % MOD := by
  induction k with
  | zero => simp [prefixHash, horner]
  | succ k ih =>
    have hk' : k < s.length := by omega
    have ihk := ih (by omega)
    have hc : 0 ≤ s.getD k 0 := by
      apply hs
      simp [List.getD_eq_getElem?_getD, List.getElem?_eq_getElem hk']
    have hp : 0 ≤ prefixHash s k := by
      rw [ihk]; exact Int.emod_nonneg _ (by decide)
    unfold prefixHash
    rw [Int.tmod_eq_emod (by unfold BASE; omega) (by decide), take_succ_eq s k hk',
      horner_concat, ihk]
    unfold BASE MOD
    omega

theorem prefixHash_bounds (s : List Int) (hs : ∀ c ∈ s, 0 ≤ c) (k : Nat) (hk : k ≤ s.length) :
    0 ≤ prefixHash s k ∧ prefixHash s k < MOD := by
  rw [prefixHash_eq s hs k hk]
  exact ⟨Int.emod_nonneg _ (by decide), Int.emod_lt_of_pos _ (by decide)⟩

theorem powMod_eq (k : Nat) : powMod k = BASE ^ k % MOD := by
  induction k with
  | zero => decide
  | succ k ih =>
    have hp : 0 ≤ powMod k := by rw [ih]; exact Int.emod_nonneg _ (by decide)
    unfold powMod
    rw [Int.tmod_eq_emod (by unfold BASE; omega) (by decide), ih, pow_succ]
    unfold BASE MOD
    omega

theorem powMod_bounds (k : Nat) : 0 ≤ powMod k ∧ powMod k < MOD := by
  rw [powMod_eq]
  exact ⟨Int.emod_nonneg _ (by decide), Int.emod_lt_of_pos _ (by decide)⟩

/-- After `k` turns the constructor loop has filled the entries `0 .. k`. -/
theorem fill_invariant (s : List Int) (k : Nat) (hk : k ≤ s.length) :
    let hp := (List.range k).foldl (RollingHash.fillStep s)
      (List.replicate (s.length + 1) 0, List.replicate (s.length + 1) 1)
    hp.1.length = s.length + 1 ∧ hp.2.length = s.length + 1
    ∧ (∀ j, j ≤ k → hp.1[j]? = some (prefixHash s j))
    ∧ (∀ j, j ≤ k → hp.2[j]? = some (powMod j)) := by
  induction k with
  | zero =>
    refine ⟨by simp, by simp, ?_, ?_⟩
    · intro j hj
      have : j = 0 := by omega
      subst this
      simp [prefixHash]
    · intro j hj
      have : j = 0 := by omega
      subst this
      simp [powMod]
  | succ k ih =>
    obtain ⟨h1, h2, h3, h4⟩ := ih (by omega)
    simp only [List.range_succ, List.foldl_append, List.foldl_cons, List.foldl_nil]
    generalize (List.range k).foldl (RollingHash.fillStep s)
      (List.replicate (s.length + 1) 0, List.replicate (s.length + 1) 1) = hp at h1 h2 h3 h4
    unfold RollingHash.fillStep
    refine ⟨by simp [h1], by simp [h2], ?_, ?_⟩
    · intro j hj
      simp only [List.getElem?_set]
      by_cases hjk : k + 1 = j
      · subst hjk
        have hlt : k + 1 < hp.1.length := by omega
        simp [hlt, prefixHash, List.getD_eq_getElem?_getD, h3 k (le_refl k)]
      · rw [if_neg hjk]
        exact h3 j (by omega)
    · intro j hj
      simp only [List.getElem?_set]
      by_cases hjk : k + 1 = j
      · subst hjk
        have hlt : k + 1 < hp.2.length := by omega
        simp [hlt, powMod, List.getD_eq_getElem?_getD, h4 k (le_refl k)]
      · rw [if_neg hjk]
        exact h4 j (by omega)

theorem ofText_hash (s : List Int) (j : Nat) (hj : j ≤ s.length) :
    (RollingHash.ofText s).hash[j]? = some (prefixHash s j) :=
  (fill_invariant s s.length (le_refl _)).2.2.1 j hj

theorem ofText_pow (s : List Int) (j : Nat) (hj : j ≤ s.length) :
    (RollingHash.ofText s).pow[j]? = some (powMod j) :=
  (fill_invariant s s.length (le_refl _)).2.2.2 j hj

theorem ofText_hash_length (s : List Int) : (RollingHash.ofText s).hash.length = s.length + 1 :=
  (fill_invariant s s.length (le_refl _)).1

theorem ofText_pow_length (s : List Int) : (RollingHash.ofText s).pow.length = s.length + 1 :=
  (fill_invariant s s.length (le_refl _)).2.1

/-- The value `getHash` computes inside the bounds, whatever the characters are. -/
theorem getHash_ok (s : List Int) (l r : Nat) (hlr : l ≤ r) (hr : r ≤ s.length) :
    (RollingHash.ofText s).getHash l r
      = .ok (((prefixHash s r - (prefixHash s l * powMod (r - l)).tmod MOD) + MOD).tmod MOD) := by
  unfold RollingHash.getHash
  have e : ((r : Int) - (l : Int)) = ((r - l : Nat) : Int) := by omega
  rw [e, vecGet_natCast _ r _ (ofText_hash s r hr), vecGet_natCast _ l _ (ofText_hash s l (by omega)),
    vecGet_natCast _ (r - l) _ (ofText_pow s (r - l) (by omega))]
  rfl

theorem emod_sub_mul (a b p M : Int) :
    (a % M - (b % M * (p % M)) % M + M) % M = (a - b * p) % M := by
  rw [Int.add_emod_self, ← Int.mul_emod, Int.sub_emod, Int.emod_emod, Int.emod_emod,
    ← Int.sub_emod]

theorem substr_split (s : List Int) (l r : Nat) (hlr : l ≤ r) :
    s.take r = s.take l ++ substr s l (r - l) := by
  unfold substr
  have : r = l + (r - l) := by omega
  conv_lhs => rw [this]
  rw [List.take_add]

theorem length_substr (s : List Int) (l len : Nat) (h : l + len ≤ s.length) :
    (substr s l len).length = len := by
  simp [substr]; omega

theorem getHash_substr (s : List Int) (hs : ∀ c ∈ s, 0 ≤ c) (l r : Nat)
    (hlr : l ≤ r) (hr : r ≤ s.length) :
    (RollingHash.ofText s).getHash l r = .ok (polyHash (substr s l (r - l))) := by
  rw [getHash_ok s l r hlr hr]
  have hl : l ≤ s.length := by omega
  obtain ⟨a0, a1⟩ := prefixHash_bounds s hs r hr
  obtain ⟨b0, b1⟩ := prefixHash_bounds s hs l hl
  obtain ⟨p0, p1⟩ := powMod_bounds (r - l)
  have hm0 : 0 ≤ prefixHash s l * powMod (r - l) := mul_nonneg b0 p0
  rw [Int.tmod_eq_emod hm0 (by decide)]
  have hx0 := Int.emod_nonneg (prefixHash s l * powMod (r - l)) (show MOD ≠ 0 by decide)
  have hx1 := Int.emod_lt_of_pos (prefixHash s l * powMod (r - l)) (show 0 < MOD by decide)
  rw [Int.tmod_eq_emod (by omega) (by decide)]
  rw [prefixHash_eq s hs r hr, prefixHash_eq s hs l hl, powMod_eq, emod_sub_mul,
    polyHash_eq_horner, substr_split s l r hlr, horner_append,
    length_substr s l (r - l) (by omega)]
  congr 1
  ring_nf

theorem list_sum_range_eq_finset (f : Nat → Int) (n : Nat) :
    ((List.range n).map f).sum = ∑ k in Finset.range n, f k := by
  induction n with
  | zero => simp
  | succ n ih => simp [List.range_succ, Finset.sum_range_succ, ih]

theorem getD_substr (s : List Int) (l len k : Nat) (hk : k < len) :
    (substr s l len).getD k 0 = s.getD (l + k) 0 := by
  simp [substr, List.getD_eq_getElem?_getD, List.getElem?_take, hk, List.getElem?_drop]

theorem polyHash_substr_eq_sum (s : List Int) (l r : Nat) (hlr : l ≤ r) (hr : r ≤ s.length) :
    polyHash (substr s l (r - l))
      = (∑ k in Finset.Ico l r, s.getD k 0 * 256 ^ (r - 1 - k)) % 1000000007 := by
  unfold polyHash
  rw [length_substr s l (r - l) (by omega), list_sum_range_eq_finset,
    Finset.sum_Ico_eq_sum_range]
  show _ % MOD = _ % MOD
  congr 1
  apply Finset.sum_congr rfl
  intro k hk
  have hk' : k < r - l := Finset.mem_range.mp hk
  rw [getD_substr s l (r - l) k hk']
  have e : r - l - 1 - k = r - 1 - (l + k) := by omega
  rw [e]
  rfl

/-- C2. For a string `s` of character codes in `0..255` and `0 ≤ l ≤ r ≤ |s|`,
`RollingHash(s).getHash(l, r)` returns the directly computed polynomial hash of the
literal substring `s[l..r)`, that is the sum over `k` in `[l, r)` of
`code(s[k]) * 256^(r-1-k)`, reduced modulo `1000000007`, and the value lies in
`[0, 1000000007)`. -/
theorem getHash_eq_polyHash (s : List Int) (hs : ∀ c ∈ s, 0 ≤ c ∧ c ≤ 255) (l r : Nat)
    (hlr : l ≤ r) (hr : r ≤ s.length) :
    (RollingHash.ofText s).getHash l r = .ok (polyHash (substr s l (r - l)))
    ∧ polyHash (substr s l (r - l))
        = (∑ k in Finset.Ico l r, s.getD k 0 * 256 ^ (r - 1 - k)) % 1000000007
    ∧ 0 ≤ polyHash (substr s l (r - l))
    ∧ polyHash (substr s l (r - l)) < 1000000007 := by
  refine ⟨getHash_substr s (fun c hc => (hs c hc).1) l r hlr hr,
    polyHash_substr_eq_sum s l r hlr hr, ?_, ?_⟩
  · exact Int.emod_nonneg _ (by decide)
  · exact Int.emod_lt_of_pos _ (by decide)

/-- Witness for C2, at the string `"abc"` and the range `[1, 3)`. -/
theorem getHash_eq_polyHash_witness :
    (RollingHash.ofText [97, 98, 99]).getHash (1 : Nat) (3 : Nat)
      = .ok (polyHash (substr [97, 98, 99] 1 (3 - 1)))
    ∧ polyHash (substr [97, 98, 99] 1 (3 - 1)) = 25187 :=
  ⟨(getHash_eq_polyHash [97, 98, 99] (by decide) 1 3 (by decide) (by decide)).1, by decide⟩

/-! ## The hash map -/

theorem HashMap.find_pushBack (hm : HashMap) (h h' : Int) (i : Nat) :
    HashMap.find (HashMap.pushBack hm h i) h' =
      if h = h' then some ((HashMap.find hm h).getD [] ++ [i]) else HashMap.find hm h' := by
  induction hm with
  | nil =>
    by_cases e : h = h'
    · simp [HashMap.pushBack, HashMap.find, e]
    · simp [HashMap.pushBack, HashMap.find, e]
  | cons kv rest ih =>
    obtain ⟨k, v⟩ := kv
    by_cases hk : k = h
    · subst hk
      by_cases e : k = h'
      · simp [HashMap.pushBack, HashMap.find, e]
      · simp [HashMap.pushBack, HashMap.find, e]
    · by_cases e : h = h'
      · subst e
        simp [HashMap.pushBack, HashMap.find, hk, ih]
      · by_cases hk' : k = h'
        · subst hk'
          simp [HashMap.pushBack, HashMap.find, hk, e]
        · simp [HashMap.pushBack, HashMap.find, hk, hk', e, ih]

theorem HashMap.has_pushBack_self (hm : HashMap) (h : Int) (i : Nat) :
    HashMap.Has (HashMap.pushBack hm h i) h i :=
  ⟨_, by rw [HashMap.find_pushBack, if_pos rfl], by simp⟩

theorem HashMap.has_pushBack_mono (hm : HashMap) (h h' : Int) (i pos : Nat)
    (hp : HashMap.Has hm h' pos) : HashMap.Has (HashMap.pushBack hm h i) h' pos := by
  obtain ⟨ps, h1, h2⟩ := hp
  by_cases e : h = h'
  · subst e
    exact ⟨_, by rw [HashMap.find_pushBack, if_pos rfl], by simp [h1, h2]⟩
  · exact ⟨ps, by rw [HashMap.find_pushBack, if_neg e, h1], h2⟩

theorem HashMap.has_pushBack_inv (hm : HashMap) (h h' : Int) (i pos : Nat)
    (hp : HashMap.Has (HashMap.pushBack hm h i) h' pos) : HashMap.Has hm h' pos ∨ pos = i := by
  obtain ⟨ps, h1, h2⟩ := hp
  rw [HashMap.find_pushBack] at h1
  by_cases e : h = h'
  · subst e
    rw [if_pos rfl] at h1
    have h3 : (HashMap.find hm h).getD [] ++ [i] = ps := by simpa using h1
    subst h3
    rcases List.mem_append.mp h2 with h4 | h4
    · left
      cases hf : HashMap.find hm h with
      | none => simp [hf] at h4
      | some qs => exact ⟨qs, hf, by simpa [hf] using h4⟩
    · right; simpa using h4
  · rw [if_neg e] at h1
    exact Or.inl ⟨ps, h1, h2⟩

/-! ## The loop bounds -/

theorem mem_lenValues {minSize : Int} {i size : Nat} {len : Int} :
    len ∈ lenValues minSize i size ↔ minSize ≤ len ∧ (i : Int) + len ≤ size := by
  unfold lenValues
  simp only [List.mem_map, List.mem_range]
  constructor
  · rintro ⟨k, hk, rfl⟩
    omega
  · rintro ⟨h1, h2⟩
    exact ⟨(len - minSize).toNat, by omega, by omega⟩

theorem lenValues_eq_nil {minSize : Int} {i size : Nat} (h : (size : Int) < i + minSize) :
    lenValues minSize i size = [] := by
  unfold lenValues
  have : ((size : Int) - i - minSize + 1).toNat = 0 := by omega
  rw [this]; rfl

theorem lenValues_last {minSize : Int} {i size : Nat} (hi : i ≤ size)
    (h : (i : Int) + minSize ≤ size) :
    ∃ init, lenValues minSize i size = init ++ [((size - i : Nat) : Int)]
      ∧ ∀ len ∈ init, len < ((size - i : Nat) : Int) := by
  unfold lenValues
  obtain ⟨k, hk⟩ : ∃ k, ((size : Int) - i - minSize + 1).toNat = k + 1 :=
    ⟨((size : Int) - i - minSize).toNat, by omega⟩
  rw [hk, List.range_succ, List.map_append]
  refine ⟨List.map (fun (k : Nat) => minSize + (k : Int)) (List.range k), ?_, ?_⟩
  · congr 1
    simp only [List.map_cons, List.map_nil, List.cons.injEq, and_true]
    omega
  · intro len hlen
    simp only [List.mem_map, List.mem_range] at hlen
    obtain ⟨j, hj, rfl⟩ := hlen
    omega

/-! ## The loop header in `int` arithmetic -/

theorem lensFrom_cases (minSize : Int) (i size : Nat) :
    lensFrom minSize i size = .ok (lenValues minSize i size)
      ∨ lensFrom minSize i size = .error Fault.signedOverflow := by
  unfold lensFrom
  split_ifs
  · exact Or.inr rfl
  · exact Or.inr rfl
  · exact Or.inl rfl

theorem lensFrom_ok {minSize : Int} {i size : Nat} {lens : List Int}
    (h : lensFrom minSize i size = .ok lens) : lens = lenValues minSize i size := by
  rcases lensFrom_cases minSize i size with e | e
  · rw [e] at h
    cases h
    rfl
  · rw [e] at h
    cases h

theorem lensFrom_ok_self {minSize : Int} {i size : Nat} {lens : List Int}
    (h : lensFrom minSize i size = .ok lens) :
    lensFrom minSize i size = .ok (lenValues minSize i size) := by
  rw [h, lensFrom_ok h]

theorem lensFrom_of_noOverflow {minSize : Int} {i size : Nat} (h : NoOverflow minSize size)
    (hi : i < size) : lensFrom minSize i size = .ok (lenValues minSize i size) := by
  obtain ⟨h1, h2⟩ := h
  unfold lensFrom
  rw [if_neg (by omega), if_neg (by omega)]

theorem lensFrom_overflow {minSize : Int} {i size : Nat} (h : INT_MAX < (i : Int) + minSize) :
    lensFrom minSize i size = .error Fault.signedOverflow := by
  unfold lensFrom
  rw [if_pos h]

theorem noOverflow_iff (minSize : Int) (size : Nat) :
    NoOverflow minSize size ↔ (size : Int) < 2147483647 ∧ (size : Int) + minSize ≤ 2147483648 := by
  unfold NoOverflow INT_MAX
  constructor <;> rintro ⟨h1, h2⟩ <;> exact ⟨h1, by omega⟩

theorem noOverflow_mono {minSize minSize' : Int} {size : Nat} (h : NoOverflow minSize size)
    (hle : minSize' ≤ minSize) : NoOverflow minSize' size :=
  ⟨h.1, le_trans (by omega) h.2⟩

/-! ## The literal comparison -/

theorem verifyAt_eq (proc1 proc2 : List Int) (i : Nat) (len : Int) (ps : List Nat)
    (acc : Nat × List Int) :
    verifyAt proc1 proc2 i len ps acc =
      if (acc.1 : Int) < len ∧
          ∃ pos ∈ ps, substr proc1 i len.toNat = substr proc2 pos len.toNat then
        (len.toNat, substr proc1 i len.toNat)
      else acc := by
  induction ps generalizing acc with
  | nil => simp [verifyAt]
  | cons pos rest ih =>
    unfold verifyAt
    rw [ih]
    by_cases hlt : (acc.1 : Int) < len
    · by_cases heq : substr proc1 i len.toNat = substr proc2 pos len.toNat
      · have h1 : ¬ ((len.toNat : Int) < len) := by omega
        simp [hlt, heq, h1]
      · simp [hlt, heq]
    · have h2 : ¬ (len > (acc.1 : Int)) := by omega
      simp [hlt, h2]

theorem verifyAt_congr (proc1 proc2 : List Int) (i : Nat) (len : Int) (ps ps' : List Nat)
    (acc : Nat × List Int)
    (h : (acc.1 : Int) < len →
      ((∃ pos ∈ ps, substr proc1 i len.toNat = substr proc2 pos len.toNat) ↔
        (∃ pos ∈ ps', substr proc1 i len.toNat = substr proc2 pos len.toNat))) :
    verifyAt proc1 proc2 i len ps acc = verifyAt proc1 proc2 i len ps' acc := by
  rw [verifyAt_eq, verifyAt_eq]
  by_cases hlt : (acc.1 : Int) < len
  · simp only [hlt, true_and, h hlt]
  · simp [hlt]

/-! ## Building the index of `text2` -/

theorem indexLens_spec (getHash2 : Int → Int → Except Fault Int) (i : Nat) (lens : List Int)
    (hm : HashMap) (htot : ∀ len ∈ lens, ∃ h, getHash2 i (i + len) = .ok h) :
    ∃ hm', indexLens getHash2 i lens hm = .ok hm'
      ∧ (∀ h pos, HashMap.Has hm h pos → HashMap.Has hm' h pos)
      ∧ (∀ len ∈ lens, ∀ h, getHash2 i (i + len) = .ok h → HashMap.Has hm' h i)
      ∧ (∀ h pos, HashMap.Has hm' h pos → HashMap.Has hm h pos ∨ pos = i) := by
  induction lens generalizing hm with
  | nil => exact ⟨hm, rfl, fun _ _ hp => hp, by simp, fun _ _ hp => Or.inl hp⟩
  | cons len rest ih =>
    obtain ⟨h0, hh0⟩ := htot len (List.mem_cons_self _ _)
    obtain ⟨hm', e, m1, m2, m3⟩ := ih (HashMap.pushBack hm h0 i)
      (fun l hl => htot l (List.mem_cons_of_mem _ hl))
    refine ⟨hm', ?_, ?_, ?_, ?_⟩
    · simp only [indexLens, hh0]
      exact e
    · intro h pos hp
      exact m1 h pos (HashMap.has_pushBack_mono hm h0 h i pos hp)
    · intro l hl h hh
      rcases List.mem_cons.mp hl with rfl | hl'
      · rw [hh0] at hh
        cases hh
        exact m1 _ _ (HashMap.has_pushBack_self hm h0 i)
      · exact m2 l hl' h hh
    · intro h pos hp
      rcases m3 h pos hp with hp' | hp'
      · exact HashMap.has_pushBack_inv hm h0 h i pos hp'
      · exact Or.inr hp'

theorem indexPositions_spec (getHash2 : Int → Int → Except Fault Int) (minSize : Int)
    (size2 : Nat) (is : List Nat) (hm : HashMap)
    (hhead : ∀ i ∈ is, lensFrom minSize i size2 = .ok (lenValues minSize i size2))
    (htot : ∀ i ∈ is, ∀ len ∈ lenValues minSize i size2, ∃ h, getHash2 i (i + len) = .ok h) :
    ∃ hm', indexPositions getHash2 minSize size2 is hm = .ok hm'
      ∧ (∀ h pos, HashMap.Has hm h pos → HashMap.Has hm' h pos)
      ∧ (∀ i ∈ is, ∀ len ∈ lenValues minSize i size2, ∀ h,
          getHash2 i (i + len) = .ok h → HashMap.Has hm' h i)
      ∧ (∀ h pos, HashMap.Has hm' h pos → HashMap.Has hm h pos ∨ pos ∈ is) := by
  induction is generalizing hm with
  | nil => exact ⟨hm, rfl, fun _ _ hp => hp, by simp, fun _ _ hp => Or.inl hp⟩
  | cons i rest ih =>
    obtain ⟨hm1, e1, a1, a2, a3⟩ := indexLens_spec getHash2 i (lenValues minSize i size2) hm
      (htot i (List.mem_cons_self _ _))
    obtain ⟨hm', e, m1, m2, m3⟩ := ih hm1 (fun j hj => hhead j (List.mem_cons_of_mem _ hj))
      (fun j hj => htot j (List.mem_cons_of_mem _ hj))
    refine ⟨hm', ?_, ?_, ?_, ?_⟩
    · rw [indexPositions, hhead i (List.mem_cons_self _ _)]
      show (indexLens getHash2 i (lenValues minSize i size2) hm >>= _) = _
      rw [e1]
      exact e
    · intro h pos hp
      exact m1 h pos (a1 h pos hp)
    · intro j hj len hlen h hh
      rcases List.mem_cons.mp hj with rfl | hj'
      · exact m1 _ _ (a2 len hlen h hh)
      · exact m2 j hj' len hlen h hh
    · intro h pos hp
      rcases m3 h pos hp with hp' | hp'
      · rcases a3 h pos hp' with hp'' | hp''
        · exact Or.inl hp''
        · exact Or.inr (hp'' ▸ List.mem_cons_self _ _)
      · exact Or.inr (List.mem_cons_of_mem _ hp')

theorem bind_ok_inv {α β : Type} {x : Except Fault α} {f : α → Except Fault β} {b : β}
    (h : (x >>= f) = .ok b) : ∃ a, x = .ok a ∧ f a = .ok b := by
  cases x with
  | error e => cases h
  | ok a => exact ⟨a, rfl, h⟩

theorem indexPositions_ok_head (getHash2 : Int → Int → Except Fault Int) (minSize : Int)
    (size2 : Nat) (is : List Nat) (hm hm' : HashMap)
    (h : indexPositions getHash2 minSize size2 is hm = .ok hm') :
    ∀ i ∈ is, lensFrom minSize i size2 = .ok (lenValues minSize i size2) := by
  induction is generalizing hm with
  | nil => simp
  | cons i rest ih =>
    unfold indexPositions at h
    obtain ⟨lens, e1, h1⟩ := bind_ok_inv h
    obtain ⟨hm1, _, h2⟩ := bind_ok_inv h1
    intro j hj
    rcases List.mem_cons.mp hj with rfl | hj'
    · exact lensFrom_ok_self e1
    · exact ih hm1 h2 j hj'

theorem not_has_nil (h : Int) (pos : Nat) : ¬ HashMap.Has ([] : HashMap) h pos := by
  rintro ⟨ps, h1, _⟩
  simp [HashMap.find] at h1

/-! ## The scan against the hash-free reading -/

theorem scanLens_eq_ref (getHash1 : Int → Int → Except Fault Int) (hm : HashMap)
    (proc1 proc2 : List Int) (i : Nat) (lens : List Int) (acc : Nat × List Int)
    (hs : IndexServes getHash1 hm proc1 proc2 i lens) :
    scanLens getHash1 hm proc1 proc2 i lens acc = .ok (scanLensRef proc1 proc2 i lens acc) := by
  induction lens generalizing acc with
  | nil => rfl
  | cons len rest ih =>
    have hs' : IndexServes getHash1 hm proc1 proc2 i rest :=
      ⟨fun l hl => hs.total l (List.mem_cons_of_mem _ hl),
       fun l hl => hs.complete l (List.mem_cons_of_mem _ hl), hs.sound⟩
    obtain ⟨h, hh⟩ := hs.total len (List.mem_cons_self _ _)
    simp only [scanLens, scanLensRef, hh]
    show (match HashMap.find hm h with
      | some positions =>
        scanLens getHash1 hm proc1 proc2 i rest (verifyAt proc1 proc2 i len positions acc)
      | none => scanLens getHash1 hm proc1 proc2 i rest acc) = _
    cases hf : HashMap.find hm h with
    | some ps =>
      simp only
      rw [ih _ hs']
      congr 2
      apply verifyAt_congr
      intro hlt
      constructor
      · rintro ⟨pos, hpos, heq⟩
        exact ⟨pos, List.mem_range.mpr (hs.sound h pos ⟨ps, hf, hpos⟩), heq⟩
      · rintro ⟨pos, hpos, heq⟩
        obtain ⟨ps', hf', hpos'⟩ := hs.complete len (List.mem_cons_self _ _) (by omega) pos
          (List.mem_range.mp hpos) heq h hh
        rw [hf] at hf'
        cases hf'
        exact ⟨pos, hpos', heq⟩
    | none =>
      simp only
      rw [ih _ hs']
      congr 2
      rw [verifyAt_eq, if_neg]
      rintro ⟨hlt, pos, hpos, heq⟩
      obtain ⟨ps', hf', _⟩ := hs.complete len (List.mem_cons_self _ _) (by omega) pos
        (List.mem_range.mp hpos) heq h hh
      rw [hf] at hf'
      cases hf'

theorem scanFrom_eq_ref (getHash1 : Int → Int → Except Fault Int) (hm : HashMap)
    (proc1 proc2 : List Int) (minSize : Int)
    (hs : ∀ i, i < proc1.length →
      IndexServes getHash1 hm proc1 proc2 i (lenValues minSize i proc1.length))
    (hhead : ∀ i, i < proc1.length →
      lensFrom minSize i proc1.length = .ok (lenValues minSize i proc1.length))
    (fuel i : Nat) (st : ScanState) :
    scanFrom getHash1 hm proc1 proc2 minSize fuel i st
      = scanFromRef proc1 proc2 minSize fuel i st := by
  induction fuel generalizing i st with
  | zero => rfl
  | succ fuel ih =>
    unfold scanFrom scanFromRef
    by_cases hi : i < proc1.length
    · simp only [hi, if_true, hhead i hi]
      show (scanLens getHash1 hm proc1 proc2 i (lenValues minSize i proc1.length) (0, []) >>= _)
        = _
      rw [scanLens_eq_ref _ _ _ _ _ _ _ (hs i hi)]
      show (if (scanLensRef proc1 proc2 i (lenValues minSize i proc1.length) (0, [])).1 > 0 then _
        else _) = _
      simp only [ih]
    · simp only [hi, if_false]

/-- One turn of the scan at a position whose loop header does not overflow: the
scan goes on from `i + maxLen` after accepting the region `(i, maxLen)`, and from
`i + 1` when no length verifies; `maxLen` is the value of the hash-free reading. -/
theorem scanFrom_step (getHash1 : Int → Int → Except Fault Int) (hm : HashMap)
    (proc1 proc2 : List Int) (minSize : Int) (fuel i : Nat) (st : ScanState)
    (hi : i < proc1.length)
    (hs : IndexServes getHash1 hm proc1 proc2 i (lenValues minSize i proc1.length))
    (hhead : lensFrom minSize i proc1.length = .ok (lenValues minSize i proc1.length)) :
    scanFrom getHash1 hm proc1 proc2 minSize (fuel + 1) i st =
      if (scanLensRef proc1 proc2 i (lenValues minSize i proc1.length) (0, [])).1 > 0 then
        scanFrom getHash1 hm proc1 proc2 minSize fuel
          (i + (scanLensRef proc1 proc2 i (lenValues minSize i proc1.length) (0, [])).1)
          ((st.attempt i).accept i
            (scanLensRef proc1 proc2 i (lenValues minSize i proc1.length) (0, [])).1
            (scanLensRef proc1 proc2 i (lenValues minSize i proc1.length) (0, [])).2)
      else scanFrom getHash1 hm proc1 proc2 minSize fuel (i + 1) (st.attempt i) := by
  rw [scanFrom]
  simp only [hi, if_true, hhead]
  show (scanLens getHash1 hm proc1 proc2 i (lenValues minSize i proc1.length) (0, []) >>= _) = _
  rw [scanLens_eq_ref _ _ _ _ _ _ _ hs]
  rfl

/-- Whenever the scan returns a state, the hash-free reading returns the same one. -/
theorem scanFrom_ok_ref (getHash1 : Int → Int → Except Fault Int) (hm : HashMap)
    (proc1 proc2 : List Int) (minSize : Int)
    (hs : ∀ i, i < proc1.length →
      IndexServes getHash1 hm proc1 proc2 i (lenValues minSize i proc1.length))
    (fuel i : Nat) (st st' : ScanState)
    (h : scanFrom getHash1 hm proc1 proc2 minSize fuel i st = .ok st') :
    scanFromRef proc1 proc2 minSize fuel i st = .ok st' := by
  induction fuel generalizing i st with
  | zero => exact h
  | succ fuel ih =>
    by_cases hi : i < proc1.length
    · rcases lensFrom_cases minSize i proc1.length with e | e
      · rw [scanFrom_step _ _ _ _ _ _ _ _ hi (hs i hi) e] at h
        rw [scanFromRef]
        simp only [hi, if_true]
        split_ifs at h ⊢ with hpos
        · exact ih _ _ h
        · exact ih _ _ h
      · rw [scanFrom] at h
        simp only [hi, if_true, e] at h
        cases h
    · rw [scanFrom] at h
      rw [scanFromRef]
      simp only [hi, if_false] at h ⊢
      exact h

/-! ## The program's scan is the hash-free scan -/

theorem getHash_int (s : List Int) (hs : ∀ c ∈ s, 0 ≤ c) (i : Nat) (len : Int) (h0 : 0 ≤ len)
    (h : (i : Int) + len ≤ s.length) :
    (RollingHash.ofText s).getHash i (i + len) = .ok (polyHash (substr s i len.toNat)) := by
  have e : (i : Int) + len = ((i + len.toNat : Nat) : Int) := by omega
  rw [e, getHash_substr s hs i (i + len.toNat) (by omega) (by omega)]
  congr 3
  omega

theorem getHash_int_total (s : List Int) (i : Nat) (len : Int) (h0 : 0 ≤ len)
    (h : (i : Int) + len ≤ s.length) :
    ∃ v, (RollingHash.ofText s).getHash i (i + len) = .ok v := by
  have e : (i : Int) + len = ((i + len.toNat : Nat) : Int) := by omega
  rw [e, getHash_ok s i (i + len.toNat) (by omega) (by omega)]
  exact ⟨_, rfl⟩

theorem substr_length_le (s : List Int) (pos len : Nat) : (substr s pos len).length ≤ len := by
  simp [substr]

theorem substr_eq_bound (p1 p2 : List Int) (i pos len : Nat) (h1 : i + len ≤ p1.length)
    (heq : substr p1 i len = substr p2 pos len) : pos + len ≤ p2.length ∨ len = 0 := by
  have hl : (substr p2 pos len).length = len := by
    rw [← heq, length_substr p1 i len h1]
  simp only [substr, List.length_take, List.length_drop] at hl
  omega

theorem index_serves (proc1 proc2 : List Int) (h1 : ∀ c ∈ proc1, 0 ≤ c)
    (h2 : ∀ c ∈ proc2, 0 ≤ c) (minSize : Int) (hmin : 0 ≤ minSize)
    (hhead : ∀ i ∈ List.range proc2.length,
      lensFrom minSize i proc2.length = .ok (lenValues minSize i proc2.length)) :
    ∃ hm, indexPositions (RollingHash.ofText proc2).getHash minSize proc2.length
        (List.range proc2.length) [] = .ok hm
      ∧ ∀ i, i < proc1.length →
        IndexServes (RollingHash.ofText proc1).getHash hm proc1 proc2 i
          (lenValues minSize i proc1.length) := by
  obtain ⟨hm, e, _, m2, m3⟩ := indexPositions_spec (RollingHash.ofText proc2).getHash minSize
    proc2.length (List.range proc2.length) [] hhead (by
      intro i _ len hlen
      obtain ⟨a, b⟩ := mem_lenValues.mp hlen
      exact ⟨_, getHash_int proc2 h2 i len (by omega) b⟩)
  refine ⟨hm, e, fun i _ => ⟨?_, ?_, ?_⟩⟩
  · intro len hlen
    obtain ⟨a, b⟩ := mem_lenValues.mp hlen
    exact ⟨_, getHash_int proc1 h1 i len (by omega) b⟩
  · intro len hlen hpos pos hp heq h hh
    obtain ⟨a, b⟩ := mem_lenValues.mp hlen
    rw [getHash_int proc1 h1 i len (by omega) b] at hh
    cases hh
    have hb : pos + len.toNat ≤ proc2.length := by
      rcases substr_eq_bound proc1 proc2 i pos len.toNat (by omega) heq with hb | hb
      · exact hb
      · omega
    apply m2 pos (List.mem_range.mpr hp) len (mem_lenValues.mpr ⟨a, by omega⟩)
    rw [getHash_int proc2 h2 pos len (by omega) (by omega), heq]
  · intro h pos hp
    rcases m3 h pos hp with hp' | hp'
    · exact absurd hp' (not_has_nil h pos)
    · exact List.mem_range.mp hp'

/-- Whenever the index of `text2` is built, it serves every position of `text1`. -/
theorem index_serves_of_ok (proc1 proc2 : List Int) (h1 : ∀ c ∈ proc1, 0 ≤ c)
    (h2 : ∀ c ∈ proc2, 0 ≤ c) (minSize : Int) (hmin : 0 ≤ minSize) (hm : HashMap)
    (e : indexPositions (RollingHash.ofText proc2).getHash minSize proc2.length
        (List.range proc2.length) [] = .ok hm) :
    ∀ i, i < proc1.length →
      IndexServes (RollingHash.ofText proc1).getHash hm proc1 proc2 i
        (lenValues minSize i proc1.length) := by
  obtain ⟨hm', e', hs⟩ := index_serves proc1 proc2 h1 h2 minSize hmin
    (indexPositions_ok_head _ _ _ _ _ _ e)
  rw [e] at e'
  cases e'
  exact hs

theorem rollingScanWith_ok_bind (getHash1 getHash2 : Int → Int → Except Fault Int)
    (proc1 proc2 : List Int) (minSize : Int) (hm : HashMap)
    (e : indexPositions getHash2 minSize proc2.length (List.range proc2.length) [] = .ok hm) :
    rollingScanWith getHash1 getHash2 proc1 proc2 minSize =
      scanFrom getHash1 hm proc1 proc2 minSize proc1.length 0 (ScanState.init proc1.length) := by
  unfold rollingScanWith
  rw [e]
  rfl

/-- The rolling-hash scan computes the hash-free greedy scan when no loop header
overflows: equal substrings have equal hashes, so the map lookup misses no literal
match. -/
theorem rollingScan_eq_ref (proc1 proc2 : List Int) (h1 : ∀ c ∈ proc1, 0 ≤ c)
    (h2 : ∀ c ∈ proc2, 0 ≤ c) (minSize : Int) (hmin : 0 ≤ minSize)
    (hfit1 : NoOverflow minSize proc1.length) (hfit2 : NoOverflow minSize proc2.length) :
    rollingScan proc1 proc2 minSize = rollingScanRef proc1 proc2 minSize := by
  obtain ⟨hm, e, hs⟩ := index_serves proc1 proc2 h1 h2 minSize hmin
    (fun i hi => lensFrom_of_noOverflow hfit2 (List.mem_range.mp hi))
  unfold rollingScan rollingScanRef
  rw [rollingScanWith_ok_bind _ _ _ _ _ hm e]
  exact scanFrom_eq_ref _ hm proc1 proc2 minSize hs
    (fun i hi => lensFrom_of_noOverflow hfit1 hi) _ _ _

/-- Whenever the rolling-hash scan returns a state, it is the state of the hash-free
greedy scan. -/
theorem rollingScan_ok_ref (proc1 proc2 : List Int) (h1 : ∀ c ∈ proc1, 0 ≤ c)
    (h2 : ∀ c ∈ proc2, 0 ≤ c) (minSize : Int) (hmin : 0 ≤ minSize) (st : ScanState)
    (h : rollingScan proc1 proc2 minSize = .ok st) :
    rollingScanRef proc1 proc2 minSize = .ok st := by
  unfold rollingScan rollingScanWith at h
  obtain ⟨hm, e, h'⟩ := bind_ok_inv h
  exact scanFrom_ok_ref _ hm proc1 proc2 minSize
    (index_serves_of_ok proc1 proc2 h1 h2 minSize hmin hm e) _ _ _ _ h'

theorem preprocessText_nonneg (text : List Int) : ∀ c ∈ preprocessText text, 0 ≤ c := by
  intro c hc
  have := isNormalized_of_mem_preprocessText hc
  unfold isNormalized at this
  omega

/-! ## The hash-free scan -/

theorem scanFromRef_ok (proc1 proc2 : List Int) (minSize : Int) (fuel i : Nat) (st : ScanState)
    (hf : proc1.length ≤ i + fuel) :
    ∃ st', scanFromRef proc1 proc2 minSize fuel i st = .ok st' := by
  induction fuel generalizing i st with
  | zero =>
    unfold scanFromRef
    rw [if_neg (by omega)]
    exact ⟨st, rfl⟩
  | succ fuel ih =>
    unfold scanFromRef
    by_cases hi : i < proc1.length
    · simp only [hi, if_true]
      split_ifs with hb
      · exact ih _ _ (by omega)
      · exact ih _ _ (by omega)
    · simp only [hi, if_false]
      exact ⟨st, rfl⟩

theorem scanLensRef_append (proc1 proc2 : List Int) (i : Nat) (a b : List Int)
    (acc : Nat × List Int) :
    scanLensRef proc1 proc2 i (a ++ b) acc
      = scanLensRef proc1 proc2 i b (scanLensRef proc1 proc2 i a acc) := by
  induction a generalizing acc with
  | nil => rfl
  | cons len rest ih =>
    show scanLensRef proc1 proc2 i (rest ++ b) _ = _
    rw [ih]
    rfl

theorem scanLensRef_no_match (proc1 proc2 : List Int) (i : Nat) (lens : List Int)
    (acc : Nat × List Int)
    (h : ∀ len ∈ lens, ¬ ((acc.1 : Int) < len ∧ ∃ pos ∈ List.range proc2.length,
      substr proc1 i len.toNat = substr proc2 pos len.toNat)) :
    scanLensRef proc1 proc2 i lens acc = acc := by
  induction lens with
  | nil => rfl
  | cons len rest ih =>
    unfold scanLensRef
    rw [verifyAt_eq, if_neg (h len (List.mem_cons_self _ _))]
    exact ih (fun l hl => h l (List.mem_cons_of_mem _ hl))

theorem scanLensRef_fst_bound (proc1 proc2 : List Int) (i : Nat) (lens : List Int)
    (acc : Nat × List Int) (b : Int) (hacc : (acc.1 : Int) < b) (h : ∀ len ∈ lens, len < b) :
    ((scanLensRef proc1 proc2 i lens acc).1 : Int) < b := by
  induction lens generalizing acc with
  | nil => exact hacc
  | cons len rest ih =>
    unfold scanLensRef
    apply ih _ _ (fun l hl => h l (List.mem_cons_of_mem _ hl))
    rw [verifyAt_eq]
    split_ifs with hc
    · have := h len (List.mem_cons_self _ _)
      show ((len.toNat : Nat) : Int) < b
      omega
    · exact hacc

theorem scanFromRef_no_match (proc1 proc2 : List Int) (minSize : Int)
    (h : ∀ i, i < proc1.length →
      (scanLensRef proc1 proc2 i (lenValues minSize i proc1.length) (0, [])).1 = 0)
    (fuel i : Nat) (st : ScanState) (hf : proc1.length ≤ i + fuel) :
    scanFromRef proc1 proc2 minSize fuel i st = .ok (st.skipTo i proc1.length) := by
  induction fuel generalizing i st with
  | zero =>
    unfold scanFromRef
    rw [if_neg (by omega)]
    have e : proc1.length - i = 0 := by omega
    simp [ScanState.skipTo, e]
  | succ fuel ih =>
    unfold scanFromRef
    by_cases hi : i < proc1.length
    · simp only [hi, if_true, h i hi, gt_iff_lt, lt_self_iff_false, if_false]
      rw [ih (i + 1) (st.attempt i) (by omega)]
      have e : proc1.length - i = (proc1.length - (i + 1)) + 1 := by omega
      simp only [ScanState.skipTo, ScanState.attempt, e, List.range'_succ, List.append_assoc,
        List.singleton_append]
    · simp only [hi, if_false]
      have e : proc1.length - i = 0 := by omega
      simp [ScanState.skipTo, e]

/-! ## Marking a region -/

theorem markRange_spec (matched : List Bool) (i maxLen : Nat) :
    (markRange matched i maxLen).length = matched.length
    ∧ ∀ j, (markRange matched i maxLen)[j]? =
        if i ≤ j ∧ j < i + maxLen ∧ j < matched.length then some true else matched[j]? := by
  induction maxLen with
  | zero =>
    refine ⟨rfl, fun j => ?_⟩
    rw [if_neg (by omega)]
    rfl
  | succ k ih =>
    obtain ⟨hl, hg⟩ := ih
    have e : markRange matched i (k + 1) = (markRange matched i k).set (i + k) true := by
      unfold markRange
      rw [List.range_succ, List.foldl_append]
      rfl
    rw [e]
    refine ⟨by simp [hl], fun j => ?_⟩
    rw [List.getElem?_set, hg, hl]
    by_cases hj : i + k = j
    · subst hj
      by_cases hb : i + k < matched.length
      · simp [hb]
      · have : matched[i + k]? = none := List.getElem?_eq_none (by omega)
        simp [hb, this]
    · rw [if_neg hj]
      by_cases hc : i ≤ j ∧ j < i + k ∧ j < matched.length
      · rw [if_pos hc, if_pos (by omega)]
      · rw [if_neg hc, if_neg (by omega)]

theorem markRange_all (n : Nat) :
    markRange (List.replicate n false) 0 n = List.replicate n true := by
  obtain ⟨hl, hg⟩ := markRange_spec (List.replicate n false) 0 n
  apply List.ext_getElem?
  intro j
  rw [hg]
  by_cases hj : j < n
  · rw [if_pos (by simp; omega)]
    simp [List.getElem?_replicate, hj]
  · rw [if_neg (by simp; omega)]
    simp [List.getElem?_replicate, hj]

/-! ## Soundness of the scan for arbitrary hash oracles -/

theorem scanLens_sound (getHash1 : Int → Int → Except Fault Int) (hm : HashMap)
    (proc1 proc2 : List Int) (i : Nat) (lens : List Int) (acc acc' : Nat × List Int)
    (h : scanLens getHash1 hm proc1 proc2 i lens acc = .ok acc') :
    acc' = acc ∨ ∃ len ∈ lens, (acc.1 : Int) < len
      ∧ acc' = (len.toNat, substr proc1 i len.toNat)
      ∧ ∃ pos, substr proc1 i len.toNat = substr proc2 pos len.toNat := by
  induction lens generalizing acc with
  | nil =>
    left
    simp only [scanLens] at h
    cases h
    rfl
  | cons len rest ih =>
    unfold scanLens at h
    cases hg : getHash1 i (i + len) with
    | error e =>
      rw [hg] at h
      cases h
    | ok hv =>
      rw [hg] at h
      change (match HashMap.find hm hv with
        | some positions =>
          scanLens getHash1 hm proc1 proc2 i rest (verifyAt proc1 proc2 i len positions acc)
        | none => scanLens getHash1 hm proc1 proc2 i rest acc) = _ at h
      cases hf : HashMap.find hm hv with
      | none =>
        rw [hf] at h
        rcases ih acc h with e | ⟨l, hl, a, b, c⟩
        · exact Or.inl e
        · exact Or.inr ⟨l, List.mem_cons_of_mem _ hl, a, b, c⟩
      | some ps =>
        rw [hf] at h
        simp only at h
        rw [verifyAt_eq] at h
        split_ifs at h with hc
        · obtain ⟨hlt, pos, _, heq⟩ := hc
          rcases ih _ h with e | ⟨l, hl, a, b, c⟩
          · exact Or.inr ⟨len, List.mem_cons_self _ _, hlt, e, pos, heq⟩
          · refine Or.inr ⟨l, List.mem_cons_of_mem _ hl, ?_, b, c⟩
            simp only at a
            omega
        · rcases ih acc h with e | ⟨l, hl, a, b, c⟩
          · exact Or.inl e
          · exact Or.inr ⟨l, List.mem_cons_of_mem _ hl, a, b, c⟩

theorem scanInv_init (proc1 proc2 : List Int) (minSize : Int) (n : Nat) :
    ScanInv proc1 proc2 minSize (ScanState.init n) :=
  ⟨by simp [ScanState.init], rfl, rfl, by simp [ScanState.init]⟩

theorem scanInv_accept (proc1 proc2 : List Int) (minSize : Int) (st : ScanState) (i : Nat)
    (best : Nat × List Int) (hst : ScanInv proc1 proc2 minSize st)
    (hr : RegionLiteral proc1 proc2 minSize (i, best.1))
    (hb : best.2 = substr proc1 i best.1) :
    ScanInv proc1 proc2 minSize (st.accept i best.1 best.2) := by
  have hlen : best.2.length = best.1 := by
    rw [hb]
    exact length_substr proc1 i best.1 hr.2.2.1
  refine ⟨?_, ?_, ?_, ?_⟩
  · intro r hmem
    simp only [ScanState.accept, List.mem_append, List.mem_singleton] at hmem
    rcases hmem with hmem | rfl
    · exact hst.regions r hmem
    · exact hr
  · simp [ScanState.accept, hst.count]
  · simp only [ScanState.accept]
    split_ifs
    · exact hlen
    · exact hst.largestLen
  · intro hne
    simp only [ScanState.accept] at hne ⊢
    split_ifs at hne ⊢ with hgt
    · exact ⟨(i, best.1), by simp, rfl, hb⟩
    · obtain ⟨r, hr1, hr2, hr3⟩ := hst.largest hne
      exact ⟨r, List.mem_append_left _ hr1, hr2, hr3⟩

theorem scanInv_attempt (proc1 proc2 : List Int) (minSize : Int) (st : ScanState) (i : Nat)
    (hst : ScanInv proc1 proc2 minSize st) : ScanInv proc1 proc2 minSize (st.attempt i) :=
  ⟨hst.regions, hst.count, hst.largestLen, hst.largest⟩

theorem scanFrom_sound (getHash1 : Int → Int → Except Fault Int) (hm : HashMap)
    (proc1 proc2 : List Int) (minSize : Int) (fuel i : Nat) (st st' : ScanState)
    (hst : ScanInv proc1 proc2 minSize st)
    (h : scanFrom getHash1 hm proc1 proc2 minSize fuel i st = .ok st') :
    ScanInv proc1 proc2 minSize st' := by
  induction fuel generalizing i st with
  | zero =>
    unfold scanFrom at h
    split_ifs at h
    cases h
    exact hst
  | succ fuel ih =>
    unfold scanFrom at h
    split_ifs at h with hi
    · obtain ⟨lens, hl0, h⟩ := bind_ok_inv h
      obtain rfl := lensFrom_ok hl0
      cases hb : scanLens getHash1 hm proc1 proc2 i (lenValues minSize i proc1.length) (0, []) with
      | error e =>
        rw [hb] at h
        cases h
      | ok best =>
        rw [hb] at h
        change (if best.1 > 0 then _ else _) = _ at h
        split_ifs at h with hpos
        · apply ih _ _ _ h
          rcases scanLens_sound _ _ _ _ _ _ _ _ hb with e | ⟨len, hl, hlt, e, pos, heq⟩
          · rw [e] at hpos
            exact absurd hpos (by simp)
          · obtain ⟨a, b⟩ := mem_lenValues.mp hl
            simp only [Nat.cast_zero] at hlt
            have hbound : pos + len.toNat ≤ proc2.length := by
              rcases substr_eq_bound proc1 proc2 i pos len.toNat (by omega) heq with hb' | hb'
              · exact hb'
              · omega
            apply scanInv_accept _ _ _ _ _ _ (scanInv_attempt _ _ _ _ i hst)
            · rw [e]
              exact ⟨by simp only; omega, by simp only; omega, by simp only; omega,
                pos, hbound, heq⟩
            · rw [e]
        · exact ih _ _ (scanInv_attempt _ _ _ _ i hst) h
    · cases h
      exact hst

theorem rollingScanWith_sound (getHash1 getHash2 : Int → Int → Except Fault Int)
    (proc1 proc2 : List Int) (minSize : Int) (st : ScanState)
    (h : rollingScanWith getHash1 getHash2 proc1 proc2 minSize = .ok st) :
    ScanInv proc1 proc2 minSize st := by
  unfold rollingScanWith at h
  cases hm : indexPositions getHash2 minSize proc2.length (List.range proc2.length) [] with
  | error e =>
    rw [hm] at h
    cases h
  | ok hashMap =>
    rw [hm] at h
    exact scanFrom_sound _ _ _ _ _ _ _ _ _ (scanInv_init _ _ _ _) h

/-! ## The result record -/

theorem checkWithRollingHash_of_empty (text1 text2 : List Int) (minSize : Int)
    (h : preprocessText text1 = [] ∨ preprocessText text2 = []) :
    checkWithRollingHash text1 text2 minSize = .ok {} := by
  unfold checkWithRollingHash
  rcases h with h | h <;> simp [h]

theorem checkWithRollingHash_of_scan (text1 text2 : List Int) (minSize : Int) (st : ScanState)
    (h1 : preprocessText text1 ≠ []) (h2 : preprocessText text2 ≠ [])
    (hst : rollingScan (preprocessText text1) (preprocessText text2) minSize = .ok st) :
    checkWithRollingHash text1 text2 minSize = .ok
      { similarity := (matchedCount st : ℚ) / ((preprocessText text1).length : ℚ) * 100
        rollingMatches := st.rollingMatches
        kmpMatches := 0
        largestSubstringLength := st.largestSubstringLength
        largestSubstring := st.largestSubstring } := by
  unfold checkWithRollingHash
  have e : ((preprocessText text1).isEmpty || (preprocessText text2).isEmpty) = false := by
    simp [List.isEmpty_iff, h1, h2]
  simp only [e, hst, Bool.false_eq_true, if_false]
  rfl

/-- The record is the default one on the early return, and is built from the state of
the scan otherwise. -/
theorem checkWithRollingHash_ok_inv (text1 text2 : List Int) (minSize : Int)
    (res : PlagiarismResult) (h : checkWithRollingHash text1 text2 minSize = .ok res) :
    ((preprocessText text1 = [] ∨ preprocessText text2 = []) ∧ res = {})
    ∨ (preprocessText text1 ≠ [] ∧ preprocessText text2 ≠ [] ∧
        ∃ st, rollingScan (preprocessText text1) (preprocessText text2) minSize = .ok st
          ∧ res = { similarity :=
                      (matchedCount st : ℚ) / ((preprocessText text1).length : ℚ) * 100
                    rollingMatches := st.rollingMatches
                    kmpMatches := 0
                    largestSubstringLength := st.largestSubstringLength
                    largestSubstring := st.largestSubstring }) := by
  by_cases he : preprocessText text1 = [] ∨ preprocessText text2 = []
  · rw [checkWithRollingHash_of_empty _ _ _ he] at h
    cases h
    exact Or.inl ⟨he, rfl⟩
  · have h1 : preprocessText text1 ≠ [] := fun e => he (Or.inl e)
    have h2 : preprocessText text2 ≠ [] := fun e => he (Or.inr e)
    cases hst : rollingScan (preprocessText text1) (preprocessText text2) minSize with
    | error e =>
      unfold checkWithRollingHash at h
      have e0 : ((preprocessText text1).isEmpty || (preprocessText text2).isEmpty) = false := by
        simp [List.isEmpty_iff, h1, h2]
      simp only [e0, hst, Bool.false_eq_true, if_false] at h
      cases h
    | ok st =>
      rw [checkWithRollingHash_of_scan _ _ _ st h1 h2 hst] at h
      cases h
      exact Or.inr ⟨h1, h2, st, rfl, rfl⟩

theorem rollingScan_total (text1 text2 : List Int) (minSize : Int) (hmin : 0 ≤ minSize)
    (hfit1 : NoOverflow minSize (preprocessText text1).length)
    (hfit2 : NoOverflow minSize (preprocessText text2).length) :
    ∃ st, rollingScan (preprocessText text1) (preprocessText text2) minSize = .ok st := by
  rw [rollingScan_eq_ref _ _ (preprocessText_nonneg text1) (preprocessText_nonneg text2) _ hmin
    hfit1 hfit2]
  exact scanFromRef_ok _ _ _ _ _ _ (by omega)

/-! ## Identical texts -/

theorem scanFromRef_done (proc1 proc2 : List Int) (minSize : Int) (fuel i : Nat)
    (st : ScanState) (hi : proc1.length ≤ i) :
    scanFromRef proc1 proc2 minSize fuel i st = .ok st := by
  cases fuel with
  | zero => unfold scanFromRef; rw [if_neg (by omega)]
  | succ fuel => unfold scanFromRef; rw [if_neg (by omega)]

theorem substr_full (p : List Int) : substr p 0 p.length = p := by
  simp [substr]

theorem scanLensRef_self (p : List Int) (minSize : Int) (hmin : 1 ≤ minSize)
    (hn : minSize ≤ p.length) :
    scanLensRef p p 0 (lenValues minSize 0 p.length) (0, []) = (p.length, p) := by
  obtain ⟨init, e, hinit⟩ := lenValues_last (Nat.zero_le p.length)
    (show ((0 : Nat) : Int) + minSize ≤ p.length by omega)
  rw [e, scanLensRef_append]
  have hb := scanLensRef_fst_bound p p 0 init (0, []) ((p.length - 0 : Nat) : Int)
    (by simp only [Nat.cast_zero]; omega) hinit
  simp only [scanLensRef]
  rw [verifyAt_eq, if_pos]
  · simp only [Nat.sub_zero, Int.toNat_ofNat, substr_full]
  · refine ⟨hb, 0, List.mem_range.mpr (by omega), rfl⟩

theorem rollingScanRef_self (p : List Int) (minSize : Int) (hmin : 1 ≤ minSize)
    (hn : minSize ≤ p.length) :
    rollingScanRef p p minSize = .ok
      { matched := List.replicate p.length true
        rollingMatches := 1
        largestSubstringLength := p.length
        largestSubstring := p
        regions := [(0, p.length)]
        attempts := [0] } := by
  unfold rollingScanRef
  obtain ⟨k, hk⟩ : ∃ k, p.length = k + 1 := ⟨p.length - 1, by omega⟩
  have hpos : 0 < p.length := by omega
  rw [show scanFromRef p p minSize p.length = scanFromRef p p minSize (k + 1) by rw [hk]]
  unfold scanFromRef
  rw [if_pos hpos]
  simp only [scanLensRef_self p minSize hmin hn, gt_iff_lt, hpos, if_true]
  rw [scanFromRef_done _ _ _ _ _ _ (by omega)]
  simp [ScanState.accept, ScanState.attempt, ScanState.init, markRange_all, hpos]

theorem count_replicate_true (n : Nat) : (List.replicate n true).count true = n :=
  List.count_replicate_self true n

theorem count_replicate_false (n : Nat) : (List.replicate n false).count true = 0 := by
  rw [List.count_replicate]
  rfl

/-- C1, counterexample. At `x = "ab"` and `minSize = 2147483647` the normalized text
has 2 characters, fewer than `minSize`.  The loop that indexes `text2` tests
`i + len <= 2` at `i = 1` with `len = 2147483647`: the sum overflows an `int`, and
the call returns no result value (so none with similarity 0). -/
theorem checkWithRollingHash_identical_overflow :
    ((preprocessText (ofString "ab")).length : Int) < 2147483647
    ∧ lensFrom 2147483647 1 (preprocessText (ofString "ab")).length
        = .error Fault.signedOverflow
    ∧ checkWithRollingHash (ofString "ab") (ofString "ab") 2147483647
        = .error Fault.signedOverflow
    ∧ ¬ ∃ res, checkWithRollingHash (ofString "ab") (ofString "ab") 2147483647 = .ok res := by
  have h : checkWithRollingHash (ofString "ab") (ofString "ab") 2147483647
      = .error Fault.signedOverflow := by decide
  refine ⟨by decide, by decide, h, ?_⟩
  rintro ⟨res, hres⟩
  rw [h] at hres
  cases hres

/-- C1, amended. For every text `x` and every `minSize ≥ 1` for which no test
`i + len` overflows an `int` (the normalized text has fewer than `2147483647`
characters and its length plus `minSize` is at most `2147483648`): when the
normalized text has at least `minSize` characters, `checkWithRollingHash(x, x, minSize)`
marks every position of it as matched (the matched count is its length and the
similarity is 100); when it has fewer, the similarity is 0, `rollingMatches` is 0 and
`largestSubstring` is empty. -/
theorem checkWithRollingHash_identical (x : List Int) (minSize : Int) (hmin : 1 ≤ minSize)
    (hlen : ((preprocessText x).length : Int) < 2147483647)
    (hsum : ((preprocessText x).length : Int) + minSize ≤ 2147483648) :
    (minSize ≤ (preprocessText x).length →
      ∃ st res, rollingScan (preprocessText x) (preprocessText x) minSize = .ok st
        ∧ st.matched = List.replicate (preprocessText x).length true
        ∧ matchedCount st = (preprocessText x).length
        ∧ checkWithRollingHash x x minSize = .ok res
        ∧ res.similarity = 100)
    ∧ (((preprocessText x).length : Int) < minSize →
      ∃ res, checkWithRollingHash x x minSize = .ok res
        ∧ res.similarity = 0 ∧ res.rollingMatches = 0 ∧ res.largestSubstring = []) := by
  have hnn := preprocessText_nonneg x
  have hfit : NoOverflow minSize (preprocessText x).length :=
    (noOverflow_iff _ _).mpr ⟨hlen, hsum⟩
  constructor
  · intro hn
    have hne : preprocessText x ≠ [] := by
      intro e
      rw [e] at hn
      simp at hn
      omega
    have hscan := rollingScan_eq_ref _ _ hnn hnn minSize (by omega) hfit hfit
    rw [rollingScanRef_self _ minSize hmin hn] at hscan
    refine ⟨_, _, hscan, rfl, count_replicate_true _,
      checkWithRollingHash_of_scan x x minSize _ hne hne hscan, ?_⟩
    have hlen : ((preprocessText x).length : ℚ) ≠ 0 := by
      simpa using hne
    simp only [matchedCount, count_replicate_true]
    field_simp
  · intro hn
    by_cases hne : preprocessText x = []
    · exact ⟨_, checkWithRollingHash_of_empty x x minSize (Or.inl hne), rfl, rfl, rfl⟩
    · have hscan := rollingScan_eq_ref _ _ hnn hnn minSize (by omega) hfit hfit
      unfold rollingScanRef at hscan
      rw [scanFromRef_no_match _ _ _ (fun i _ => by
        rw [lenValues_eq_nil (by omega)]; rfl) _ _ _ (by omega)] at hscan
      refine ⟨_, checkWithRollingHash_of_scan x x minSize _ hne hne hscan, ?_, rfl, rfl⟩
      simp only [matchedCount, ScanState.skipTo, ScanState.init, count_replicate_false]
      simp

/-- Witness for C1, at the text `"Ab, c"` with `minSize = 2`. -/
theorem checkWithRollingHash_identical_witness :
    ∃ st res, rollingScan (preprocessText (ofString "Ab, c")) (preprocessText (ofString "Ab, c")) 2
        = .ok st
      ∧ st.matched = List.replicate (preprocessText (ofString "Ab, c")).length true
      ∧ matchedCount st = (preprocessText (ofString "Ab, c")).length
      ∧ checkWithRollingHash (ofString "Ab, c") (ofString "Ab, c") 2 = .ok res
      ∧ res.similarity = 100 :=
  (checkWithRollingHash_identical (ofString "Ab, c") 2 (by decide) (by decide) (by decide)).1
    (by decide)

/-! ## Accepted regions are literal -/

/-- C4. For all texts and every `minSize ≥ 1`, every region `(i, maxLen)` the scan
accepts is a literal substring of the normalized `text2`, of length at least `minSize`,
whatever the two hash oracles answer (so also under collisions); in every result the
program returns, `largestSubstringLength` is the length of `largestSubstring`, and a
non-empty `largestSubstring` occurs literally in both normalized texts.  The program
does return a result when no test `i + len` overflows an `int` (each normalized text
has fewer than `2147483647` characters and its length plus `minSize` is at most
`2147483648`). -/
theorem accepted_regions_literal (text1 text2 : List Int) (minSize : Int) (hmin : 1 ≤ minSize) :
    (∀ (getHash1 getHash2 : Int → Int → Except Fault Int) (st : ScanState),
      rollingScanWith getHash1 getHash2 (preprocessText text1) (preprocessText text2) minSize
          = .ok st →
        ∀ r ∈ st.regions, RegionLiteral (preprocessText text1) (preprocessText text2) minSize r)
    ∧ (∀ res, checkWithRollingHash text1 text2 minSize = .ok res →
        res.largestSubstring.length = res.largestSubstringLength
        ∧ (res.largestSubstring ≠ [] →
            (minSize ≤ (res.largestSubstringLength : Int))
            ∧ (∃ i, occursAt (preprocessText text1) res.largestSubstring i)
            ∧ (∃ pos, occursAt (preprocessText text2) res.largestSubstring pos)))
    ∧ (((preprocessText text1).length : Int) < 2147483647 →
        ((preprocessText text1).length : Int) + minSize ≤ 2147483648 →
        ((preprocessText text2).length : Int) < 2147483647 →
        ((preprocessText text2).length : Int) + minSize ≤ 2147483648 →
        ∃ st res, rollingScan (preprocessText text1) (preprocessText text2) minSize = .ok st
          ∧ checkWithRollingHash text1 text2 minSize = .ok res) := by
  refine ⟨?_, ?_, ?_⟩
  · intro g1 g2 st h
    exact (rollingScanWith_sound g1 g2 _ _ _ _ h).regions
  · intro res hres
    rcases checkWithRollingHash_ok_inv _ _ _ _ hres with ⟨_, rfl⟩ | ⟨h1, h2, st, hst, rfl⟩
    · exact ⟨rfl, fun h => absurd rfl h⟩
    · have hinv := rollingScanWith_sound _ _ _ _ _ _ hst
      refine ⟨hinv.largestLen, ?_⟩
      intro hnonempty
      simp only at hnonempty
      have hl0 : st.largestSubstringLength ≠ 0 := by
        intro e
        have := hinv.largestLen
        rw [e] at this
        exact hnonempty (List.length_eq_zero.mp this)
      obtain ⟨r, hr, hr2, hr3⟩ := hinv.largest hl0
      obtain ⟨a, b, c, pos, d, e⟩ := hinv.regions r hr
      simp only
      refine ⟨by rw [← hr2]; exact a, ⟨r.1, ?_, ?_⟩, ⟨pos, ?_, ?_⟩⟩
      · rw [hinv.largestLen, ← hr2]; exact c
      · rw [hinv.largestLen, ← hr2, hr3]
      · rw [hinv.largestLen, ← hr2]; exact d
      · rw [hinv.largestLen, ← hr2, hr3, e]
  · intro a1 a2 b1 b2
    obtain ⟨st, hst⟩ := rollingScan_total text1 text2 minSize (by omega)
      ((noOverflow_iff _ _).mpr ⟨a1, a2⟩) ((noOverflow_iff _ _).mpr ⟨b1, b2⟩)
    by_cases hne : preprocessText text1 = [] ∨ preprocessText text2 = []
    · exact ⟨st, _, hst, checkWithRollingHash_of_empty text1 text2 minSize hne⟩
    · exact ⟨st, _, hst, checkWithRollingHash_of_scan text1 text2 minSize st
        (fun e => hne (Or.inl e)) (fun e => hne (Or.inr e)) hst⟩

/-- Witness for C4, at `text1 = "abc abc"`, `text2 = "xx abc"` and `minSize = 3`. -/
theorem accepted_regions_literal_witness :
    ∃ res, checkWithRollingHash (ofString "abc abc") (ofString "xx abc") 3 = .ok res
      ∧ res.largestSubstring.length = res.largestSubstringLength
      ∧ (res.largestSubstring ≠ [] →
          ((3 : Int) ≤ (res.largestSubstringLength : Int))
          ∧ (∃ i, occursAt (preprocessText (ofString "abc abc")) res.largestSubstring i)
          ∧ (∃ pos, occursAt (preprocessText (ofString "xx abc")) res.largestSubstring pos)) := by
  obtain ⟨_, res, _, hres⟩ :=
    (accepted_regions_literal (ofString "abc abc") (ofString "xx abc") 3 (by decide)).2.2
      (by decide) (by decide) (by decide) (by decide)
  exact ⟨res, hres,
    (accepted_regions_literal (ofString "abc abc") (ofString "xx abc") 3 (by decide)).2.1
      res hres⟩

/-! ## Texts without a common character -/

theorem head_mem_substr (p : List Int) (i len : Nat) (hi : i < p.length) (hlen : 0 < len) :
    p[i] ∈ substr p i len := by
  unfold substr
  rw [List.drop_eq_getElem_cons hi]
  obtain ⟨k, rfl⟩ : ∃ k, len = k + 1 := ⟨len - 1, by omega⟩
  rw [List.take_succ_cons]
  exact List.mem_cons_self _ _

theorem mem_of_mem_substr {p : List Int} {pos len : Nat} {c : Int} (h : c ∈ substr p pos len) :
    c ∈ p :=
  List.mem_of_mem_drop (List.mem_of_mem_take h)

theorem rollingScanRef_disjoint (proc1 proc2 : List Int) (minSize : Int)
    (hno : ∀ c, c ∈ proc1 → c ∉ proc2) :
    rollingScanRef proc1 proc2 minSize
      = .ok ((ScanState.init proc1.length).skipTo 0 proc1.length) := by
  unfold rollingScanRef
  apply scanFromRef_no_match _ _ _ _ _ _ _ (by omega)
  intro i hi
  rw [scanLensRef_no_match]
  intro len hlen
  rintro ⟨hlt, pos, _, heq⟩
  simp only [Nat.cast_zero] at hlt
  have h1 : proc1[i] ∈ substr proc1 i len.toNat := head_mem_substr proc1 i _ hi (by omega)
  rw [heq] at h1
  exact hno _ (List.getElem_mem hi) (mem_of_mem_substr h1)

/-- C7, counterexample. The normalized forms of `"ab"` and `"xy"` have no character
in common.  At `minSize = 2147483647` the loop that indexes `text2` tests
`i + len <= 2` at `i = 1` with `len = 2147483647`: the sum overflows an `int`, and
the call returns no result value. -/
theorem checkWithRollingHash_disjoint_overflow :
    (∀ c, c ∈ preprocessText (ofString "ab") → c ∉ preprocessText (ofString "xy"))
    ∧ lensFrom 2147483647 1 (preprocessText (ofString "xy")).length
        = .error Fault.signedOverflow
    ∧ checkWithRollingHash (ofString "ab") (ofString "xy") 2147483647
        = .error Fault.signedOverflow
    ∧ ¬ ∃ res, checkWithRollingHash (ofString "ab") (ofString "xy") 2147483647 = .ok res := by
  have h : checkWithRollingHash (ofString "ab") (ofString "xy") 2147483647
      = .error Fault.signedOverflow := by decide
  refine ⟨by decide, by decide, h, ?_⟩
  rintro ⟨res, hres⟩
  rw [h] at hres
  cases hres

/-- C7, amended. For two texts whose normalized forms have no character in common,
and every `minSize ≥ 1` for which no test `i + len` overflows an `int` (each
normalized text has fewer than `2147483647` characters and its length plus `minSize`
is at most `2147483648`), `checkWithRollingHash` returns similarity 0,
`rollingMatches = 0`, `largestSubstringLength = 0` and an empty `largestSubstring`. -/
theorem checkWithRollingHash_disjoint (text1 text2 : List Int) (minSize : Int)
    (hmin : 1 ≤ minSize)
    (hlen1 : ((preprocessText text1).length : Int) < 2147483647)
    (hsum1 : ((preprocessText text1).length : Int) + minSize ≤ 2147483648)
    (hlen2 : ((preprocessText text2).length : Int) < 2147483647)
    (hsum2 : ((preprocessText text2).length : Int) + minSize ≤ 2147483648)
    (hno : ∀ c, c ∈ preprocessText text1 → c ∉ preprocessText text2) :
    checkWithRollingHash text1 text2 minSize = .ok
      { similarity := 0
        rollingMatches := 0
        kmpMatches := 0
        largestSubstringLength := 0
        largestSubstring := [] } := by
  by_cases hne : preprocessText text1 = [] ∨ preprocessText text2 = []
  · exact checkWithRollingHash_of_empty text1 text2 minSize hne
  · have h1 : preprocessText text1 ≠ [] := fun e => hne (Or.inl e)
    have h2 : preprocessText text2 ≠ [] := fun e => hne (Or.inr e)
    have hscan := rollingScan_eq_ref _ _ (preprocessText_nonneg text1)
      (preprocessText_nonneg text2) minSize (by omega)
      ((noOverflow_iff _ _).mpr ⟨hlen1, hsum1⟩) ((noOverflow_iff _ _).mpr ⟨hlen2, hsum2⟩)
    rw [rollingScanRef_disjoint _ _ minSize hno] at hscan
    rw [checkWithRollingHash_of_scan text1 text2 minSize _ h1 h2 hscan]
    simp only [matchedCount, ScanState.skipTo, ScanState.init, count_replicate_false]
    simp

/-- Witness for C7, at `text1 = "abcabd"`, `text2 = "XYZ-123"` and `minSize = 2`. -/
theorem checkWithRollingHash_disjoint_witness :
    checkWithRollingHash (ofString "abcabd") (ofString "XYZ-123") 2 = .ok
      { similarity := 0
        rollingMatches := 0
        kmpMatches := 0
        largestSubstringLength := 0
        largestSubstring := [] } :=
  checkWithRollingHash_disjoint (ofString "abcabd") (ofString "XYZ-123") 2 (by decide)
    (by decide) (by decide) (by decide) (by decide) (by decide)

/-! ## Empty normalized text -/

/-- C8. If the normalized form of either text is empty, `checkWithRollingHash` returns
the zero-valued result for every `minSize`: the test is made before any hash index is
built and before the division, so the result is an ordinary one even for a negative
`minSize` (for which building the index would read out of bounds) and for an empty
`text1` (for which the quotient would have a zero denominator). -/
theorem checkWithRollingHash_empty (text1 text2 : List Int) (minSize : Int)
    (h : preprocessText text1 = [] ∨ preprocessText text2 = []) :
    checkWithRollingHash text1 text2 minSize = .ok
      { similarity := 0
        rollingMatches := 0
        kmpMatches := 0
        largestSubstringLength := 0
        largestSubstring := [] } :=
  checkWithRollingHash_of_empty text1 text2 minSize h

/-- Witness for C8, at `text1 = "?!"`, `text2 = "abc"` and `minSize = -1`; without the
early return the index of `text2` could not be built for this `minSize`. -/
theorem checkWithRollingHash_empty_witness :
    checkWithRollingHash (ofString "?!") (ofString "abc") (-1) = .ok
      { similarity := 0
        rollingMatches := 0
        kmpMatches := 0
        largestSubstringLength := 0
        largestSubstring := [] }
    ∧ rollingScan (preprocessText (ofString "abc")) (preprocessText (ofString "abc")) (-1)
        = .error Fault.outOfBounds :=
  ⟨checkWithRollingHash_empty (ofString "?!") (ofString "abc") (-1) (Or.inl (by decide)),
   by decide⟩

/-! ## The end-to-end example -/

set_option maxRecDepth 100000 in
theorem example_preprocess1 :
    preprocessText (ofString "Machine learning is powerful")
      = ofString "machine learning is powerful" := by
  decide

set_option maxRecDepth 100000 in
theorem example_preprocess2 :
    preprocessText (ofString "Machine learning is very powerful and useful")
      = ofString "machine learning is very powerful and useful" := by
  decide

set_option maxRecDepth 100000 in
theorem example_scanRef :
    rollingScanRef (ofString "machine learning is powerful")
      (ofString "machine learning is very powerful and useful") 5
    = .ok { matched := List.replicate 28 true
            rollingMatches := 2
            largestSubstringLength := 20
            largestSubstring := ofString "machine learning is "
            regions := [(0, 20), (20, 8)]
            attempts := [0, 20] } := by
  decide

theorem example_scan :
    rollingScan (preprocessText (ofString "Machine learning is powerful"))
      (preprocessText (ofString "Machine learning is very powerful and useful")) 5
    = .ok { matched := List.replicate 28 true
            rollingMatches := 2
            largestSubstringLength := 20
            largestSubstring := ofString "machine learning is "
            regions := [(0, 20), (20, 8)]
            attempts := [0, 20] } := by
  rw [rollingScan_eq_ref _ _ (preprocessText_nonneg _) (preprocessText_nonneg _) 5 (by decide)
      (by rw [example_preprocess1]; decide) (by rw [example_preprocess2]; decide),
    example_preprocess1, example_preprocess2]
  exact example_scanRef

set_option maxRecDepth 100000 in
theorem example_check :
    checkWithRollingHash (ofString "Machine learning is powerful")
      (ofString "Machine learning is very powerful and useful") 5
    = .ok { similarity := 100
            rollingMatches := 2
            kmpMatches := 0
            largestSubstringLength := 20
            largestSubstring := ofString "machine learning is " } := by
  rw [checkWithRollingHash_of_scan _ _ 5 _ (by rw [example_preprocess1]; decide)
    (by rw [example_preprocess2]; decide) example_scan]
  have h1 : (preprocessText (ofString "Machine learning is powerful")).length = 28 := by
    rw [example_preprocess1]; decide
  have h2 : List.count true (List.replicate 28 true) = 28 := count_replicate_true 28
  simp only [matchedCount, h1, h2]
  norm_num

/-- C9. For `text1 = "Machine learning is powerful"`, `text2 = "Machine learning is
very powerful and useful"` and `minSize = 5`, `checkWithRollingHash` reports
`rollingMatches > 0` (it is 2) and a `largestSubstring` (it is `"machine learning is "`)
that contains `"machine learning is"`. -/
theorem example_rollingMatches :
    ∃ res, checkWithRollingHash (ofString "Machine learning is powerful")
        (ofString "Machine learning is very powerful and useful") 5 = .ok res
      ∧ 0 < res.rollingMatches
      ∧ res.rollingMatches = 2
      ∧ res.largestSubstring = ofString "machine learning is "
      ∧ ofString "machine learning is" <:+: res.largestSubstring := by
  refine ⟨_, example_check, by decide, rfl, rfl, ?_⟩
  exact ⟨[], [32], by decide⟩

/-- C10, as stated, fails: for the example texts with `minSize = 5` the similarity
returned is not below 100, and the number of matched positions of the normalized
`text1` is not below its length 28. -/
theorem example_not_strictly_between :
    ∃ res st, checkWithRollingHash (ofString "Machine learning is powerful")
        (ofString "Machine learning is very powerful and useful") 5 = .ok res
      ∧ rollingScan (preprocessText (ofString "Machine learning is powerful"))
        (preprocessText (ofString "Machine learning is very powerful and useful")) 5 = .ok st
      ∧ (preprocessText (ofString "Machine learning is powerful")).length = 28
      ∧ ¬ (0 < res.similarity ∧ res.similarity < 100)
      ∧ ¬ (0 < matchedCount st ∧ matchedCount st < 28) := by
  refine ⟨_, _, example_check, example_scan, ?_, ?_, ?_⟩
  · rw [example_preprocess1]
    decide
  · rintro ⟨_, h⟩
    simp at h
  · rintro ⟨_, h⟩
    have h2 : List.count true (List.replicate 28 true) = 28 := count_replicate_true 28
    simp only [matchedCount, h2] at h
    omega

/-- C10, amended. For the example texts with `minSize = 5` the scan accepts the two
regions `[0, 20)` and `[20, 28)` of the normalized `text1`, so all its 28 positions
are matched and the similarity returned is exactly 100. -/
theorem example_similarity :
    ∃ res st, checkWithRollingHash (ofString "Machine learning is powerful")
        (ofString "Machine learning is very powerful and useful") 5 = .ok res
      ∧ rollingScan (preprocessText (ofString "Machine learning is powerful"))
        (preprocessText (ofString "Machine learning is very powerful and useful")) 5 = .ok st
      ∧ (preprocessText (ofString "Machine learning is powerful")).length = 28
      ∧ st.regions = [(0, 20), (20, 8)]
      ∧ matchedCount st = 28
      ∧ res.similarity = 100 := by
  refine ⟨_, _, example_check, example_scan, ?_, rfl, count_replicate_true 28, rfl⟩
  rw [example_preprocess1]
  decide

/-! ## Reads inside the bounds -/

theorem strGet_of_lt (s : List Int) (i : Nat) (h : i < s.length) :
    strGet s (i : Int) = .ok (s.getD i 0) := by
  simp [strGet, List.getElem?_eq_getElem h, List.getD_eq_getElem?_getD]

theorem vecGet_pred {α : Type} (v : List α) (j : Nat) (a : α) (hj : 0 < j)
    (h : v[j - 1]? = some a) : vecGet v ((j : Int) - 1) = .ok a := by
  have e : ((j : Int) - 1) = ((j - 1 : Nat) : Int) := by omega
  rw [e]
  simp [vecGet, h]

/-! ## Matches of a prefix of the pattern -/

theorem matchesEndingAt_zero (p t : List Int) (i : Nat) : MatchesEndingAt p t 0 i :=
  ⟨Nat.zero_le _, fun _ hx => absurd hx (Nat.not_lt_zero _)⟩

theorem matchesEndingAt_succ {p t : List Int} {k i : Nat} (h : MatchesEndingAt p t k i)
    (hc : p.getD k 0 = t.getD i 0) : MatchesEndingAt p t (k + 1) (i + 1) := by
  obtain ⟨h1, h2⟩ := h
  refine ⟨by omega, fun x hx => ?_⟩
  by_cases hxk : x < k
  · have := h2 x hxk
    rw [this]
    congr 1
    omega
  · have : x = k := by omega
    subst this
    rw [hc]
    congr 1
    omega

theorem matchesEndingAt_pred {p t : List Int} {k i : Nat}
    (h : MatchesEndingAt p t (k + 1) (i + 1)) :
    MatchesEndingAt p t k i ∧ p.getD k 0 = t.getD i 0 := by
  obtain ⟨h1, h2⟩ := h
  refine ⟨⟨by omega, fun x hx => ?_⟩, ?_⟩
  · rw [h2 x (by omega)]
    congr 1
    omega
  · rw [h2 k (by omega)]
    congr 1
    omega

theorem matchesEndingAt_trans {p t : List Int} {k j i : Nat} (h : MatchesEndingAt p t j i)
    (hb : MatchesEndingAt p p k j) : MatchesEndingAt p t k i := by
  obtain ⟨h1, h2⟩ := h
  obtain ⟨b1, b2⟩ := hb
  refine ⟨by omega, fun x hx => ?_⟩
  rw [b2 x hx, h2 (j - k + x) (by omega)]
  congr 1
  omega

theorem matchesEndingAt_border {p t : List Int} {k j i : Nat} (h : MatchesEndingAt p t j i)
    (hk : MatchesEndingAt p t k i) (hkj : k ≤ j) : MatchesEndingAt p p k j := by
  obtain ⟨h1, h2⟩ := h
  obtain ⟨k1, k2⟩ := hk
  refine ⟨hkj, fun x hx => ?_⟩
  rw [k2 x hx, h2 (j - k + x) (by omega)]
  congr 1
  omega

theorem list_eq_of_getD {a b : List Int} (hl : a.length = b.length)
    (h : ∀ x, x < a.length → a.getD x 0 = b.getD x 0) : a = b := by
  apply List.ext_getElem hl
  intro x h1 h2
  have := h x h1
  simpa [List.getD_eq_getElem?_getD, List.getElem?_eq_getElem h1,
    List.getElem?_eq_getElem h2] using this

theorem occursAt_iff (t p : List Int) (s : Nat) :
    occursAt t p s ↔ s + p.length ≤ t.length ∧ MatchesEndingAt p t p.length (s + p.length) := by
  unfold occursAt MatchesEndingAt
  constructor
  · rintro ⟨h1, h2⟩
    refine ⟨h1, by omega, fun x hx => ?_⟩
    have e : s + p.length - p.length + x = s + x := by omega
    rw [e, ← getD_substr t s p.length x hx, h2]
  · rintro ⟨h1, _, h3⟩
    refine ⟨h1, ?_⟩
    have hl : (substr t s p.length).length = p.length := by
      simp [substr]; omega
    apply list_eq_of_getD hl
    intro x hx
    rw [hl] at hx
    rw [getD_substr t s p.length x hx, h3 x hx]
    congr 1
    omega

/-! ## The longest prefix-suffix table -/

theorem matchesEndingAt_succ_le {p t : List Int} {i b : Nat}
    (hc : ∀ k, k < i + 1 → MatchesEndingAt p t k i → p.getD k 0 = t.getD i 0 → k ≤ b)
    {k : Nat} (hk : MatchesEndingAt p t k (i + 1)) : k ≤ b + 1 := by
  cases k with
  | zero => omega
  | succ k' =>
    obtain ⟨h1, h2⟩ := matchesEndingAt_pred hk
    have := hc k' (by have := hk.1; omega) h1 h2
    omega

theorem lpsInv_init (p : List Int) (hm : 1 ≤ p.length) :
    LpsInv p 0 1 (List.replicate p.length 0) := by
  have hb : IsLongestBorder p 1 0 :=
    ⟨by omega, matchesEndingAt_zero p p 1, fun k hk _ => by omega⟩
  refine ⟨le_refl _, hm, by omega, by simp, matchesEndingAt_zero p p 1,
    fun k hk _ _ => by omega, ?_⟩
  intro x hx
  have : x = 0 := by omega
  subst this
  refine ⟨0, ?_, hb⟩
  rw [List.getElem?_replicate, if_pos (by omega)]

theorem lpsInv_match {p : List Int} {len i : Nat} {lps : List Nat} (h : LpsInv p len i lps)
    (hi : i < p.length) (hc : p.getD i 0 = p.getD len 0) :
    LpsInv p (len + 1) (i + 1) (lps.set i (len + 1)) := by
  have hmax : ∀ k, MatchesEndingAt p p k (i + 1) → k < i + 1 → k ≤ len + 1 := by
    intro k hk hki
    cases k with
    | zero => omega
    | succ k' =>
      obtain ⟨h1, h2⟩ := matchesEndingAt_pred hk
      have := h.cand k' (by omega) h1 h2
      omega
  refine ⟨by omega, by omega, by have := h.len_lt; omega, by simp [h.size],
    matchesEndingAt_succ h.border hc.symm, fun k hk hm _ => hmax k hm hk, ?_⟩
  intro x hx
  by_cases hxi : x = i
  · subst hxi
    refine ⟨len + 1, ?_, by have := h.len_lt; omega, matchesEndingAt_succ h.border hc.symm,
      fun k hk hm => hmax k hm hk⟩
    rw [List.getElem?_set]
    simp [h.size, hi]
  · obtain ⟨b, hb1, hb2⟩ := h.filled x (by omega)
    refine ⟨b, ?_, hb2⟩
    rw [List.getElem?_set, if_neg (fun e => hxi e.symm)]
    exact hb1

theorem lpsInv_fallback {p : List Int} {len i b : Nat} {lps : List Nat}
    (h : LpsInv p len i lps) (hc : p.getD i 0 ≠ p.getD len 0)
    (hb : IsLongestBorder p len b) : LpsInv p b i lps := by
  obtain ⟨b1, b2, b3⟩ := hb
  refine ⟨h.i_pos, h.i_le, by have := h.len_lt; omega, h.size,
    matchesEndingAt_trans h.border b2, ?_, h.filled⟩
  intro k hk hm hkc
  have h1 := h.cand k hk hm hkc
  have h2 : k ≠ len := by
    intro e
    subst e
    exact hc hkc.symm
  exact b3 k (by omega) (matchesEndingAt_border h.border hm h1)

theorem lpsInv_zero {p : List Int} {i : Nat} {lps : List Nat} (h : LpsInv p 0 i lps)
    (hi : i < p.length) (hc : p.getD i 0 ≠ p.getD 0 0) :
    LpsInv p 0 (i + 1) (lps.set i 0) := by
  have hmax : ∀ k, MatchesEndingAt p p k (i + 1) → k < i + 1 → k ≤ 0 := by
    intro k hk hki
    cases k with
    | zero => omega
    | succ k' =>
      obtain ⟨h1, h2⟩ := matchesEndingAt_pred hk
      have h3 := h.cand k' (by omega) h1 h2
      have : k' = 0 := by omega
      subst this
      exact absurd h2.symm hc
  refine ⟨by omega, by omega, by omega, by simp [h.size],
    matchesEndingAt_zero p p (i + 1), fun k hk hm _ => hmax k hm hk, ?_⟩
  intro x hx
  by_cases hxi : x = i
  · subst hxi
    refine ⟨0, ?_, by omega, matchesEndingAt_zero p p (x + 1), fun k hk hm => hmax k hm hk⟩
    rw [List.getElem?_set]
    simp [h.size, hi]
  · obtain ⟨b, hb1, hb2⟩ := h.filled x (by omega)
    refine ⟨b, ?_, hb2⟩
    rw [List.getElem?_set, if_neg (fun e => hxi e.symm)]
    exact hb1

theorem computeLPSLoop_spec (p : List Int) (fuel len i : Nat) (lps : List Nat)
    (h : LpsInv p len i lps) (hf : 2 * (p.length - i) + len ≤ fuel) :
    ∃ lps', computeLPSLoop p p.length fuel len i lps = .ok lps' ∧ IsLpsTable p lps' := by
  induction fuel generalizing len i lps with
  | zero =>
    have hi : ¬ i < p.length := by omega
    refine ⟨lps, by simp [computeLPSLoop, hi], h.size, fun x hx => h.filled x (by omega)⟩
  | succ fuel ih =>
    by_cases hi : i < p.length
    · have hlen : len < p.length := by have := h.len_lt; omega
      by_cases hc : p.getD i 0 = p.getD len 0
      · obtain ⟨lps', e, hl⟩ := ih _ _ _ (lpsInv_match h hi hc) (by omega)
        refine ⟨lps', ?_, hl⟩
        simp only [computeLPSLoop, hi, if_true, strGet_of_lt p i hi, strGet_of_lt p len hlen]
        simp only [bind, Except.bind, hc, if_true]
        exact e
      · by_cases hz : len = 0
        · subst hz
          obtain ⟨lps', e, hl⟩ := ih _ _ _ (lpsInv_zero h hi hc) (by omega)
          refine ⟨lps', ?_, hl⟩
          simp only [computeLPSLoop, hi, if_true, strGet_of_lt p i hi, strGet_of_lt p 0 hlen]
          simp only [bind, Except.bind, hc, if_false, ne_eq, not_true_eq_false]
          exact e
        · obtain ⟨b, hb1, hb2⟩ := h.filled (len - 1) (by have := h.len_lt; omega)
          have e1 : len - 1 + 1 = len := by omega
          rw [e1] at hb2
          obtain ⟨lps', e, hl⟩ := ih _ _ _ (lpsInv_fallback h hc hb2)
            (by have := hb2.1; omega)
          refine ⟨lps', ?_, hl⟩
          simp only [computeLPSLoop, hi, if_true, strGet_of_lt p i hi, strGet_of_lt p len hlen]
          simp only [bind, Except.bind, hc, if_false, ne_eq, hz, not_false_eq_true, if_true,
            vecGet_pred lps len b (by omega) hb1]
          exact e
    · refine ⟨lps, by simp [computeLPSLoop, hi], h.size, fun x hx => h.filled x (by omega)⟩

theorem computeLPS_spec (p : List Int) :
    ∃ lps, computeLPS p = .ok lps ∧ IsLpsTable p lps := by
  unfold computeLPS
  by_cases hm : 1 ≤ p.length
  · exact computeLPSLoop_spec p _ 0 1 _ (lpsInv_init p hm) (by omega)
  · have h0 : p.length = 0 := by omega
    refine ⟨[], ?_, by simp [IsLpsTable, h0]⟩
    simp [h0, computeLPSLoop]

/-! ## The search -/

theorem foundUpTo_succ_of_occurs (t p : List Int) (i : Nat) (hm : p.length ≤ i + 1)
    (ho : occursAt t p (i + 1 - p.length)) :
    foundUpTo t p (i + 1) = foundUpTo t p i ++ [((i + 1 - p.length : Nat) : Int)] := by
  unfold foundUpTo
  have e : i + 1 + 1 - p.length = (i + 1 - p.length) + 1 := by omega
  rw [e, List.range_succ, List.filter_append, List.map_append]
  simp [ho]

theorem foundUpTo_succ_of_not (t p : List Int) (i : Nat)
    (ho : p.length ≤ i + 1 → ¬ occursAt t p (i + 1 - p.length)) :
    foundUpTo t p (i + 1) = foundUpTo t p i := by
  unfold foundUpTo
  by_cases hm : p.length ≤ i + 1
  · have e : i + 1 + 1 - p.length = (i + 1 - p.length) + 1 := by omega
    rw [e, List.range_succ, List.filter_append, List.map_append]
    simp [ho hm]
  · have e1 : i + 1 + 1 - p.length = 0 := by omega
    have e2 : i + 1 - p.length = 0 := by omega
    rw [e1, e2]

theorem kmpInv_init (p t : List Int) (hm : 1 ≤ p.length) : KmpInv p t 0 0 [] := by
  refine ⟨Nat.zero_le _, by omega, matchesEndingAt_zero p t 0,
    fun k _ hk _ => hk.1, ?_⟩
  unfold foundUpTo
  have e : 0 + 1 - p.length = 0 := by omega
  rw [e]
  rfl

theorem kmpInv_max {p t : List Int} {i j : Nat} {found : List Int} (h : KmpInv p t i j found)
    {k : Nat} (hk : MatchesEndingAt p t k (i + 1)) (hkm : k ≤ p.length) : k ≤ j + 1 := by
  cases k with
  | zero => omega
  | succ k' =>
    obtain ⟨h1, h2⟩ := matchesEndingAt_pred hk
    have := h.cand k' (by omega) h1 h2
    omega

theorem kmpInv_record {p t : List Int} {i j b : Nat} {found : List Int}
    (h : KmpInv p t i j found) (hi : i < t.length) (hc : p.getD j 0 = t.getD i 0)
    (hj : j + 1 = p.length) (hb : IsLongestBorder p p.length b) :
    KmpInv p t (i + 1) b (found ++ [((i + 1 : Nat) : Int) - ((j + 1 : Nat) : Int)]) := by
  have hM : MatchesEndingAt p t p.length (i + 1) := by
    rw [← hj]
    exact matchesEndingAt_succ h.pre hc
  obtain ⟨b1, b2, b3⟩ := hb
  refine ⟨by omega, b1, matchesEndingAt_trans hM b2, ?_, ?_⟩
  · intro k hk hkm _
    exact b3 k hk (matchesEndingAt_border hM hkm (by omega))
  · have hle : p.length ≤ i + 1 := hM.1
    have ho : occursAt t p (i + 1 - p.length) := by
      rw [occursAt_iff]
      have e : i + 1 - p.length + p.length = i + 1 := by omega
      rw [e]
      exact ⟨by omega, hM⟩
    rw [foundUpTo_succ_of_occurs t p i hle ho, ← h.found_eq]
    congr 2
    omega

theorem kmpInv_advance {p t : List Int} {i j : Nat} {found : List Int}
    (h : KmpInv p t i j found) (hi : i < t.length) (hc : p.getD j 0 = t.getD i 0)
    (hj : j + 1 < p.length) :
    KmpInv p t (i + 1) (j + 1) found
    ∧ ∀ k, k ≤ p.length → MatchesEndingAt p t k (i + 1) → k ≤ j + 1 := by
  refine ⟨⟨by omega, hj, matchesEndingAt_succ h.pre hc,
    fun k hk hkm _ => kmpInv_max h hkm (by omega), ?_⟩,
    fun k hk hkm => kmpInv_max h hkm hk⟩
  rw [foundUpTo_succ_of_not, ← h.found_eq]
  intro hle ho
  rw [occursAt_iff] at ho
  have e : i + 1 - p.length + p.length = i + 1 := by omega
  rw [e] at ho
  have := kmpInv_max h ho.2 (le_refl _)
  omega

theorem kmpInv_fallback {p t : List Int} {i j b : Nat} {found : List Int}
    (h : KmpInv p t i j found) (hc : p.getD j 0 ≠ t.getD i 0)
    (hb : IsLongestBorder p j b) : KmpInv p t i b found := by
  obtain ⟨b1, b2, b3⟩ := hb
  refine ⟨h.i_le, by have := h.j_lt; omega, matchesEndingAt_trans h.pre b2, ?_, h.found_eq⟩
  intro k hk hkm hkc
  have h1 := h.cand k hk hkm hkc
  have h2 : k ≠ j := by
    intro e
    subst e
    exact hc hkc
  exact b3 k (by omega) (matchesEndingAt_border h.pre hkm h1)

theorem kmpInv_skip {p t : List Int} {i : Nat} {found : List Int}
    (h : KmpInv p t i 0 found) (hi : i < t.length) (hc : p.getD 0 0 ≠ t.getD i 0) :
    KmpInv p t (i + 1) 0 found := by
  have hmax : ∀ k, k ≤ p.length → MatchesEndingAt p t k (i + 1) → k = 0 := by
    intro k hk hkm
    cases k with
    | zero => rfl
    | succ k' =>
      obtain ⟨h1, h2⟩ := matchesEndingAt_pred hkm
      have h3 := h.cand k' (by omega) h1 h2
      have : k' = 0 := by omega
      subst this
      exact absurd h2 hc
  refine ⟨by omega, h.j_lt, matchesEndingAt_zero p t (i + 1), ?_, ?_⟩
  · intro k hk hkm _
    have := hmax k (by omega) hkm
    omega
  · rw [foundUpTo_succ_of_not, ← h.found_eq]
    intro hle ho
    rw [occursAt_iff] at ho
    have e : i + 1 - p.length + p.length = i + 1 := by omega
    rw [e] at ho
    have := hmax p.length (le_refl _) ho.2
    have := h.j_lt
    omega

theorem lps_lookup {p : List Int} {lps : List Nat} (hl : IsLpsTable p lps) (j : Nat)
    (hj0 : 0 < j) (hj : j ≤ p.length) :
    ∃ b, vecGet lps ((j : Int) - 1) = .ok b ∧ IsLongestBorder p j b := by
  obtain ⟨b, hb1, hb2⟩ := hl.2 (j - 1) (by omega)
  have e : j - 1 + 1 = j := by omega
  rw [e] at hb2
  exact ⟨b, vecGet_pred lps j b hj0 hb1, hb2⟩

theorem KMPSearchLoop_spec (p t : List Int) (lps : List Nat) (hl : IsLpsTable p lps)
    (fuel i j : Nat) (found : List Int) (h : KmpInv p t i j found)
    (hf : 2 * (t.length - i) + j ≤ fuel) :
    KMPSearchLoop t p lps t.length p.length fuel i j found = .ok (foundUpTo t p t.length) := by
  induction fuel generalizing i j found with
  | zero =>
    have hi : ¬ i < t.length := by omega
    have e : i = t.length := by have := h.i_le; omega
    simp only [KMPSearchLoop, hi, if_false]
    rw [h.found_eq, e]
  | succ fuel ih =>
    by_cases hi : i < t.length
    · have hj := h.j_lt
      simp only [KMPSearchLoop, hi, if_true, strGet_of_lt p j hj, strGet_of_lt t i hi]
      simp only [bind, Except.bind]
      by_cases hc : p.getD j 0 = t.getD i 0
      · simp only [hc, if_true]
        by_cases hjm : j + 1 = p.length
        · obtain ⟨b, hb1, hb2⟩ := lps_lookup hl p.length (by omega) (le_refl _)
          have hrec := kmpInv_record h hi hc hjm hb2
          rw [hjm] at hrec
          simp only [hjm, if_true, hb1]
          exact ih _ _ _ hrec (by have := hb2.1; omega)
        · have hlt : j + 1 < p.length := by omega
          obtain ⟨hadv, _⟩ := kmpInv_advance h hi hc hlt
          simp only [hjm, if_false]
          by_cases hi1 : i + 1 < t.length
          · simp only [hi1, if_true, strGet_of_lt p (j + 1) hlt, strGet_of_lt t (i + 1) hi1]
            by_cases hc1 : p.getD (j + 1) 0 = t.getD (i + 1) 0
            · simp only [hc1, ne_eq, not_true_eq_false, if_false]
              exact ih _ _ _ hadv (by omega)
            · obtain ⟨b, hb1, hb2⟩ := lps_lookup hl (j + 1) (by omega) (by omega)
              simp only [hc1, ne_eq, not_false_eq_true, if_true, Nat.succ_ne_zero, hb1]
              exact ih _ _ _ (kmpInv_fallback hadv hc1 hb2) (by have := hb2.1; omega)
          · simp only [hi1, if_false]
            exact ih _ _ _ hadv (by omega)
      · simp only [hc, if_false]
        have hjm : ¬ j = p.length := by omega
        simp only [hjm, if_false, hi, if_true, strGet_of_lt p j hj, strGet_of_lt t i hi, ne_eq,
          hc, not_false_eq_true]
        by_cases hj0 : j = 0
        · subst hj0
          simp only [not_true_eq_false, if_false]
          exact ih _ _ _ (kmpInv_skip h hi hc) (by omega)
        · obtain ⟨b, hb1, hb2⟩ := lps_lookup hl j (by omega) (by omega)
          simp only [hj0, not_false_eq_true, if_true, hb1]
          exact ih _ _ _ (kmpInv_fallback h hc hb2) (by have := hb2.1; omega)
    · have e : i = t.length := by have := h.i_le; omega
      simp only [KMPSearchLoop, hi, if_false]
      rw [h.found_eq, e]

/-- For a non-empty pattern `KMPSearch` returns exactly the occurrences, in increasing order. -/
theorem KMPSearch_spec (t p : List Int) (hp : p ≠ []) :
    KMPSearch t p = .ok ((occurrences t p).map (fun (s : Nat) => (s : Int))) := by
  obtain ⟨lps, e, hl⟩ := computeLPS_spec p
  have hm : 1 ≤ p.length := by
    cases p with
    | nil => exact absurd rfl hp
    | cons _ _ => simp
  unfold KMPSearch
  simp only [e]
  exact KMPSearchLoop_spec p t lps hl _ 0 0 [] (kmpInv_init p t hm) (by omega)

/-! ## Words and phrases -/

theorem splitWordsAux_ne_nil (s cur : List Int) : ∀ w ∈ splitWordsAux s cur, w ≠ [] := by
  induction s generalizing cur with
  | nil =>
    intro w hw
    unfold splitWordsAux at hw
    split_ifs at hw with hc
    · simp at hw
    · simp only [List.mem_singleton] at hw
      subst hw
      simpa [List.isEmpty_iff] using hc
  | cons c cs ih =>
    intro w hw
    unfold splitWordsAux at hw
    split_ifs at hw with h1 h2
    · exact ih [] w hw
    · rcases List.mem_cons.mp hw with rfl | hw'
      · simpa [List.isEmpty_iff] using h2
      · exact ih [] w hw'
    · exact ih _ w hw

theorem splitWords_ne_nil (s : List Int) : ∀ w ∈ splitWords s, w ≠ [] :=
  splitWordsAux_ne_nil s []

theorem intercalate_cons_cons (sep x y : List Int) (ys : List (List Int)) :
    List.intercalate sep (x :: y :: ys) = x ++ sep ++ List.intercalate sep (y :: ys) := by
  simp [List.intercalate, List.intersperse]

theorem intercalate_singleton (sep x : List Int) : List.intercalate sep [x] = x := by
  simp [List.intercalate, List.intersperse]

theorem vecGet_add {α : Type} (v : List α) (i j : Nat) (h : i + j < v.length) :
    vecGet v ((i : Int) + (j : Int)) = .ok v[i + j] := by
  have e : (i : Int) + (j : Int) = ((i + j : Nat) : Int) := by omega
  rw [e]
  exact vecGet_natCast v (i + j) _ (List.getElem?_eq_getElem h)

theorem take_drop_succ {α : Type} (l : List α) (a n : Nat) (h : a < l.length) :
    (l.drop a).take (n + 1) = l[a] :: (l.drop (a + 1)).take n := by
  rw [List.drop_eq_getElem_cons h, List.take_succ_cons]

theorem buildPhrase_range' (words : List (List Int)) (i : Nat) (phraseLength : Int)
    (cnt a : Nat) (phrase : List Int) (hk : (a : Int) + cnt = phraseLength)
    (hw : i + a + cnt ≤ words.length) :
    buildPhrase words i phraseLength (List.range' a cnt) phrase
      = .ok (phrase ++ List.intercalate [32] ((words.drop (i + a)).take cnt)) := by
  induction cnt generalizing a phrase with
  | zero => simp [buildPhrase, List.intercalate]
  | succ cnt ih =>
    rw [List.range'_succ]
    unfold buildPhrase
    rw [vecGet_add words i a (by omega)]
    simp only [bind, Except.bind]
    rw [ih (a + 1) _ (by omega) (by omega), take_drop_succ words (i + a) cnt (by omega),
      show i + (a + 1) = i + a + 1 by omega]
    cases cnt with
    | zero =>
      have hlt : ¬ ((a : Int) < phraseLength - 1) := by omega
      simp [hlt, intercalate_singleton, List.intercalate]
    | succ c =>
      have hlt : (a : Int) < phraseLength - 1 := by omega
      rw [take_drop_succ words (i + a + 1) c (by omega), intercalate_cons_cons]
      simp [hlt, List.append_assoc]

theorem buildPhrase_eq (words : List (List Int)) (i : Nat) (phraseLength : Int)
    (hk : 0 ≤ phraseLength) (hw : (i : Int) + phraseLength ≤ words.length) :
    buildPhrase words i phraseLength (List.range phraseLength.toNat) []
      = .ok (windowPhrase words phraseLength.toNat i) := by
  rw [List.range_eq_range', buildPhrase_range' words i phraseLength phraseLength.toNat 0 []
    (by omega) (by omega)]
  rfl

theorem collectPhrases_eq (words : List (List Int)) (phraseLength : Int) (hk : 0 ≤ phraseLength)
    (is : List Nat) (acc : List (List Int))
    (his : ∀ i ∈ is, (i : Int) + phraseLength ≤ words.length) :
    collectPhrases words phraseLength is acc
      = .ok (is.foldl (fun s i => insertUnique s (windowPhrase words phraseLength.toNat i)) acc) := by
  induction is generalizing acc with
  | nil => rfl
  | cons i rest ih =>
    unfold collectPhrases
    rw [buildPhrase_eq words i phraseLength hk (his i (List.mem_cons_self _ _))]
    simp only [bind, Except.bind]
    rw [ih _ (fun j hj => his j (List.mem_cons_of_mem _ hj))]
    rfl

theorem foldl_insertUnique (f : Nat → List Int) (is : List Nat) (acc : List (List Int))
    (hacc : acc.Nodup) :
    (is.foldl (fun s i => insertUnique s (f i)) acc).Nodup
    ∧ ∀ x, x ∈ is.foldl (fun s i => insertUnique s (f i)) acc ↔ x ∈ acc ∨ x ∈ is.map f := by
  induction is generalizing acc with
  | nil => exact ⟨hacc, by simp⟩
  | cons i rest ih =>
    have hn : (insertUnique acc (f i)).Nodup := by
      unfold insertUnique
      split_ifs with hmem
      · exact hacc
      · exact List.Nodup.append hacc (List.nodup_singleton _)
          (by simpa [List.disjoint_singleton] using hmem)
    have hm : ∀ x, x ∈ insertUnique acc (f i) ↔ x ∈ acc ∨ x = f i := by
      intro x
      unfold insertUnique
      split_ifs with hmem
      · constructor
        · exact Or.inl
        · rintro (h | h)
          · exact h
          · exact h ▸ hmem
      · simp
    obtain ⟨h1, h2⟩ := ih (insertUnique acc (f i)) hn
    refine ⟨h1, fun x => ?_⟩
    simp only [List.foldl_cons, h2 x, hm x, List.map_cons, List.mem_cons]
    tauto

theorem windowPhrase_ne_nil (words : List (List Int)) (k i : Nat) (hk : 1 ≤ k)
    (hi : i + k ≤ words.length) (hw : ∀ w ∈ words, w ≠ []) : windowPhrase words k i ≠ [] := by
  unfold windowPhrase
  obtain ⟨c, rfl⟩ : ∃ c, k = c + 1 := ⟨k - 1, by omega⟩
  rw [take_drop_succ words i c (by omega)]
  have hne : words[i] ≠ [] := hw _ (List.getElem_mem _)
  cases hrest : (words.drop (i + 1)).take c with
  | nil => rw [intercalate_singleton]; exact hne
  | cons y ys =>
    rw [intercalate_cons_cons]
    simp [hne]

/-- The phrase set of `checkWithKMP`: the distinct window phrases, each one once. -/
theorem phraseSet_spec (text1 : List Int) (phraseLength : Int) (hk : 1 ≤ phraseLength) :
    ∃ phrases, phraseSet text1 phraseLength = .ok phrases
      ∧ phrases.Nodup
      ∧ (∀ ph, ph ∈ phrases ↔
          ph ∈ windowPhrases (splitWords (preprocessText text1)) phraseLength.toNat)
      ∧ ∀ ph ∈ phrases, ph ≠ [] := by
  unfold phraseSet
  have hmem : ∀ i ∈ List.range
      (((splitWords (preprocessText text1)).length : Int) - phraseLength + 1).toNat,
      (i : Int) + phraseLength ≤ (splitWords (preprocessText text1)).length := by
    intro i hi
    have := List.mem_range.mp hi
    omega
  simp only
  rw [if_neg (fun h => absurd h.1 (by omega)),
    collectPhrases_eq _ phraseLength (by omega) _ _ hmem]
  obtain ⟨h1, h2⟩ := foldl_insertUnique
    (windowPhrase (splitWords (preprocessText text1)) phraseLength.toNat)
    (List.range (((splitWords (preprocessText text1)).length : Int) - phraseLength + 1).toNat)
    [] List.nodup_nil
  have hr : (((splitWords (preprocessText text1)).length : Int) - phraseLength + 1).toNat
      = (splitWords (preprocessText text1)).length + 1 - phraseLength.toNat := by omega
  have hmem' : ∀ ph, ph ∈ List.foldl (fun s i => insertUnique s
      (windowPhrase (splitWords (preprocessText text1)) phraseLength.toNat i)) []
      (List.range (((splitWords (preprocessText text1)).length : Int) - phraseLength + 1).toNat)
      ↔ ph ∈ windowPhrases (splitWords (preprocessText text1)) phraseLength.toNat := by
    intro ph
    rw [h2 ph, hr]
    simp [windowPhrases, windowPhrase]
  refine ⟨_, rfl, h1, hmem', ?_⟩
  intro ph hph
  rw [hmem' ph] at hph
  simp only [windowPhrases, List.mem_map, List.mem_range] at hph
  obtain ⟨i, hi, rfl⟩ := hph
  exact windowPhrase_ne_nil _ _ i (by omega) (by omega) (splitWords_ne_nil _)

/-! ## Phrase counting -/

/-- C11. The level line chosen in `displayResults` is, for every similarity value
`s`: HIGH iff `s > 70`; MODERATE iff `40 < s ≤ 70`; LOW iff `15 < s ≤ 40`; NONE iff
`s ≤ 15`.  In particular 70 gives MODERATE, 70.01 gives HIGH, 40 gives LOW and 15
gives NONE. -/
theorem displayResultsLevel_thresholds :
    (∀ r : PlagiarismResult,
      (displayResultsLevel r = "Plagiarism Level: HIGH" ↔ r.similarity > 70)
      ∧ (displayResultsLevel r = "Plagiarism Level: MODERATE" ↔
          40 < r.similarity ∧ r.similarity ≤ 70)
      ∧ (displayResultsLevel r = "Plagiarism Level: LOW" ↔
          15 < r.similarity ∧ r.similarity ≤ 40)
      ∧ (displayResultsLevel r = "Plagiarism Level: NONE" ↔ r.similarity ≤ 15))
    ∧ displayResultsLevel { similarity := 70 } = "Plagiarism Level: MODERATE"
    ∧ displayResultsLevel { similarity := 7001 / 100 } = "Plagiarism Level: HIGH"
    ∧ displayResultsLevel { similarity := 40 } = "Plagiarism Level: LOW"
    ∧ displayResultsLevel { similarity := 15 } = "Plagiarism Level: NONE" := by
  have key : ∀ r : PlagiarismResult,
      (displayResultsLevel r = "Plagiarism Level: HIGH" ↔ r.similarity > 70)
      ∧ (displayResultsLevel r = "Plagiarism Level: MODERATE" ↔
          40 < r.similarity ∧ r.similarity ≤ 70)
      ∧ (displayResultsLevel r = "Plagiarism Level: LOW" ↔
          15 < r.similarity ∧ r.similarity ≤ 40)
      ∧ (displayResultsLevel r = "Plagiarism Level: NONE" ↔ r.similarity ≤ 15) := by
    intro r
    unfold displayResultsLevel
    by_cases h1 : r.similarity > 70
    · rw [if_pos h1]
      refine ⟨by simp [h1], ?_, ?_, ?_⟩
      · constructor
        · intro h; exact absurd h (by decide)
        · intro h; linarith [h.2]
      · constructor
        · intro h; exact absurd h (by decide)
        · intro h; linarith [h.2]
      · constructor
        · intro h; exact absurd h (by decide)
        · intro h; linarith
    · rw [if_neg h1]
      by_cases h2 : r.similarity > 40
      · rw [if_pos h2]
        refine ⟨?_, ?_, ?_, ?_⟩
        · constructor
          · intro h; exact absurd h (by decide)
          · intro h; exact absurd h h1
        · constructor
          · intro _; exact ⟨h2, le_of_not_gt h1⟩
          · intro _; rfl
        · constructor
          · intro h; exact absurd h (by decide)
          · intro h; linarith [h.2]
        · constructor
          · intro h; exact absurd h (by decide)
          · intro h; linarith
      · rw [if_neg h2]
        by_cases h3 : r.similarity > 15
        · rw [if_pos h3]
          refine ⟨?_, ?_, ?_, ?_⟩
          · constructor
            · intro h; exact absurd h (by decide)
            · intro h; exact absurd h h1
          · constructor
            · intro h; exact absurd h (by decide)
            · intro h; exact absurd h.1 h2
          · constructor
            · intro _; exact ⟨h3, le_of_not_gt h2⟩
            · intro _; rfl
          · constructor
            · intro h; exact absurd h (by decide)
            · intro h; linarith
        · rw [if_neg h3]
          refine ⟨?_, ?_, ?_, ?_⟩
          · constructor
            · intro h; exact absurd h (by decide)
            · intro h; exact absurd h h1
          · constructor
            · intro h; exact absurd h (by decide)
            · intro h; exact absurd h.1 h2
          · constructor
            · intro h; exact absurd h (by decide)
            · intro h; exact absurd h.1 h3
          · constructor
            · intro _; exact le_of_not_gt h3
            · intro _; rfl
  refine ⟨key, ?_, ?_, ?_, ?_⟩
  · exact (key { similarity := 70 }).2.1.mpr (by norm_num)
  · exact (key { similarity := 7001 / 100 }).1.mpr (by norm_num)
  · exact (key { similarity := 40 }).2.2.1.mpr (by norm_num)
  · exact (key { similarity := 15 }).2.2.2.mpr (by norm_num)

/-! ## The search: what it returns -/

theorem occurrences_pairwise (t p : List Int) : (occurrences t p).Pairwise (· < ·) :=
  List.Pairwise.filter _ (List.pairwise_lt_range _)

theorem mem_occurrences (t p : List Int) (hp : p ≠ []) (pos : Nat) :
    pos ∈ occurrences t p ↔ pos + p.length ≤ t.length ∧ substr t pos p.length = p := by
  unfold occurrences
  simp only [List.mem_filter, List.mem_range, decide_eq_true_eq]
  constructor
  · rintro ⟨_, h⟩
    exact h
  · rintro ⟨h1, h2⟩
    have hm : 1 ≤ p.length := by
      cases p with
      | nil => exact absurd rfl hp
      | cons _ _ => simp
    exact ⟨by omega, h1, h2⟩

/-- C14. For every text and every non-empty pattern of length `m`, `KMPSearch` returns
exactly the positions `p` with `0 ≤ p ≤ |text| - m` and `text[p..p+m) = pattern`, each
once, in strictly increasing order, overlapping occurrences included. -/
theorem KMPSearch_exact (text pattern : List Int) (hp : pattern ≠ []) :
    ∃ found, KMPSearch text pattern = .ok found
      ∧ found = (occurrences text pattern).map (fun (s : Nat) => (s : Int))
      ∧ (∀ z ∈ found, 0 ≤ z)
      ∧ (∀ pos : Nat, (pos : Int) ∈ found ↔
          pos + pattern.length ≤ text.length ∧ substr text pos pattern.length = pattern)
      ∧ found.Pairwise (· < ·) := by
  refine ⟨_, KMPSearch_spec text pattern hp, rfl, ?_, ?_, ?_⟩
  · intro z hz
    simp only [List.mem_map] at hz
    obtain ⟨s, _, rfl⟩ := hz
    exact Int.ofNat_nonneg s
  · intro pos
    rw [← mem_occurrences text pattern hp pos]
    simp only [List.mem_map, Nat.cast_inj, exists_eq_right]
  · rw [List.pairwise_map]
    exact (occurrences_pairwise text pattern).imp (fun h => by exact_mod_cast h)

set_option maxRecDepth 100000 in
/-- Witness for C14, at the text `"aaaa"` and the pattern `"aa"`: the three overlapping
occurrences are returned as `[0, 1, 2]`. -/
theorem KMPSearch_exact_witness :
    (∃ found, KMPSearch (ofString "aaaa") (ofString "aa") = .ok found
      ∧ found = (occurrences (ofString "aaaa") (ofString "aa")).map (fun (s : Nat) => (s : Int))
      ∧ (∀ z ∈ found, 0 ≤ z)
      ∧ (∀ pos : Nat, (pos : Int) ∈ found ↔
          pos + (ofString "aa").length ≤ (ofString "aaaa").length
            ∧ substr (ofString "aaaa") pos (ofString "aa").length = ofString "aa")
      ∧ found.Pairwise (· < ·))
    ∧ KMPSearch (ofString "aaaa") (ofString "aa") = .ok [0, 1, 2] :=
  ⟨KMPSearch_exact (ofString "aaaa") (ofString "aa") (by decide), by decide⟩

/-! ## The table: what it holds -/

theorem matchesEndingAt_iff_take_drop (p : List Int) (k j : Nat) (hkj : k ≤ j)
    (hj : j ≤ p.length) :
    MatchesEndingAt p p k j ↔ (p.take j).take k = (p.take j).drop ((p.take j).length - k) := by
  have hlen : (p.take j).length = j := by simp; omega
  rw [hlen]
  have hl : ((p.take j).take k).length = ((p.take j).drop (j - k)).length := by
    simp only [List.length_take, List.length_drop]
    omega
  have hlk : ((p.take j).take k).length = k := by
    simp only [List.length_take]
    omega
  have e1 : ∀ x, x < k → ((p.take j).take k).getD x 0 = p.getD x 0 := by
    intro x hx
    simp only [List.getD_eq_getElem?_getD, List.getElem?_take]
    rw [if_pos hx, if_pos (by omega)]
  have e2 : ∀ x, x < k → ((p.take j).drop (j - k)).getD x 0 = p.getD (j - k + x) 0 := by
    intro x hx
    simp only [List.getD_eq_getElem?_getD, List.getElem?_drop, List.getElem?_take]
    rw [if_pos (by omega)]
  constructor
  · rintro ⟨_, h⟩
    apply list_eq_of_getD hl
    intro x hx
    rw [hlk] at hx
    rw [e1 x hx, e2 x hx, h x hx]
  · intro h
    refine ⟨hkj, fun x hx => ?_⟩
    rw [← e1 x hx, ← e2 x hx, h]

theorem isLongestBorder_iff (p : List Int) (j b : Nat) (hj : j ≤ p.length) :
    IsLongestBorder p j b ↔
      IsProperPrefixSuffix (p.take j) b ∧ ∀ k, IsProperPrefixSuffix (p.take j) k → k ≤ b := by
  have hlen : (p.take j).length = j := by simp; omega
  unfold IsLongestBorder IsProperPrefixSuffix
  rw [hlen]
  constructor
  · rintro ⟨h1, h2, h3⟩
    refine ⟨⟨h1, ?_⟩, ?_⟩
    · have := (matchesEndingAt_iff_take_drop p b j (by omega) hj).mp h2
      rwa [hlen] at this
    · rintro k ⟨hk1, hk2⟩
      apply h3 k hk1
      apply (matchesEndingAt_iff_take_drop p k j (by omega) hj).mpr
      rwa [hlen]
  · rintro ⟨⟨h1, h2⟩, h3⟩
    refine ⟨h1, ?_, ?_⟩
    · apply (matchesEndingAt_iff_take_drop p b j (by omega) hj).mpr
      rwa [hlen]
    · intro k hk hm
      apply h3 k
      refine ⟨hk, ?_⟩
      have := (matchesEndingAt_iff_take_drop p k j (by omega) hj).mp hm
      rwa [hlen] at this

/-- C17. For every non-empty pattern of length `m` and every `i < m`, the entry
`computeLPS(pattern)[i]` is the length of the longest proper prefix of `pattern[0..i]`
(the first `i + 1` characters) that is also a suffix of it; in particular the entry at
0 is 0 and the entry at `i` is at most `i`. -/
theorem computeLPS_longest (pattern : List Int) (hp : pattern ≠ []) :
    ∃ lps, computeLPS pattern = .ok lps
      ∧ lps.length = pattern.length
      ∧ (∀ i, i < pattern.length → ∃ b, lps[i]? = some b
          ∧ IsProperPrefixSuffix (pattern.take (i + 1)) b
          ∧ (∀ k, IsProperPrefixSuffix (pattern.take (i + 1)) k → k ≤ b)
          ∧ b ≤ i)
      ∧ lps[0]? = some 0 := by
  obtain ⟨lps, e, hl, ht⟩ := computeLPS_spec pattern
  have hm : 0 < pattern.length := by
    cases pattern with
    | nil => exact absurd rfl hp
    | cons _ _ => simp
  refine ⟨lps, e, hl, ?_, ?_⟩
  · intro i hi
    obtain ⟨b, hb1, hb2⟩ := ht i hi
    have hb3 := (isLongestBorder_iff pattern (i + 1) b (by omega)).mp hb2
    exact ⟨b, hb1, hb3.1, hb3.2, by have := hb2.1; omega⟩
  · obtain ⟨b, hb1, hb2⟩ := ht 0 hm
    have : b = 0 := by have := hb2.1; omega
    rw [hb1, this]

set_option maxRecDepth 100000 in
/-- Witness for C17, at the pattern `"aabaaab"`, whose table is `[0, 1, 0, 1, 2, 2, 3]`. -/
theorem computeLPS_longest_witness :
    (∃ lps, computeLPS (ofString "aabaaab") = .ok lps
      ∧ lps.length = (ofString "aabaaab").length
      ∧ (∀ i, i < (ofString "aabaaab").length → ∃ b, lps[i]? = some b
          ∧ IsProperPrefixSuffix ((ofString "aabaaab").take (i + 1)) b
          ∧ (∀ k, IsProperPrefixSuffix ((ofString "aabaaab").take (i + 1)) k → k ≤ b)
          ∧ b ≤ i)
      ∧ lps[0]? = some 0)
    ∧ computeLPS (ofString "aabaaab") = .ok [0, 1, 0, 1, 2, 2, 3] :=
  ⟨computeLPS_longest (ofString "aabaaab") (by decide), by decide⟩

/-! ## Termination and bounds -/

/-- C19. On every text and every non-empty pattern both loops end, and every read of
`pattern`, `text` and `lps` is inside the bounds: `computeLPS` returns a table within
any budget of at least `2 m` turns, its entries satisfy `lps[k] ≤ k` (so the fallback
`len = lps[len - 1]` decreases `len`), and `KMPSearch` returns a list within any budget
of at least `2 n` turns. -/
theorem kmp_terminates (text pattern : List Int) (hp : pattern ≠ []) :
    (∀ fuel, 2 * pattern.length ≤ fuel →
      ∃ lps, computeLPSLoop pattern pattern.length fuel 0 1 (List.replicate pattern.length 0)
          = .ok lps
        ∧ ∀ (k b : Nat), lps[k]? = some b → b ≤ k)
    ∧ (∃ lps, computeLPS pattern = .ok lps
        ∧ (∀ (k b : Nat), lps[k]? = some b → b ≤ k)
        ∧ ∀ fuel, 2 * text.length ≤ fuel →
            ∃ found, KMPSearchLoop text pattern lps text.length pattern.length fuel 0 0 []
              = .ok found)
    ∧ ∃ found, KMPSearch text pattern = .ok found := by
  have hm : 1 ≤ pattern.length := by
    cases pattern with
    | nil => exact absurd rfl hp
    | cons _ _ => simp
  have hle : ∀ lps, IsLpsTable pattern lps → ∀ (k b : Nat), lps[k]? = some b → b ≤ k := by
    intro lps hl k b hkb
    have hk : k < pattern.length := by
      rw [← hl.1]
      by_contra hc
      rw [List.getElem?_eq_none (by omega)] at hkb
      cases hkb
    obtain ⟨b', hb1, hb2⟩ := hl.2 k hk
    rw [hkb] at hb1
    cases hb1
    have := hb2.1
    omega
  refine ⟨?_, ?_, _, KMPSearch_spec text pattern hp⟩
  · intro fuel hf
    obtain ⟨lps, e, hl⟩ := computeLPSLoop_spec pattern fuel 0 1 _ (lpsInv_init pattern hm)
      (by omega)
    exact ⟨lps, e, hle lps hl⟩
  · obtain ⟨lps, e, hl⟩ := computeLPS_spec pattern
    refine ⟨lps, e, hle lps hl, ?_⟩
    intro fuel hf
    exact ⟨_, KMPSearchLoop_spec pattern text lps hl fuel 0 0 [] (kmpInv_init pattern text hm)
      (by omega)⟩

set_option maxRecDepth 100000 in
/-- Witness for C19, at the text `"abababcabab"` and the pattern `"abab"`. -/
theorem kmp_terminates_witness :
    (∃ found, KMPSearch (ofString "abababcabab") (ofString "abab") = .ok found)
    ∧ KMPSearch (ofString "abababcabab") (ofString "abab") = .ok [0, 2, 7] :=
  ⟨(kmp_terminates (ofString "abababcabab") (ofString "abab") (by decide)).2.2, by decide⟩

/-! ## The patterns handed to the search -/

theorem splitWordsAux_no_space (s cur : List Int) (hcur : ∀ c ∈ cur, isspace c = false) :
    ∀ w ∈ splitWordsAux s cur, ∀ c ∈ w, isspace c = false := by
  induction s generalizing cur with
  | nil =>
    intro w hw
    unfold splitWordsAux at hw
    split_ifs at hw with hc
    · simp at hw
    · simp only [List.mem_singleton] at hw
      subst hw
      exact hcur
  | cons c cs ih =>
    intro w hw
    unfold splitWordsAux at hw
    split_ifs at hw with h1 h2
    · exact ih [] (by simp) w hw
    · rcases List.mem_cons.mp hw with rfl | hw'
      · exact hcur
      · exact ih [] (by simp) w hw'
    · apply ih (cur ++ [c]) _ w hw
      intro d hd
      rcases List.mem_append.mp hd with hd | hd
      · exact hcur d hd
      · simp only [List.mem_singleton] at hd
        subst hd
        simpa using h1

theorem splitWords_no_space (s : List Int) :
    ∀ w ∈ splitWords s, ∀ c ∈ w, isspace c = false :=
  splitWordsAux_no_space s [] (by simp)

theorem sumMatches_nil (proc2 : List Int) : sumMatches proc2 [] 0 = .ok 0 := rfl

/-- C18. For all texts and every `phraseLength ≥ 1`, every pattern that `checkWithKMP`
hands to `KMPSearch` (each element of the phrase set) is non-empty: it is made of
exactly `phraseLength` consecutive words, each non-empty and free of whitespace, joined
by single spaces.  When the normalized `text1` has fewer than `phraseLength` words the
phrase set is empty, so `KMPSearch` is not called, and the result is 0. -/
theorem checkWithKMP_patterns (text1 text2 : List Int) (phraseLength : Int)
    (hk : 1 ≤ phraseLength) :
    ∃ phrases, phraseSet text1 phraseLength = .ok phrases
      ∧ checkWithKMP text1 text2 phraseLength = sumMatches (preprocessText text2) phrases 0
      ∧ (∀ ph ∈ phrases, ph ≠ [] ∧ ∃ i ws,
          ws = ((splitWords (preprocessText text1)).drop i).take phraseLength.toNat
          ∧ ws.length = phraseLength.toNat
          ∧ (∀ w ∈ ws, w ≠ [] ∧ ∀ c ∈ w, isspace c = false)
          ∧ ph = List.intercalate [32] ws)
      ∧ (((splitWords (preprocessText text1)).length : Int) < phraseLength →
          phrases = [] ∧ checkWithKMP text1 text2 phraseLength = .ok 0) := by
  obtain ⟨phrases, e, _, hmem, hne⟩ := phraseSet_spec text1 phraseLength hk
  have hcheck : checkWithKMP text1 text2 phraseLength
      = sumMatches (preprocessText text2) phrases 0 := by
    unfold checkWithKMP
    rw [e]
    rfl
  refine ⟨phrases, e, hcheck, ?_, ?_⟩
  · intro ph hph
    refine ⟨hne ph hph, ?_⟩
    have h := (hmem ph).mp hph
    simp only [windowPhrases, List.mem_map, List.mem_range] at h
    obtain ⟨i, hi, rfl⟩ := h
    refine ⟨i, _, rfl, ?_, ?_, rfl⟩
    · simp only [List.length_take, List.length_drop]
      omega
    · intro w hw
      have hw' : w ∈ splitWords (preprocessText text1) :=
        List.mem_of_mem_drop (List.mem_of_mem_take hw)
      exact ⟨splitWords_ne_nil _ w hw', splitWords_no_space _ w hw'⟩
  · intro hlt
    have hnil : phrases = [] := by
      apply List.eq_nil_iff_forall_not_mem.mpr
      intro ph hph
      have h := (hmem ph).mp hph
      simp only [windowPhrases, List.mem_map, List.mem_range] at h
      obtain ⟨i, hi, _⟩ := h
      omega
    refine ⟨hnil, ?_⟩
    rw [hcheck, hnil]
    rfl

set_option maxRecDepth 100000 in
/-- Witness for C18, at `text1 = "one two"`, `text2 = "one two three"` and
`phraseLength = 3`: two words only, so no phrase is formed and the result is 0. -/
theorem checkWithKMP_patterns_witness :
    (∃ phrases, phraseSet (ofString "one two") 3 = .ok phrases
      ∧ checkWithKMP (ofString "one two") (ofString "one two three") 3
          = sumMatches (preprocessText (ofString "one two three")) phrases 0
      ∧ (∀ ph ∈ phrases, ph ≠ [] ∧ ∃ i ws,
          ws = ((splitWords (preprocessText (ofString "one two"))).drop i).take (3 : Int).toNat
          ∧ ws.length = (3 : Int).toNat
          ∧ (∀ w ∈ ws, w ≠ [] ∧ ∀ c ∈ w, isspace c = false)
          ∧ ph = List.intercalate [32] ws)
      ∧ (((splitWords (preprocessText (ofString "one two"))).length : Int) < 3 →
          phrases = []
            ∧ checkWithKMP (ofString "one two") (ofString "one two three") 3 = .ok 0))
    ∧ phraseSet (ofString "one two") 3 = .ok []
    ∧ phraseSet (ofString "one two three") 3 = .ok [ofString "one two three"] :=
  ⟨checkWithKMP_patterns (ofString "one two") (ofString "one two three") 3 (by decide),
   by decide, by decide⟩

/-! ## No overflow in the rolling hash -/

theorem mul_residues_bound (a b : Int) (ha0 : 0 ≤ a) (ha : a < MOD) (hb0 : 0 ≤ b)
    (hb : b < MOD) : 0 ≤ a * b ∧ a * b < 2 ^ 63 := by
  refine ⟨mul_nonneg ha0 hb0, ?_⟩
  have h1 : a * b ≤ (MOD - 1) * (MOD - 1) :=
    mul_le_mul (by omega) (by omega) hb0 (by unfold MOD; omega)
  have h2 : (MOD - 1) * (MOD - 1) < 2 ^ 63 := by decide
  omega

/-- C20. For a string of character codes in `0..255`, no intermediate value of the
`RollingHash` constructor or of `getHash` (for `0 ≤ l ≤ r ≤ n`) leaves the range of a
signed 64-bit integer: every stored `hash[i]` and `pow[i]` lies in `[0, 1000000007)`,
so `hash[i] * 256 + s[i]`, `pow[i] * 256` and `hash[l] * pow[r - l]` are non-negative
and below `2^63`, and `hash[r] - (hash[l] * pow[r - l]) % MOD + MOD` is non-negative
(and below `2^63`) before the final reduction. -/
theorem rollingHash_no_overflow (s : List Int) (hs : ∀ c ∈ s, 0 ≤ c ∧ c ≤ 255) :
    (∀ i, i ≤ s.length → ∃ h p, (RollingHash.ofText s).hash[i]? = some h
        ∧ (RollingHash.ofText s).pow[i]? = some p
        ∧ 0 ≤ h ∧ h < 1000000007 ∧ 0 ≤ p ∧ p < 1000000007
        ∧ 0 ≤ h * BASE ∧ 0 ≤ h * BASE + s.getD i 0 ∧ h * BASE + s.getD i 0 < 2 ^ 63
        ∧ 0 ≤ p * BASE ∧ p * BASE < 2 ^ 63)
    ∧ (∀ l r, l ≤ r → r ≤ s.length → ∃ hr hl p, (RollingHash.ofText s).hash[r]? = some hr
        ∧ (RollingHash.ofText s).hash[l]? = some hl
        ∧ (RollingHash.ofText s).pow[r - l]? = some p
        ∧ 0 ≤ hl * p ∧ hl * p < 2 ^ 63
        ∧ 0 ≤ (hl * p).tmod MOD ∧ (hl * p).tmod MOD < 1000000007
        ∧ -(2 ^ 63) ≤ hr - (hl * p).tmod MOD
        ∧ 0 ≤ hr - (hl * p).tmod MOD + MOD
        ∧ hr - (hl * p).tmod MOD + MOD < 2 ^ 63) := by
  have hs0 : ∀ c ∈ s, 0 ≤ c := fun c hc => (hs c hc).1
  constructor
  · intro i hi
    obtain ⟨h0, h1⟩ := prefixHash_bounds s hs0 i hi
    obtain ⟨p0, p1⟩ := powMod_bounds i
    have hc : 0 ≤ s.getD i 0 ∧ s.getD i 0 ≤ 255 := by
      by_cases hlt : i < s.length
      · apply hs
        simp [List.getD_eq_getElem?_getD, List.getElem?_eq_getElem hlt]
      · simp [List.getD_eq_getElem?_getD, List.getElem?_eq_none (show s.length ≤ i by omega)]
    refine ⟨_, _, ofText_hash s i hi, ofText_pow s i hi, h0, h1, p0, p1, ?_, ?_, ?_, ?_, ?_⟩
      <;> unfold BASE MOD at * <;> omega
  · intro l r hlr hr
    obtain ⟨a0, a1⟩ := prefixHash_bounds s hs0 r hr
    obtain ⟨b0, b1⟩ := prefixHash_bounds s hs0 l (by omega)
    obtain ⟨p0, p1⟩ := powMod_bounds (r - l)
    obtain ⟨m0, m1⟩ := mul_residues_bound _ _ b0 b1 p0 p1
    have e := Int.tmod_eq_emod m0 (show (0 : Int) ≤ MOD by decide)
    have x0 := Int.emod_nonneg (prefixHash s l * powMod (r - l)) (show MOD ≠ 0 by decide)
    have x1 := Int.emod_lt_of_pos (prefixHash s l * powMod (r - l)) (show 0 < MOD by decide)
    rw [← e] at x0 x1
    refine ⟨_, _, _, ofText_hash s r hr, ofText_hash s l (by omega),
      ofText_pow s (r - l) (by omega), m0, m1, x0, x1, ?_, ?_, ?_⟩
      <;> unfold MOD at * <;> omega

/-- Witness for C20, at the string of three characters of code 255. -/
theorem rollingHash_no_overflow_witness :
    ∃ hr hl p, (RollingHash.ofText [255, 255, 255]).hash[3]? = some hr
        ∧ (RollingHash.ofText [255, 255, 255]).hash[1]? = some hl
        ∧ (RollingHash.ofText [255, 255, 255]).pow[3 - 1]? = some p
        ∧ 0 ≤ hl * p ∧ hl * p < 2 ^ 63
        ∧ 0 ≤ (hl * p).tmod MOD ∧ (hl * p).tmod MOD < 1000000007
        ∧ -(2 ^ 63) ≤ hr - (hl * p).tmod MOD
        ∧ 0 ≤ hr - (hl * p).tmod MOD + MOD
        ∧ hr - (hl * p).tmod MOD + MOD < 2 ^ 63 :=
  (rollingHash_no_overflow [255, 255, 255] (by decide)).2 1 3 (by decide) (by decide)

/-! ## Parameters outside the contract -/

theorem lenValues_zero (i size : Nat) (hi : i ≤ size) :
    lenValues 0 i size = 0 :: lenValues 1 i size := by
  unfold lenValues
  have e1 : ((size : Int) - i - 0 + 1).toNat = (size - i) + 1 := by omega
  have e2 : ((size : Int) - i - 1 + 1).toNat = size - i := by omega
  rw [e1, e2, List.range_succ_eq_map]
  simp only [List.map_cons, List.map_map, Nat.cast_zero, add_zero, List.cons.injEq, true_and]
  apply List.map_congr_left
  intro k _
  simp only [Function.comp, Nat.succ_eq_add_one, Nat.cast_add, Nat.cast_one]
  omega

theorem scanLensRef_zero (proc1 proc2 : List Int) (i : Nat) (hi : i ≤ proc1.length) :
    scanLensRef proc1 proc2 i (lenValues 0 i proc1.length) (0, [])
      = scanLensRef proc1 proc2 i (lenValues 1 i proc1.length) (0, []) := by
  rw [lenValues_zero i _ hi]
  simp only [scanLensRef]
  rw [verifyAt_eq, if_neg]
  simp

theorem scanFromRef_zero (proc1 proc2 : List Int) (fuel i : Nat) (st : ScanState) :
    scanFromRef proc1 proc2 0 fuel i st = scanFromRef proc1 proc2 1 fuel i st := by
  induction fuel generalizing i st with
  | zero => rfl
  | succ fuel ih =>
    unfold scanFromRef
    by_cases hi : i < proc1.length
    · simp only [hi, if_true, scanLensRef_zero proc1 proc2 i (by omega), ih]
    · simp only [hi, if_false]

theorem noOverflow_one {size : Nat} (h : (size : Int) < 2147483647) : NoOverflow 1 size :=
  (noOverflow_iff _ _).mpr ⟨h, by omega⟩

theorem noOverflow_zero {size : Nat} (h : (size : Int) < 2147483647) : NoOverflow 0 size :=
  (noOverflow_iff _ _).mpr ⟨h, by omega⟩

/-- With `minSize = 0` the program computes what it computes with `minSize = 1`. -/
theorem checkWithRollingHash_zero (text1 text2 : List Int)
    (hlen1 : ((preprocessText text1).length : Int) < 2147483647)
    (hlen2 : ((preprocessText text2).length : Int) < 2147483647) :
    checkWithRollingHash text1 text2 0 = checkWithRollingHash text1 text2 1 := by
  have h : rollingScan (preprocessText text1) (preprocessText text2) 0
      = rollingScan (preprocessText text1) (preprocessText text2) 1 := by
    rw [rollingScan_eq_ref _ _ (preprocessText_nonneg text1) (preprocessText_nonneg text2) 0
        (by decide) (noOverflow_zero hlen1) (noOverflow_zero hlen2),
      rollingScan_eq_ref _ _ (preprocessText_nonneg text1) (preprocessText_nonneg text2) 1
        (by decide) (noOverflow_one hlen1) (noOverflow_one hlen2)]
    exact scanFromRef_zero _ _ _ _ _
  unfold checkWithRollingHash
  simp only [h]

theorem checkWithRollingHash_total (text1 text2 : List Int) (minSize : Int)
    (hmin : 0 ≤ minSize) (hfit1 : NoOverflow minSize (preprocessText text1).length)
    (hfit2 : NoOverflow minSize (preprocessText text2).length) :
    ∃ res, checkWithRollingHash text1 text2 minSize = .ok res := by
  by_cases hne : preprocessText text1 = [] ∨ preprocessText text2 = []
  · exact ⟨_, checkWithRollingHash_of_empty text1 text2 minSize hne⟩
  · obtain ⟨st, hst⟩ := rollingScan_total text1 text2 minSize hmin hfit1 hfit2
    exact ⟨_, checkWithRollingHash_of_scan text1 text2 minSize st
      (fun e => hne (Or.inl e)) (fun e => hne (Or.inr e)) hst⟩

theorem KMPSearch_empty_text (pattern : List Int) : KMPSearch [] pattern = .ok [] := by
  obtain ⟨lps, e, _⟩ := computeLPS_spec pattern
  unfold KMPSearch
  simp only [e]
  rfl

theorem sumMatches_empty_text (phrases : List (List Int)) (total : Nat) :
    sumMatches [] phrases total = .ok total := by
  induction phrases generalizing total with
  | nil => rfl
  | cons ph rest ih =>
    unfold sumMatches
    rw [KMPSearch_empty_text]
    exact ih _

theorem collectPhrases_nonpos (words : List (List Int)) (phraseLength : Int)
    (hk : phraseLength ≤ 0) (is : List Nat) (acc : List (List Int)) :
    collectPhrases words phraseLength is acc
      = .ok (is.foldl (fun s _ => insertUnique s []) acc) := by
  have e : phraseLength.toNat = 0 := by omega
  induction is generalizing acc with
  | nil => rfl
  | cons i rest ih =>
    unfold collectPhrases
    rw [e]
    simp only [List.range_zero, buildPhrase, bind, Except.bind]
    rw [ih]
    rfl

theorem foldl_insert_nil (is : List Nat) :
    is.foldl (fun s _ => insertUnique s []) [[]] = ([[]] : List (List Int)) := by
  induction is with
  | nil => rfl
  | cons i rest ih =>
    simp only [List.foldl_cons]
    have : insertUnique [[]] [] = ([[]] : List (List Int)) := by decide
    rw [this, ih]

/-- With `phraseLength ≤ 0` and a loop bound `words.size() - phraseLength` below
`INT_MAX`, the phrase set is the single empty phrase. -/
theorem phraseSet_nonpos (text1 : List Int) (phraseLength : Int) (hk : phraseLength ≤ 0)
    (hfit : ((splitWords (preprocessText text1)).length : Int) - phraseLength < 2147483647) :
    phraseSet text1 phraseLength = .ok [[]] := by
  unfold phraseSet
  simp only
  rw [if_neg (fun h => absurd h.2 (by unfold INT_MAX; omega)), collectPhrases_nonpos _ _ hk]
  obtain ⟨c, hc⟩ : ∃ c, (((splitWords (preprocessText text1)).length : Int)
      - phraseLength + 1).toNat = c + 1 :=
    ⟨(((splitWords (preprocessText text1)).length : Int) - phraseLength).toNat, by omega⟩
  rw [hc, List.range_succ_eq_map, List.foldl_cons]
  have : insertUnique [] [] = ([[]] : List (List Int)) := by decide
  rw [this, foldl_insert_nil]

set_option maxRecDepth 100000 in
/-- With `phraseLength ≤ 0` and a loop bound `words.size() - phraseLength` of
`INT_MAX` or more, the loop over the phrases overflows an `int`. -/
theorem phraseSet_overflow (text1 : List Int) (phraseLength : Int) (hk : phraseLength ≤ 0)
    (hbig : 2147483647 ≤ ((splitWords (preprocessText text1)).length : Int) - phraseLength) :
    phraseSet text1 phraseLength = .error Fault.signedOverflow := by
  unfold phraseSet
  simp only
  rw [if_pos ⟨hk, by unfold INT_MAX; omega⟩]

/-- C13, as stated, fails: `checkWithRollingHash` with `minSize = 0` and `checkWithKMP`
with `phraseLength = 0` return ordinary result values, here for `text1 = text2 = "abc"`
and for `text1 = "a b"`, `text2 = ""`. -/
theorem no_fail_fast :
    checkWithRollingHash (ofString "abc") (ofString "abc") 0 = .ok
      { similarity := 100
        rollingMatches := 1
        kmpMatches := 0
        largestSubstringLength := 3
        largestSubstring := ofString "abc" }
    ∧ checkWithKMP (ofString "a b") (ofString "") 0 = .ok 0 := by
  constructor
  · have hscan := rollingScan_eq_ref _ _ (preprocessText_nonneg (ofString "abc"))
      (preprocessText_nonneg (ofString "abc")) 1 (by decide) (by decide) (by decide)
    rw [rollingScanRef_self _ 1 (by decide) (by decide)] at hscan
    rw [checkWithRollingHash_zero _ _ (by decide) (by decide),
      checkWithRollingHash_of_scan _ _ 1 _ (by decide) (by decide) hscan]
    have e1 : (preprocessText (ofString "abc")).length = 3 := by decide
    have e2 : preprocessText (ofString "abc") = ofString "abc" := by decide
    simp only [matchedCount, count_replicate_true]
    rw [e1, e2]
    norm_num
  · decide

theorem checkWithKMP_empty_text2 (text1 text2 : List Int) (phraseLength : Int)
    (hk : phraseLength ≤ 0)
    (hfit : ((splitWords (preprocessText text1)).length : Int) - phraseLength < 2147483647)
    (h2 : preprocessText text2 = []) :
    checkWithKMP text1 text2 phraseLength = .ok 0 := by
  unfold checkWithKMP
  rw [phraseSet_nonpos text1 phraseLength hk hfit, h2]
  exact sumMatches_empty_text _ 0

/-- With an empty pattern and a text that does not start with the character 0, the
search reads `lps[-1]`. -/
theorem KMPSearch_empty_pattern (c : Int) (cs : List Int) (hc : c ≠ 0) :
    KMPSearch (c :: cs) [] = .error Fault.outOfBounds := by
  have hl : computeLPS [] = .ok [] := rfl
  unfold KMPSearch
  simp only [hl, List.length_cons, List.length_nil]
  have e : 2 * (cs.length + 1) = (2 * cs.length + 1) + 1 := by omega
  rw [e]
  unfold KMPSearchLoop
  have h0 : (0 : Nat) < cs.length + 1 := by omega
  have s1 : strGet [] ((0 : Nat) : Int) = .ok 0 := by
    simp [strGet]
  have s2 : strGet (c :: cs) ((0 : Nat) : Int) = .ok c := by
    simp [strGet]
  simp only [h0, if_true, s1, s2, bind, Except.bind, hc.symm, if_false]
  rfl

/-- With `phraseLength ≤ 0` and a non-empty normalized `text2`, `checkWithKMP` searches for
the empty phrase and reads `lps[-1]`. -/
theorem checkWithKMP_nonpos_fault (text1 text2 : List Int) (phraseLength : Int)
    (hk : phraseLength ≤ 0)
    (hfit : ((splitWords (preprocessText text1)).length : Int) - phraseLength < 2147483647)
    (h2 : preprocessText text2 ≠ []) :
    checkWithKMP text1 text2 phraseLength = .error Fault.outOfBounds := by
  unfold checkWithKMP
  rw [phraseSet_nonpos text1 phraseLength hk hfit]
  cases hp : preprocessText text2 with
  | nil => exact absurd hp h2
  | cons c cs =>
    have hc : c ≠ 0 := by
      have hmem : c ∈ preprocessText text2 := by
        rw [hp]
        exact List.mem_cons_self _ _
      have hn : isNormalized c := isNormalized_of_mem_preprocessText hmem
      unfold isNormalized at hn
      omega
    simp only [bind, Except.bind, sumMatches, KMPSearch_empty_pattern c cs hc]

/-- With a negative `minSize` and two non-empty normalized texts, building the index
reads `hash` at a negative position. -/
theorem checkWithRollingHash_negative_fault (text1 text2 : List Int) (minSize : Int)
    (hmin : minSize < 0) (h1 : preprocessText text1 ≠ []) (h2 : preprocessText text2 ≠ [])
    (hlen2 : ((preprocessText text2).length : Int) < 2147483647) :
    checkWithRollingHash text1 text2 minSize = .error Fault.outOfBounds := by
  have hscan : rollingScan (preprocessText text1) (preprocessText text2) minSize
      = .error Fault.outOfBounds := by
    unfold rollingScan rollingScanWith
    obtain ⟨c, hc⟩ : ∃ c, (preprocessText text2).length = c + 1 := by
      cases hp : preprocessText text2 with
      | nil => exact absurd hp h2
      | cons a as => exact ⟨as.length, rfl⟩
    have hl : lenValues minSize 0 (preprocessText text2).length
        = minSize :: (List.range (((preprocessText text2).length : Int) - (0 : Nat)
            - minSize).toNat).map (fun (k : Nat) => minSize + ((k + 1 : Nat) : Int)) := by
      unfold lenValues
      obtain ⟨d, hd⟩ : ∃ d, (((preprocessText text2).length : Int) - (0 : Nat)
          - minSize + 1).toNat = d + 1 :=
        ⟨(((preprocessText text2).length : Int) - (0 : Nat) - minSize).toNat, by omega⟩
      have hd' : (((preprocessText text2).length : Int) - (0 : Nat) - minSize).toNat = d := by
        omega
      rw [hd, hd', List.range_succ_eq_map]
      simp only [List.map_cons, List.map_map, Nat.cast_zero, add_zero, List.cons.injEq,
        true_and]
      rfl
    have hg : (RollingHash.ofText (preprocessText text2)).getHash ((0 : Nat) : Int)
        (((0 : Nat) : Int) + minSize) = .error Fault.outOfBounds := by
      unfold RollingHash.getHash vecGet
      have hneg : ¬ (0 : Int) ≤ ((0 : Nat) : Int) + minSize := by omega
      simp only [hneg, if_false, bind, Except.bind]
    have hidx : indexPositions (RollingHash.ofText (preprocessText text2)).getHash minSize
        (preprocessText text2).length (List.range (preprocessText text2).length) []
        = .error Fault.outOfBounds := by
      conv_lhs => rw [show List.range (preprocessText text2).length
        = 0 :: List.map Nat.succ (List.range c) by rw [hc, List.range_succ_eq_map]]
      have hhead : lensFrom minSize 0 (preprocessText text2).length
          = .ok (lenValues minSize 0 (preprocessText text2).length) := by
        unfold lensFrom INT_MAX
        rw [if_neg (by omega), if_neg (by omega)]
      rw [indexPositions, hhead]
      show (indexLens _ 0 (lenValues minSize 0 (preprocessText text2).length) [] >>= _) = _
      rw [hl]
      unfold indexLens
      simp only [hg, bind, Except.bind]
    simp only [hidx, bind, Except.bind]
  unfold checkWithRollingHash
  have e : ((preprocessText text1).isEmpty || (preprocessText text2).isEmpty) = false := by
    simp [List.isEmpty_iff, h1, h2]
  simp only [e, hscan, Bool.false_eq_true, if_false, bind, Except.bind]

theorem indexPositions_overflow (getHash2 : Int → Int → Except Fault Int) (minSize : Int)
    (size2 : Nat) (is : List Nat) (hm : HashMap)
    (htot : ∀ i ∈ is, ∀ len ∈ lenValues minSize i size2, ∃ h, getHash2 i (i + len) = .ok h)
    (hex : ∃ i ∈ is, lensFrom minSize i size2 = .error Fault.signedOverflow) :
    indexPositions getHash2 minSize size2 is hm = .error Fault.signedOverflow := by
  induction is generalizing hm with
  | nil =>
    obtain ⟨i, hi, _⟩ := hex
    simp at hi
  | cons i rest ih =>
    rcases lensFrom_cases minSize i size2 with e | e
    · obtain ⟨hm1, e1, _⟩ := indexLens_spec getHash2 i (lenValues minSize i size2) hm
        (htot i (List.mem_cons_self _ _))
      rw [indexPositions, e]
      show (indexLens getHash2 i (lenValues minSize i size2) hm >>= _) = _
      rw [e1]
      apply ih hm1 (fun j hj => htot j (List.mem_cons_of_mem _ hj))
      obtain ⟨j, hj, ej⟩ := hex
      rcases List.mem_cons.mp hj with rfl | hj'
      · rw [e] at ej
        cases ej
      · exact ⟨j, hj', ej⟩
    · rw [indexPositions, e]
      rfl

/-- Outside the bound on `minSize` and the length of the normalized `text2`, the loop
that indexes `text2` overflows an `int`: the bound is the exact one. -/
theorem checkWithRollingHash_overflow (text1 text2 : List Int) (minSize : Int)
    (hmin : 0 ≤ minSize) (h1 : preprocessText text1 ≠ []) (h2 : preprocessText text2 ≠ [])
    (hbig : 2147483647 ≤ ((preprocessText text2).length : Int)
      ∨ 2147483648 < ((preprocessText text2).length : Int) + minSize) :
    checkWithRollingHash text1 text2 minSize = .error Fault.signedOverflow := by
  have hpos : 0 < (preprocessText text2).length := List.length_pos.mpr h2
  have hex : ∃ i ∈ List.range (preprocessText text2).length,
      lensFrom minSize i (preprocessText text2).length = .error Fault.signedOverflow := by
    by_cases hlen : 2147483647 ≤ ((preprocessText text2).length : Int)
    · refine ⟨0, List.mem_range.mpr hpos, ?_⟩
      unfold lensFrom INT_MAX
      by_cases hg : (2147483647 : Int) < ((0 : Nat) : Int) + minSize
      · rw [if_pos hg]
      · rw [if_neg hg, if_pos ⟨by omega, hlen⟩]
    · refine ⟨(preprocessText text2).length - 1, List.mem_range.mpr (by omega), ?_⟩
      apply lensFrom_overflow
      unfold INT_MAX
      omega
  have hscan : rollingScan (preprocessText text1) (preprocessText text2) minSize
      = .error Fault.signedOverflow := by
    unfold rollingScan rollingScanWith
    rw [indexPositions_overflow _ _ _ _ _ (by
      intro i _ len hlen
      obtain ⟨a, b⟩ := mem_lenValues.mp hlen
      exact getHash_int_total _ i len (by omega) b) hex]
    rfl
  unfold checkWithRollingHash
  have e : ((preprocessText text1).isEmpty || (preprocessText text2).isEmpty) = false := by
    simp [List.isEmpty_iff, h1, h2]
  simp only [e, hscan, Bool.false_eq_true, if_false, bind, Except.bind]

/-- With `phraseLength ≤ 0` and a loop bound `words.size() - phraseLength` of
`INT_MAX` or more, `checkWithKMP` returns no value. -/
theorem checkWithKMP_overflow (text1 text2 : List Int) (phraseLength : Int)
    (hk : phraseLength ≤ 0)
    (hbig : 2147483647 ≤ ((splitWords (preprocessText text1)).length : Int) - phraseLength) :
    checkWithKMP text1 text2 phraseLength = .error Fault.signedOverflow := by
  unfold checkWithKMP
  rw [phraseSet_overflow text1 phraseLength hk hbig]
  rfl

/-- C13, amended. Neither parameter is validated and no error is signalled.  With
`minSize = 0`, `checkWithRollingHash` returns the ordinary result of `minSize = 1`,
for all texts whose normalized forms have fewer than `2147483647` characters; with
`minSize < 0` it returns the ordinary zero-valued result when either normalized text
is empty.  With `phraseLength ≤ 0` and a loop bound `words.size() - phraseLength`
below `2147483647`, `checkWithKMP` forms the single empty phrase and returns the
ordinary value 0 when the normalized `text2` is empty; with a loop bound of
`2147483647` or more the loop over the phrases overflows an `int` (undefined
behaviour, no value and no error signal). -/
theorem parameters_not_validated (text1 text2 : List Int) :
    (((preprocessText text1).length : Int) < 2147483647 →
      ((preprocessText text2).length : Int) < 2147483647 →
      ∃ res, checkWithRollingHash text1 text2 0 = .ok res
        ∧ checkWithRollingHash text1 text2 1 = .ok res)
    ∧ (∀ minSize : Int, minSize < 0 →
        preprocessText text1 = [] ∨ preprocessText text2 = [] →
        checkWithRollingHash text1 text2 minSize = .ok
          { similarity := 0
            rollingMatches := 0
            kmpMatches := 0
            largestSubstringLength := 0
            largestSubstring := [] })
    ∧ (∀ phraseLength : Int, phraseLength ≤ 0 →
        ((splitWords (preprocessText text1)).length : Int) - phraseLength < 2147483647 →
        phraseSet text1 phraseLength = .ok [[]]
        ∧ (preprocessText text2 = [] → checkWithKMP text1 text2 phraseLength = .ok 0))
    ∧ (∀ phraseLength : Int, phraseLength ≤ 0 →
        2147483647 ≤ ((splitWords (preprocessText text1)).length : Int) - phraseLength →
        checkWithKMP text1 text2 phraseLength = .error Fault.signedOverflow) := by
  refine ⟨?_, ?_, ?_, ?_⟩
  · intro hlen1 hlen2
    obtain ⟨res, h⟩ := checkWithRollingHash_total text1 text2 1 (by decide)
      (noOverflow_one hlen1) (noOverflow_one hlen2)
    exact ⟨res, by rw [checkWithRollingHash_zero _ _ hlen1 hlen2, h], h⟩
  · intro minSize _ h
    exact checkWithRollingHash_of_empty text1 text2 minSize h
  · intro phraseLength hk hfit
    exact ⟨phraseSet_nonpos text1 phraseLength hk hfit,
      checkWithKMP_empty_text2 text1 text2 phraseLength hk hfit⟩
  · intro phraseLength hk hbig
    exact checkWithKMP_overflow text1 text2 phraseLength hk hbig

/-- Witness for C13 (amended), at `text1 = "a b"`, `text2 = ""`, `minSize = -3`,
`phraseLength = -2` and `phraseLength = -2147483647`. -/
theorem parameters_not_validated_witness :
    (∃ res, checkWithRollingHash (ofString "a b") (ofString "") 0 = .ok res
        ∧ checkWithRollingHash (ofString "a b") (ofString "") 1 = .ok res)
    ∧ checkWithRollingHash (ofString "a b") (ofString "") (-3) = .ok
      { similarity := 0
        rollingMatches := 0
        kmpMatches := 0
        largestSubstringLength := 0
        largestSubstring := [] }
    ∧ checkWithKMP (ofString "a b") (ofString "") (-2) = .ok 0
    ∧ checkWithKMP (ofString "a b") (ofString "") (-2147483647)
        = .error Fault.signedOverflow :=
  ⟨(parameters_not_validated (ofString "a b") (ofString "")).1 (by decide) (by decide),
   (parameters_not_validated (ofString "a b") (ofString "")).2.1 (-3) (by decide)
      (Or.inr (by decide)),
   ((parameters_not_validated (ofString "a b") (ofString "")).2.2.1 (-2) (by decide)
      (by decide)).2 (by decide),
   (parameters_not_validated (ofString "a b") (ofString "")).2.2.2 (-2147483647) (by decide)
      (by decide)⟩

/-! ## The longest match at one position -/

theorem lenValues_pairwise (minSize : Int) (i size : Nat) :
    (lenValues minSize i size).Pairwise (· < ·) := by
  unfold lenValues
  rw [List.pairwise_map]
  exact (List.pairwise_lt_range _).imp (fun h => by omega)

theorem scanLensRef_greatest (proc1 proc2 : List Int) (i : Nat) (lens : List Int)
    (acc : Nat × List Int) (hs : lens.Pairwise (· < ·))
    (hacc : ∀ len ∈ lens, (acc.1 : Int) < len) :
    (scanLensRef proc1 proc2 i lens acc = acc
      ∧ ∀ len ∈ lens, ¬ ∃ pos ∈ List.range proc2.length,
          substr proc1 i len.toNat = substr proc2 pos len.toNat)
    ∨ ∃ len ∈ lens, (∃ pos ∈ List.range proc2.length,
          substr proc1 i len.toNat = substr proc2 pos len.toNat)
        ∧ scanLensRef proc1 proc2 i lens acc = (len.toNat, substr proc1 i len.toNat)
        ∧ ∀ len' ∈ lens, (∃ pos ∈ List.range proc2.length,
            substr proc1 i len'.toNat = substr proc2 pos len'.toNat) → len' ≤ len := by
  induction lens generalizing acc with
  | nil => exact Or.inl ⟨rfl, by simp⟩
  | cons len rest ih =>
    obtain ⟨hhead, htail⟩ := List.pairwise_cons.mp hs
    have hlt := hacc len (List.mem_cons_self _ _)
    unfold scanLensRef
    rw [verifyAt_eq]
    by_cases hM : ∃ pos ∈ List.range proc2.length,
        substr proc1 i len.toNat = substr proc2 pos len.toNat
    · rw [if_pos ⟨hlt, hM⟩]
      have hacc' : ∀ l ∈ rest, (((len.toNat, substr proc1 i len.toNat) : Nat × List Int).1 : Int)
          < l := by
        intro l hl
        have := hhead l hl
        simp only
        omega
      rcases ih _ htail hacc' with ⟨e, hno⟩ | ⟨l, hl, hMl, e, hmax⟩
      · refine Or.inr ⟨len, List.mem_cons_self _ _, hM, e, ?_⟩
        intro l' hl' hMl'
        rcases List.mem_cons.mp hl' with rfl | hl''
        · exact le_refl _
        · exact absurd hMl' (hno l' hl'')
      · refine Or.inr ⟨l, List.mem_cons_of_mem _ hl, hMl, e, ?_⟩
        intro l' hl' hMl'
        rcases List.mem_cons.mp hl' with rfl | hl''
        · exact le_of_lt (hhead l hl)
        · exact hmax l' hl'' hMl'
    · rw [if_neg (fun h => hM h.2)]
      rcases ih acc htail (fun l hl => hacc l (List.mem_cons_of_mem _ hl)) with
        ⟨e, hno⟩ | ⟨l, hl, hMl, e, hmax⟩
      · refine Or.inl ⟨e, ?_⟩
        intro l' hl'
        rcases List.mem_cons.mp hl' with rfl | hl''
        · exact hM
        · exact hno l' hl''
      · refine Or.inr ⟨l, List.mem_cons_of_mem _ hl, hMl, e, ?_⟩
        intro l' hl' hMl'
        rcases List.mem_cons.mp hl' with rfl | hl''
        · exact absurd hMl' hM
        · exact hmax l' hl'' hMl'

theorem matchAt_iff_candidate (proc1 proc2 : List Int) (i : Nat) (len : Int) (hpos : 0 < len)
    (hb : (i : Int) + len ≤ proc1.length) :
    (∃ pos ∈ List.range proc2.length, substr proc1 i len.toNat = substr proc2 pos len.toNat)
      ↔ MatchAt proc1 proc2 i len.toNat := by
  unfold MatchAt
  constructor
  · rintro ⟨pos, _, heq⟩
    refine ⟨by omega, pos, ?_, heq⟩
    rcases substr_eq_bound proc1 proc2 i pos len.toNat (by omega) heq with h | h
    · exact h
    · omega
  · rintro ⟨_, pos, hp, heq⟩
    exact ⟨pos, List.mem_range.mpr (by omega), heq⟩

/-- The hash-free loop over `len` at position `i` ends with the greatest matching length. -/
theorem scanLensRef_best (proc1 proc2 : List Int) (minSize : Int) (hmin : 1 ≤ minSize)
    (i : Nat) :
    IsGreatestMatch proc1 proc2 minSize i (bestLenRef proc1 proc2 minSize i)
    ∧ (0 < bestLenRef proc1 proc2 minSize i →
        (scanLensRef proc1 proc2 i (lenValues minSize i proc1.length) (0, [])).2
          = substr proc1 i (bestLenRef proc1 proc2 minSize i)
        ∧ i + bestLenRef proc1 proc2 minSize i ≤ proc1.length) := by
  unfold bestLenRef
  have hacc : ∀ len ∈ lenValues minSize i proc1.length, (((0, []) : Nat × List Int).1 : Int) < len := by
    intro len hlen
    have := (mem_lenValues.mp hlen).1
    simp only [Nat.cast_zero]
    omega
  rcases scanLensRef_greatest proc1 proc2 i _ (0, []) (lenValues_pairwise _ _ _) hacc with
    ⟨e, hno⟩ | ⟨l, hl, hMl, e, hmax⟩
  · rw [e]
    refine ⟨Or.inl ⟨rfl, ?_⟩, fun h => absurd h (by simp)⟩
    intro len hlen hm
    have hmem : (len : Int) ∈ lenValues minSize i proc1.length :=
      mem_lenValues.mpr ⟨hlen, by have := hm.1; omega⟩
    apply hno _ hmem
    apply (matchAt_iff_candidate proc1 proc2 i len (by omega) (by have := hm.1; omega)).mpr
    simpa using hm
  · obtain ⟨a, b⟩ := mem_lenValues.mp hl
    rw [e]
    have hm := (matchAt_iff_candidate proc1 proc2 i l (by omega) b).mp hMl
    refine ⟨Or.inr ⟨by simp only; omega, hm, ?_⟩, fun _ => ⟨rfl, by simp only; omega⟩⟩
    intro len hlen hml
    have hmem : (len : Int) ∈ lenValues minSize i proc1.length :=
      mem_lenValues.mpr ⟨hlen, by have := hml.1; omega⟩
    have := hmax _ hmem
      ((matchAt_iff_candidate proc1 proc2 i len (by omega) (by have := hml.1; omega)).mpr
        (by simpa using hml))
    simp only
    omega

theorem getHash_eq_of_substr_eq (proc1 proc2 : List Int) (h1 : ∀ c ∈ proc1, 0 ≤ c)
    (h2 : ∀ c ∈ proc2, 0 ≤ c) (i pos len : Nat) (hi : i + len ≤ proc1.length)
    (hp : pos + len ≤ proc2.length) (heq : substr proc1 i len = substr proc2 pos len) :
    (RollingHash.ofText proc1).getHash (i : Nat) ((i + len : Nat) : Int)
      = (RollingHash.ofText proc2).getHash (pos : Nat) ((pos + len : Nat) : Int) := by
  rw [getHash_substr proc1 h1 i (i + len) (by omega) hi,
    getHash_substr proc2 h2 pos (pos + len) (by omega) hp]
  have e1 : i + len - i = len := by omega
  have e2 : pos + len - pos = len := by omega
  rw [e1, e2, heq]

/-- C15. For all texts and every `minSize ≥ 1`, at every position `i` of the normalized
`text1` (so at every position where the scan attempts a match), whenever the index of
`text2` is built and the loop over `len` at `i` returns, the `maxLen` it has computed
through the hash map is the greatest `len ≥ minSize` with `i + len ≤ |text1'|` such
that `text1'[i..i+len)` occurs in `text2'`, and 0 if there is none; no literal match
is missed, because equal substrings of the two texts receive equal `getHash` values.
The index is built and the loop returns at every position when no test `i + len`
overflows an `int` (each normalized text has fewer than `2147483647` characters and
its length plus `minSize` is at most `2147483648`). -/
theorem maxLen_greatest (text1 text2 : List Int) (minSize : Int) (hmin : 1 ≤ minSize) :
    (∀ hashMap, indexPositions (RollingHash.ofText (preprocessText text2)).getHash minSize
          (preprocessText text2).length (List.range (preprocessText text2).length) []
          = .ok hashMap →
      ∀ i, i < (preprocessText text1).length →
        ∀ lens best, lensFrom minSize i (preprocessText text1).length = .ok lens →
          scanLens (RollingHash.ofText (preprocessText text1)).getHash hashMap
            (preprocessText text1) (preprocessText text2) i lens (0, []) = .ok best →
          IsGreatestMatch (preprocessText text1) (preprocessText text2) minSize i best.1
          ∧ (0 < best.1 → best.2 = substr (preprocessText text1) i best.1))
    ∧ (((preprocessText text1).length : Int) < 2147483647 →
        ((preprocessText text1).length : Int) + minSize ≤ 2147483648 →
        ((preprocessText text2).length : Int) < 2147483647 →
        ((preprocessText text2).length : Int) + minSize ≤ 2147483648 →
        ∃ hashMap, indexPositions (RollingHash.ofText (preprocessText text2)).getHash minSize
            (preprocessText text2).length (List.range (preprocessText text2).length) []
            = .ok hashMap
          ∧ ∀ i, i < (preprocessText text1).length →
            ∃ lens best, lensFrom minSize i (preprocessText text1).length = .ok lens
              ∧ scanLens (RollingHash.ofText (preprocessText text1)).getHash hashMap
                (preprocessText text1) (preprocessText text2) i lens (0, []) = .ok best
              ∧ IsGreatestMatch (preprocessText text1) (preprocessText text2) minSize i best.1
              ∧ (0 < best.1 → best.2 = substr (preprocessText text1) i best.1))
    ∧ ∀ i pos len : Nat, i + len ≤ (preprocessText text1).length →
        pos + len ≤ (preprocessText text2).length →
        substr (preprocessText text1) i len = substr (preprocessText text2) pos len →
        (RollingHash.ofText (preprocessText text1)).getHash (i : Nat) ((i + len : Nat) : Int)
          = (RollingHash.ofText (preprocessText text2)).getHash (pos : Nat)
              ((pos + len : Nat) : Int) := by
  have n1 := preprocessText_nonneg text1
  have n2 := preprocessText_nonneg text2
  refine ⟨?_, ?_, ?_⟩
  · intro hm e i hi lens best hl hb
    obtain rfl := lensFrom_ok hl
    have hs := index_serves_of_ok _ _ n1 n2 minSize (by omega) hm e i hi
    rw [scanLens_eq_ref _ _ _ _ _ _ _ hs] at hb
    cases hb
    obtain ⟨hg, hsub⟩ := scanLensRef_best (preprocessText text1) (preprocessText text2)
      minSize hmin i
    exact ⟨hg, fun h => (hsub h).1⟩
  · intro a1 a2 b1 b2
    have hfit1 : NoOverflow minSize (preprocessText text1).length :=
      (noOverflow_iff _ _).mpr ⟨a1, a2⟩
    have hfit2 : NoOverflow minSize (preprocessText text2).length :=
      (noOverflow_iff _ _).mpr ⟨b1, b2⟩
    obtain ⟨hm, e, hs⟩ := index_serves _ _ n1 n2 minSize (by omega)
      (fun i hi => lensFrom_of_noOverflow hfit2 (List.mem_range.mp hi))
    refine ⟨hm, e, fun i hi => ?_⟩
    obtain ⟨hg, hsub⟩ := scanLensRef_best (preprocessText text1) (preprocessText text2)
      minSize hmin i
    exact ⟨_, _, lensFrom_of_noOverflow hfit1 hi, scanLens_eq_ref _ _ _ _ _ _ _ (hs i hi), hg,
      fun h => (hsub h).1⟩
  · intro i pos len hi hp heq
    exact getHash_eq_of_substr_eq _ _ n1 n2 i pos len hi hp heq

set_option maxRecDepth 100000 in
/-- Witness for C15, at `text1 = "xabcdef"`, `text2 = "xab abcdef"` and `minSize = 2`:
the index is built and the loop returns at every position; at position 0 the greatest
matching length is 3, at position 1 it is 6. -/
theorem maxLen_greatest_witness :
    (∃ hashMap, indexPositions (RollingHash.ofText (preprocessText (ofString "xab abcdef"))).getHash
          2 (preprocessText (ofString "xab abcdef")).length
          (List.range (preprocessText (ofString "xab abcdef")).length) [] = .ok hashMap
      ∧ ∀ i, i < (preprocessText (ofString "xabcdef")).length →
        ∃ lens best, lensFrom 2 i (preprocessText (ofString "xabcdef")).length = .ok lens
          ∧ scanLens (RollingHash.ofText (preprocessText (ofString "xabcdef"))).getHash hashMap
            (preprocessText (ofString "xabcdef")) (preprocessText (ofString "xab abcdef")) i
            lens (0, []) = .ok best
          ∧ IsGreatestMatch (preprocessText (ofString "xabcdef"))
              (preprocessText (ofString "xab abcdef")) 2 i best.1
          ∧ (0 < best.1 → best.2 = substr (preprocessText (ofString "xabcdef")) i best.1))
    ∧ bestLenRef (preprocessText (ofString "xabcdef")) (preprocessText (ofString "xab abcdef"))
        2 0 = 3
    ∧ bestLenRef (preprocessText (ofString "xabcdef")) (preprocessText (ofString "xab abcdef"))
        2 1 = 6 :=
  ⟨(maxLen_greatest (ofString "xabcdef") (ofString "xab abcdef") 2 (by decide)).2.1
      (by decide) (by decide) (by decide) (by decide),
   by decide, by decide⟩

/-! ## Marks and counts -/

theorem count_set_true (l : List Bool) (k : Nat) (h : l[k]? = some false) :
    (l.set k true).count true = l.count true + 1 := by
  induction l generalizing k with
  | nil => simp at h
  | cons b bs ih =>
    cases k with
    | zero =>
      simp only [List.getElem?_cons_zero, Option.some.injEq] at h
      subst h
      simp [List.count_cons]
    | succ k =>
      simp only [List.getElem?_cons_succ] at h
      simp only [List.set_cons_succ, List.count_cons, ih k h]
      omega

theorem markRange_succ (matched : List Bool) (i k : Nat) :
    markRange matched i (k + 1) = (markRange matched i k).set (i + k) true := by
  unfold markRange
  rw [List.range_succ, List.foldl_append]
  rfl

theorem markRange_count (matched : List Bool) (i maxLen : Nat)
    (h : ∀ k, i ≤ k → k < i + maxLen → matched[k]? = some false) :
    (markRange matched i maxLen).count true = matched.count true + maxLen := by
  induction maxLen with
  | zero => rfl
  | succ n ih =>
    rw [markRange_succ, count_set_true, ih (fun k h1 h2 => h k h1 (by omega))]
    · omega
    · rw [(markRange_spec matched i n).2, if_neg (by omega)]
      exact h (i + n) (by omega) (by omega)

theorem maxRegionLen_append (rs : List (Nat × Nat)) (r : Nat × Nat) :
    maxRegionLen (rs ++ [r]) = max (maxRegionLen rs) r.2 := by
  simp [maxRegionLen, List.foldl_append]

theorem foldl_max_le (l : List Nat) (a x : Nat) (h : x ≤ a ∨ x ∈ l) : x ≤ l.foldl max a := by
  induction l generalizing a with
  | nil =>
    rcases h with h | h
    · exact h
    · simp at h
  | cons b bs ih =>
    simp only [List.foldl_cons]
    apply ih
    rcases h with h | h
    · exact Or.inl (le_trans h (le_max_left _ _))
    · rcases List.mem_cons.mp h with rfl | h'
      · exact Or.inl (le_max_right _ _)
      · exact Or.inr h'

theorem le_maxRegionLen (rs : List (Nat × Nat)) (r : Nat × Nat) (h : r ∈ rs) :
    r.2 ≤ maxRegionLen rs :=
  foldl_max_le _ 0 _ (Or.inr (List.mem_map_of_mem _ h))

/-! ## The order of the regions -/

theorem scanOrder_init (proc1 : List Int) : ScanOrder proc1 0 (ScanState.init proc1.length) := by
  refine ⟨Nat.zero_le _, by simp [ScanState.init], by simp [ScanState.init],
    by simp [ScanState.init], ?_, ?_, rfl, rfl⟩
  · intro k _ hk
    simp [ScanState.init, List.getElem?_replicate, hk]
  · simp only [ScanState.init, count_replicate_false]
    rfl

theorem scanOrder_accept (proc1 : List Int) (i maxLen : Nat) (s : List Int) (st : ScanState)
    (h : ScanOrder proc1 i st) (hpos : 0 < maxLen) (hb : i + maxLen ≤ proc1.length) :
    ScanOrder proc1 (i + maxLen) (st.accept i maxLen s) := by
  refine ⟨hb, ?_, ?_, ?_, ?_, ?_, ?_, ?_⟩
  · simp only [ScanState.accept, (markRange_spec st.matched i maxLen).1, h.size]
  · intro r hr
    simp only [ScanState.accept, List.mem_append, List.mem_singleton] at hr
    rcases hr with hr | rfl
    · have := h.ends r hr
      omega
    · exact ⟨hpos, le_refl _⟩
  · simp only [ScanState.accept]
    rw [List.pairwise_append]
    refine ⟨h.disjoint, List.pairwise_singleton _ _, ?_⟩
    intro r hr r' hr'
    simp only [List.mem_singleton] at hr'
    subst hr'
    exact (h.ends r hr).2
  · intro k hk hlt
    simp only [ScanState.accept]
    rw [(markRange_spec st.matched i maxLen).2, if_neg (by omega)]
    exact h.unmarked k (by omega) hlt
  · simp only [ScanState.accept, List.map_append, List.map_cons, List.map_nil, List.sum_append,
      List.sum_cons, List.sum_nil, add_zero]
    rw [markRange_count st.matched i maxLen (fun k h1 h2 => h.unmarked k h1 (by omega)), h.count]
  · simp [ScanState.accept, h.matches_eq]
  · simp only [ScanState.accept, maxRegionLen_append, h.largest]
    split_ifs with hgt
    · exact (max_eq_right (le_of_lt hgt)).symm
    · exact (max_eq_left (not_lt.mp hgt)).symm

theorem scanOrder_step (proc1 : List Int) (i : Nat) (st : ScanState)
    (h : ScanOrder proc1 i st) (hi : i < proc1.length) : ScanOrder proc1 (i + 1) st :=
  ⟨hi, h.size, fun r hr => by have := h.ends r hr; omega, h.disjoint,
    fun k hk hlt => h.unmarked k (by omega) hlt, h.count, h.matches_eq, h.largest⟩

theorem scanOrder_attempt (proc1 : List Int) (i a : Nat) (st : ScanState)
    (h : ScanOrder proc1 i st) : ScanOrder proc1 i (st.attempt a) :=
  ⟨h.pos_le, h.size, h.ends, h.disjoint, h.unmarked, h.count, h.matches_eq, h.largest⟩

theorem scanFromRef_order (proc1 proc2 : List Int) (minSize : Int) (hmin : 1 ≤ minSize)
    (fuel i : Nat) (st : ScanState) (h : ScanOrder proc1 i st)
    (hf : proc1.length ≤ i + fuel) :
    ∃ st', scanFromRef proc1 proc2 minSize fuel i st = .ok st'
      ∧ ScanOrder proc1 proc1.length st'
      ∧ st'.regions = st.regions
          ++ (attemptsFromRef proc1 proc2 minSize fuel i).filterMap
            (regionAtRef proc1 proc2 minSize)
      ∧ st'.attempts = st.attempts ++ attemptsFromRef proc1 proc2 minSize fuel i := by
  induction fuel generalizing i st with
  | zero =>
    have e : i = proc1.length := by have := h.pos_le; omega
    subst e
    refine ⟨st, ?_, h, by simp [attemptsFromRef], by simp [attemptsFromRef]⟩
    unfold scanFromRef
    rw [if_neg (by omega)]
  | succ fuel ih =>
    by_cases hi : i < proc1.length
    · obtain ⟨_, hsub⟩ := scanLensRef_best proc1 proc2 minSize hmin i
      unfold scanFromRef attemptsFromRef
      simp only [hi, if_true]
      by_cases hb : bestLenRef proc1 proc2 minSize i > 0
      · have hb' : (scanLensRef proc1 proc2 i (lenValues minSize i proc1.length) (0, [])).1 > 0 :=
          hb
        obtain ⟨st', e, ho, hr, ha⟩ := ih (i + bestLenRef proc1 proc2 minSize i)
          ((st.attempt i).accept i (bestLenRef proc1 proc2 minSize i)
            (scanLensRef proc1 proc2 i (lenValues minSize i proc1.length) (0, [])).2)
          (scanOrder_accept proc1 i _ _ (st.attempt i) (scanOrder_attempt proc1 i i st h) hb
            (hsub hb).2) (by omega)
        refine ⟨st', ?_, ho, ?_, ?_⟩
        · rw [if_pos hb']
          exact e
        · rw [hr]
          simp only [ScanState.accept, ScanState.attempt, nextAttemptRef, regionAtRef, hb,
            if_true, List.filterMap_cons, List.append_assoc, List.singleton_append]
        · rw [ha]
          simp only [ScanState.accept, ScanState.attempt, nextAttemptRef, hb, if_true,
            List.append_assoc, List.singleton_append]
      · have hb' : ¬ (scanLensRef proc1 proc2 i (lenValues minSize i proc1.length) (0, [])).1 > 0 :=
          hb
        obtain ⟨st', e, ho, hr, ha⟩ := ih (i + 1) (st.attempt i)
          (scanOrder_step proc1 i _ (scanOrder_attempt proc1 i i st h) hi) (by omega)
        refine ⟨st', ?_, ho, ?_, ?_⟩
        · rw [if_neg hb']
          exact e
        · rw [hr]
          simp only [ScanState.attempt, nextAttemptRef, regionAtRef, hb, if_false,
            List.filterMap_cons]
        · rw [ha]
          simp only [ScanState.attempt, nextAttemptRef, hb, if_false, List.append_assoc,
            List.singleton_append]
    · have e : i = proc1.length := by have := h.pos_le; omega
      subst e
      refine ⟨st, ?_, h, ?_, ?_⟩
      · unfold scanFromRef
        rw [if_neg hi]
      · unfold attemptsFromRef
        rw [if_neg hi]
        simp
      · unfold attemptsFromRef
        rw [if_neg hi]
        simp

/-! ## The attempted positions -/

theorem nextAttemptRef_gt (proc1 proc2 : List Int) (minSize : Int) (i : Nat) :
    i < nextAttemptRef proc1 proc2 minSize i := by
  unfold nextAttemptRef
  split_ifs with h
  · omega
  · omega

theorem attempts_bounds (proc1 proc2 : List Int) (minSize : Int) (fuel i : Nat) :
    ∀ a ∈ attemptsFromRef proc1 proc2 minSize fuel i, i ≤ a ∧ a < proc1.length := by
  induction fuel generalizing i with
  | zero => simp [attemptsFromRef]
  | succ fuel ih =>
    intro a ha
    unfold attemptsFromRef at ha
    split_ifs at ha with hi
    · rcases List.mem_cons.mp ha with rfl | ha'
      · exact ⟨le_refl _, hi⟩
      · have := ih _ a ha'
        have := nextAttemptRef_gt proc1 proc2 minSize i
        omega
    · simp at ha

theorem attempts_pairwise (proc1 proc2 : List Int) (minSize : Int) (fuel i : Nat) :
    (attemptsFromRef proc1 proc2 minSize fuel i).Pairwise (· < ·) := by
  induction fuel generalizing i with
  | zero => simp [attemptsFromRef]
  | succ fuel ih =>
    unfold attemptsFromRef
    split_ifs with hi
    · rw [List.pairwise_cons]
      refine ⟨fun a ha => ?_, ih _⟩
      have := (attempts_bounds proc1 proc2 minSize fuel _ a ha).1
      have := nextAttemptRef_gt proc1 proc2 minSize i
      omega
    · exact List.Pairwise.nil

theorem attempts_skip (proc1 proc2 : List Int) (minSize : Int) (fuel i : Nat) :
    ∀ a ∈ attemptsFromRef proc1 proc2 minSize fuel i,
      ∀ b ∈ attemptsFromRef proc1 proc2 minSize fuel i,
        ¬ (a < b ∧ b < nextAttemptRef proc1 proc2 minSize a) := by
  induction fuel generalizing i with
  | zero => simp [attemptsFromRef]
  | succ fuel ih =>
    intro a ha b hb
    unfold attemptsFromRef at ha hb
    split_ifs at ha hb with hi
    · rcases List.mem_cons.mp ha with rfl | ha'
      · rcases List.mem_cons.mp hb with rfl | hb'
        · omega
        · have := (attempts_bounds proc1 proc2 minSize fuel _ b hb').1
          omega
      · rcases List.mem_cons.mp hb with rfl | hb'
        · have := (attempts_bounds proc1 proc2 minSize fuel _ a ha').1
          have := nextAttemptRef_gt proc1 proc2 minSize b
          omega
        · exact ih _ a ha' b hb'
    · simp at ha

theorem attempts_next (proc1 proc2 : List Int) (minSize : Int) (fuel i : Nat)
    (hf : proc1.length ≤ i + fuel) :
    ∀ a ∈ attemptsFromRef proc1 proc2 minSize fuel i,
      nextAttemptRef proc1 proc2 minSize a < proc1.length →
        nextAttemptRef proc1 proc2 minSize a ∈ attemptsFromRef proc1 proc2 minSize fuel i := by
  induction fuel generalizing i with
  | zero => simp [attemptsFromRef]
  | succ fuel ih =>
    intro a ha hlt
    have hgt := nextAttemptRef_gt proc1 proc2 minSize i
    unfold attemptsFromRef at ha ⊢
    split_ifs at ha ⊢ with hi
    · rcases List.mem_cons.mp ha with rfl | ha'
      · apply List.mem_cons_of_mem
        obtain ⟨f, rfl⟩ : ∃ f, fuel = f + 1 := ⟨fuel - 1, by omega⟩
        unfold attemptsFromRef
        rw [if_pos hlt]
        exact List.mem_cons_self _ _
      · exact List.mem_cons_of_mem _ (ih _ (by omega) a ha' hlt)
    · simp at ha

theorem attempts_find_match (proc1 proc2 : List Int) (minSize : Int) (fuel i i0 : Nat)
    (hf : proc1.length ≤ i + fuel) (h0 : i ≤ i0) (h1 : i0 < proc1.length)
    (hb : bestLenRef proc1 proc2 minSize i0 > 0) :
    ∃ a ∈ attemptsFromRef proc1 proc2 minSize fuel i, bestLenRef proc1 proc2 minSize a > 0 := by
  induction fuel generalizing i with
  | zero => omega
  | succ fuel ih =>
    have hi : i < proc1.length := by omega
    unfold attemptsFromRef
    rw [if_pos hi]
    by_cases hbi : bestLenRef proc1 proc2 minSize i > 0
    · exact ⟨i, List.mem_cons_self _ _, hbi⟩
    · have hne : i ≠ i0 := fun e => hbi (e ▸ hb)
      have hn : nextAttemptRef proc1 proc2 minSize i = i + 1 := by
        unfold nextAttemptRef
        rw [if_neg hbi]
      obtain ⟨a, ha, hab⟩ := ih (i + 1) (by omega) (by omega)
      exact ⟨a, List.mem_cons_of_mem _ (hn ▸ ha), hab⟩

/-! ## The scan as a whole -/

/-- What holds of every state the scan returns. -/
theorem scan_summary_ok (text1 text2 : List Int) (minSize : Int) (hmin : 1 ≤ minSize)
    (st : ScanState)
    (hst : rollingScan (preprocessText text1) (preprocessText text2) minSize = .ok st) :
    ScanOrder (preprocessText text1) (preprocessText text1).length st
      ∧ ScanInv (preprocessText text1) (preprocessText text2) minSize st
      ∧ st.attempts = attemptsFromRef (preprocessText text1) (preprocessText text2) minSize
          (preprocessText text1).length 0
      ∧ st.regions = (attemptsFromRef (preprocessText text1) (preprocessText text2) minSize
          (preprocessText text1).length 0).filterMap
            (regionAtRef (preprocessText text1) (preprocessText text2) minSize) := by
  have href := rollingScan_ok_ref _ _ (preprocessText_nonneg text1)
    (preprocessText_nonneg text2) minSize (by omega) st hst
  obtain ⟨st', e, ho, hr, ha⟩ := scanFromRef_order (preprocessText text1)
    (preprocessText text2) minSize hmin (preprocessText text1).length 0 _ (scanOrder_init _)
    (by omega)
  unfold rollingScanRef at href
  rw [e] at href
  cases href
  refine ⟨ho, rollingScanWith_sound _ _ _ _ _ _ hst, ?_, ?_⟩
  · rw [ha]
    simp [ScanState.init]
  · rw [hr]
    simp [ScanState.init]

/-- The record the program returns when the scan returns the state `st`; this covers
the early return, where the scan would accept no region. -/
theorem check_of_scan (text1 text2 : List Int) (minSize : Int) (hmin : 1 ≤ minSize)
    (st : ScanState)
    (hst : rollingScan (preprocessText text1) (preprocessText text2) minSize = .ok st) :
    checkWithRollingHash text1 text2 minSize = .ok
      { similarity := (matchedCount st : ℚ) / ((preprocessText text1).length : ℚ) * 100
        rollingMatches := st.rollingMatches
        kmpMatches := 0
        largestSubstringLength := st.largestSubstringLength
        largestSubstring := st.largestSubstring } := by
  obtain ⟨ho, hinv, _, _⟩ := scan_summary_ok text1 text2 minSize hmin st hst
  by_cases hne : preprocessText text1 = [] ∨ preprocessText text2 = []
  · have hnil : st.regions = [] := by
      apply List.eq_nil_iff_forall_not_mem.mpr
      intro r hrm
      obtain ⟨_, b, c, pos, d, _⟩ := hinv.regions r hrm
      rcases hne with h | h
      · rw [h] at c
        simp at c
        omega
      · rw [h] at d
        simp at d
        omega
    have h1 : st.rollingMatches = 0 := by rw [ho.matches_eq, hnil]; rfl
    have h2 : st.largestSubstringLength = 0 := by rw [ho.largest, hnil]; rfl
    have h3 : st.largestSubstring = [] := by
      apply List.length_eq_zero.mp
      rw [hinv.largestLen, h2]
    have h4 : matchedCount st = 0 := by
      unfold matchedCount
      rw [ho.count, hnil]
      rfl
    rw [checkWithRollingHash_of_empty text1 text2 minSize hne, h1, h2, h3, h4]
    simp
  · exact checkWithRollingHash_of_scan text1 text2 minSize st
      (fun e => hne (Or.inl e)) (fun e => hne (Or.inr e)) hst

theorem scan_summary (text1 text2 : List Int) (minSize : Int) (hmin : 1 ≤ minSize)
    (hfit1 : NoOverflow minSize (preprocessText text1).length)
    (hfit2 : NoOverflow minSize (preprocessText text2).length) :
    ∃ st, rollingScan (preprocessText text1) (preprocessText text2) minSize = .ok st
      ∧ ScanOrder (preprocessText text1) (preprocessText text1).length st
      ∧ ScanInv (preprocessText text1) (preprocessText text2) minSize st
      ∧ st.regions = (attemptsFromRef (preprocessText text1) (preprocessText text2) minSize
          (preprocessText text1).length 0).filterMap
            (regionAtRef (preprocessText text1) (preprocessText text2) minSize)
      ∧ checkWithRollingHash text1 text2 minSize = .ok
          { similarity := (matchedCount st : ℚ) / ((preprocessText text1).length : ℚ) * 100
            rollingMatches := st.rollingMatches
            kmpMatches := 0
            largestSubstringLength := st.largestSubstringLength
            largestSubstring := st.largestSubstring } := by
  obtain ⟨st, hst⟩ := rollingScan_total text1 text2 minSize (by omega) hfit1 hfit2
  obtain ⟨ho, hinv, _, hreg⟩ := scan_summary_ok text1 text2 minSize hmin st hst
  exact ⟨st, hst, ho, hinv, hreg, check_of_scan text1 text2 minSize hmin st hst⟩

theorem mem_regions_iff (proc1 proc2 : List Int) (minSize : Int) (attempts : List Nat)
    (r : Nat × Nat) :
    r ∈ attempts.filterMap (regionAtRef proc1 proc2 minSize) ↔
      r.1 ∈ attempts ∧ 0 < r.2 ∧ r.2 = bestLenRef proc1 proc2 minSize r.1 := by
  simp only [List.mem_filterMap, regionAtRef]
  constructor
  · rintro ⟨a, ha, h⟩
    split_ifs at h with hb
    simp only [Option.some.injEq] at h
    subst h
    exact ⟨ha, hb, rfl⟩
  · rintro ⟨h1, h2, h3⟩
    refine ⟨r.1, h1, ?_⟩
    rw [if_pos (by omega), ← h3]

/-- C16. For all texts and every `minSize ≥ 1`, in every state the scan returns: the
attempted positions (the values of `i` at which the loop body has run, as the scan
logs them) are increasing; the accepted regions are the regions found at the attempted
positions, in order; after a region of length `L` accepted at position `i` no attempt
starts in `[i, i + L)` other than the one at `i`, and `i + L` is attempted when it is
inside the text, so the next attempt is exactly at `i + L`; the regions are pairwise
disjoint and increasing; `rollingMatches` is their number; the matched-position count
is the sum of their lengths and at most the length of the normalized `text1`.  In
every result the program returns, `rollingMatches` is the number of regions (0 on the
early return, where no scan is made) and the similarity lies in `0..100`.  The scan and the program do return when no test
`i + len` overflows an `int` (each normalized text has fewer than `2147483647`
characters and its length plus `minSize` is at most `2147483648`). -/
theorem regions_disjoint (text1 text2 : List Int) (minSize : Int) (hmin : 1 ≤ minSize) :
    (∀ st, rollingScan (preprocessText text1) (preprocessText text2) minSize = .ok st →
      st.attempts.Pairwise (· < ·)
      ∧ (∀ a ∈ st.attempts, a < (preprocessText text1).length)
      ∧ st.regions = st.attempts.filterMap
          (regionAtRef (preprocessText text1) (preprocessText text2) minSize)
      ∧ (∀ r ∈ st.regions,
          r.1 ∈ st.attempts ∧ 0 < r.2 ∧ r.1 + r.2 ≤ (preprocessText text1).length
          ∧ (∀ b ∈ st.attempts, ¬ (r.1 < b ∧ b < r.1 + r.2))
          ∧ (r.1 + r.2 < (preprocessText text1).length → r.1 + r.2 ∈ st.attempts))
      ∧ st.regions.Pairwise (fun r1 r2 => r1.1 + r1.2 ≤ r2.1)
      ∧ st.rollingMatches = st.regions.length
      ∧ matchedCount st = (st.regions.map Prod.snd).sum
      ∧ matchedCount st ≤ (preprocessText text1).length)
    ∧ (∀ res, checkWithRollingHash text1 text2 minSize = .ok res →
        0 ≤ res.similarity ∧ res.similarity ≤ 100
        ∧ (∀ st, rollingScan (preprocessText text1) (preprocessText text2) minSize = .ok st →
            res.rollingMatches = st.regions.length)
        ∧ (preprocessText text1 = [] ∨ preprocessText text2 = [] → res.rollingMatches = 0))
    ∧ (((preprocessText text1).length : Int) < 2147483647 →
        ((preprocessText text1).length : Int) + minSize ≤ 2147483648 →
        ((preprocessText text2).length : Int) < 2147483647 →
        ((preprocessText text2).length : Int) + minSize ≤ 2147483648 →
        ∃ st res, rollingScan (preprocessText text1) (preprocessText text2) minSize = .ok st
          ∧ checkWithRollingHash text1 text2 minSize = .ok res) := by
  have hcnt : ∀ st, ScanOrder (preprocessText text1) (preprocessText text1).length st →
      matchedCount st ≤ (preprocessText text1).length := by
    intro st ho
    unfold matchedCount
    rw [← ho.size]
    exact List.count_le_length _ _
  refine ⟨?_, ?_, ?_⟩
  · intro st hst
    obtain ⟨ho, hinv, hatt, hreg⟩ := scan_summary_ok text1 text2 minSize hmin st hst
    rw [hatt]
    refine ⟨attempts_pairwise _ _ _ _ _, fun a ha => (attempts_bounds _ _ _ _ _ a ha).2, hreg,
      ?_, ho.disjoint, ho.matches_eq, ho.count, hcnt st ho⟩
    intro r hr
    have hr' := hr
    rw [hreg, mem_regions_iff] at hr'
    obtain ⟨h1, h2, h3⟩ := hr'
    have hn : nextAttemptRef (preprocessText text1) (preprocessText text2) minSize r.1
        = r.1 + r.2 := by
      unfold nextAttemptRef
      rw [if_pos (by omega), ← h3]
    refine ⟨h1, h2, (ho.ends r hr).2, ?_, ?_⟩
    · intro b hb
      have := attempts_skip _ _ _ _ _ r.1 h1 b hb
      rwa [hn] at this
    · intro hlt
      have := attempts_next _ _ minSize _ 0 (by omega) r.1 h1 (by rw [hn]; exact hlt)
      rwa [hn] at this
  · intro res hres
    have hrm : ∀ st, rollingScan (preprocessText text1) (preprocessText text2) minSize
        = .ok st → res.rollingMatches = st.regions.length := by
      intro st hst
      obtain ⟨ho, _, _, _⟩ := scan_summary_ok text1 text2 minSize hmin st hst
      have h := check_of_scan text1 text2 minSize hmin st hst
      rw [hres] at h
      cases h
      exact ho.matches_eq
    rcases checkWithRollingHash_ok_inv _ _ _ _ hres with ⟨_, rfl⟩ | ⟨h1, h2, st, hst, rfl⟩
    · exact ⟨le_refl _, by norm_num, hrm, fun _ => rfl⟩
    · obtain ⟨ho, _, _, _⟩ := scan_summary_ok text1 text2 minSize hmin st hst
      refine ⟨?_, ?_, hrm, fun he => (he.elim (fun e => absurd e h1) (fun e => absurd e h2))⟩
      · simp only
        positivity
      · simp only
        have hz : (preprocessText text1).length ≠ 0 := fun e => h1 (List.length_eq_zero.mp e)
        have hpos : (0 : ℚ) < ((preprocessText text1).length : ℚ) := by
          exact_mod_cast Nat.pos_of_ne_zero hz
        have hle : (matchedCount st : ℚ) ≤ ((preprocessText text1).length : ℚ) := by
          exact_mod_cast hcnt st ho
        have := (div_le_one hpos).mpr hle
        linarith
  · intro a1 a2 b1 b2
    obtain ⟨st, hst, _, _, _, hres⟩ := scan_summary text1 text2 minSize hmin
      ((noOverflow_iff _ _).mpr ⟨a1, a2⟩) ((noOverflow_iff _ _).mpr ⟨b1, b2⟩)
    exact ⟨st, _, hst, hres⟩

set_option maxRecDepth 100000 in
/-- Witness for C16, at the end-to-end example: the attempts are at 0 and 20, the
regions are `[0, 20)` and `[20, 28)`. -/
theorem regions_disjoint_witness :
    ∃ st res, rollingScan (preprocessText (ofString "Machine learning is powerful"))
          (preprocessText (ofString "Machine learning is very powerful and useful")) 5 = .ok st
      ∧ checkWithRollingHash (ofString "Machine learning is powerful")
          (ofString "Machine learning is very powerful and useful") 5 = .ok res
      ∧ st.attempts = [0, 20]
      ∧ st.regions = [(0, 20), (20, 8)]
      ∧ st.attempts.Pairwise (· < ·)
      ∧ st.regions.Pairwise (fun r1 r2 => r1.1 + r1.2 ≤ r2.1)
      ∧ res.rollingMatches = st.regions.length
      ∧ matchedCount st = (st.regions.map Prod.snd).sum
      ∧ 0 ≤ res.similarity ∧ res.similarity ≤ 100 := by
  obtain ⟨st, res, h1, h2⟩ :=
    (regions_disjoint (ofString "Machine learning is powerful")
      (ofString "Machine learning is very powerful and useful") 5 (by decide)).2.2
      (by rw [example_preprocess1]; decide) (by rw [example_preprocess1]; decide)
      (by rw [example_preprocess2]; decide) (by rw [example_preprocess2]; decide)
  obtain ⟨a1, _, _, _, a5, _, a7, _⟩ :=
    (regions_disjoint (ofString "Machine learning is powerful")
      (ofString "Machine learning is very powerful and useful") 5 (by decide)).1 st h1
  obtain ⟨b1, b2, b3, _⟩ :=
    (regions_disjoint (ofString "Machine learning is powerful")
      (ofString "Machine learning is very powerful and useful") 5 (by decide)).2.1 res h2
  have h1' := h1
  rw [example_scan] at h1'
  cases h1'
  exact ⟨_, res, h1, h2, rfl, rfl, a1, a5, b3 _ h1, a7, b1, b2⟩

/-! ## The largest substring -/

theorem maxRegionLen_pos (rs : List (Nat × Nat)) (r : Nat × Nat) (h : r ∈ rs) (hr : 0 < r.2) :
    0 < maxRegionLen rs :=
  lt_of_lt_of_le hr (le_maxRegionLen rs r h)

set_option maxRecDepth 100000 in
theorem example2_scanRef :
    rollingScanRef (ofString "xabcdef") (ofString "xab abcdef") 2
    = .ok { matched := List.replicate 7 true
            rollingMatches := 2
            largestSubstringLength := 4
            largestSubstring := ofString "cdef"
            regions := [(0, 3), (3, 4)]
            attempts := [0, 3] } := by
  decide

set_option maxRecDepth 100000 in
/-- C12, as stated, fails: for `text1 = "xabcdef"`, `text2 = "xab abcdef"` and
`minSize = 2` the scan accepts `"xab"` at 0 and `"cdef"` at 3 and reports
`largestSubstringLength = 4`, although `"abcdef"`, of length 6, occurs in both texts
(at 1 in `text1` and at 4 in `text2`). -/
theorem largest_not_longest_shared :
    ∃ res, checkWithRollingHash (ofString "xabcdef") (ofString "xab abcdef") 2 = .ok res
      ∧ res.largestSubstringLength = 4
      ∧ res.largestSubstring = ofString "cdef"
      ∧ (2 : Int) ≤ ((6 : Nat) : Int)
      ∧ MatchAt (preprocessText (ofString "xabcdef")) (preprocessText (ofString "xab abcdef"))
          1 6 := by
  have e1 : preprocessText (ofString "xabcdef") = ofString "xabcdef" := by decide
  have e2 : preprocessText (ofString "xab abcdef") = ofString "xab abcdef" := by decide
  have hscan := rollingScan_eq_ref _ _ (preprocessText_nonneg (ofString "xabcdef"))
    (preprocessText_nonneg (ofString "xab abcdef")) 2 (by decide) (by decide) (by decide)
  rw [e1, e2, example2_scanRef] at hscan
  rw [← e1, ← e2] at hscan
  refine ⟨_, checkWithRollingHash_of_scan _ _ 2 _ (by rw [e1]; decide) (by rw [e2]; decide)
    hscan, rfl, rfl, by decide, ?_⟩
  rw [e1, e2]
  exact ⟨by decide, 4, by decide, by decide⟩

/-- C12, amended. For all texts and every `minSize ≥ 1` for which no test `i + len`
overflows an `int` (each normalized text has fewer than `2147483647` characters and
its length plus `minSize` is at most `2147483648`), `largestSubstringLength` is the
length of the longest region the greedy scan accepts (0 when it accepts none) and
`largestSubstring` is the text of an accepted region of that length: a substring of
length at least `minSize` that occurs in both normalized texts, so never longer than
the longest shared substring; it is 0 exactly when the texts share no substring of
length at least `minSize`. -/
theorem largest_is_longest_region (text1 text2 : List Int) (minSize : Int)
    (hmin : 1 ≤ minSize)
    (hlen1 : ((preprocessText text1).length : Int) < 2147483647)
    (hsum1 : ((preprocessText text1).length : Int) + minSize ≤ 2147483648)
    (hlen2 : ((preprocessText text2).length : Int) < 2147483647)
    (hsum2 : ((preprocessText text2).length : Int) + minSize ≤ 2147483648) :
    ∃ st res, rollingScan (preprocessText text1) (preprocessText text2) minSize = .ok st
      ∧ checkWithRollingHash text1 text2 minSize = .ok res
      ∧ res.largestSubstringLength = maxRegionLen st.regions
      ∧ (∀ r ∈ st.regions, r.2 ≤ res.largestSubstringLength)
      ∧ res.largestSubstring.length = res.largestSubstringLength
      ∧ (res.largestSubstringLength ≠ 0 →
          ∃ r ∈ st.regions, r.2 = res.largestSubstringLength
            ∧ res.largestSubstring = substr (preprocessText text1) r.1 r.2
            ∧ minSize ≤ (r.2 : Int)
            ∧ MatchAt (preprocessText text1) (preprocessText text2) r.1 r.2)
      ∧ (res.largestSubstringLength = 0 ↔
          ∀ i len : Nat, minSize ≤ (len : Int) →
            ¬ MatchAt (preprocessText text1) (preprocessText text2) i len) := by
  obtain ⟨st, hst, ho, hinv, hreg, hres⟩ := scan_summary text1 text2 minSize hmin
    ((noOverflow_iff _ _).mpr ⟨hlen1, hsum1⟩) ((noOverflow_iff _ _).mpr ⟨hlen2, hsum2⟩)
  have hlit : ∀ r ∈ st.regions, minSize ≤ (r.2 : Int)
      ∧ MatchAt (preprocessText text1) (preprocessText text2) r.1 r.2 := by
    intro r hr
    obtain ⟨a, _, c, pos, d, e⟩ := hinv.regions r hr
    exact ⟨a, c, pos, d, e⟩
  refine ⟨st, _, hst, hres, ho.largest, ?_, hinv.largestLen, ?_, ?_⟩
  · intro r hr
    simp only
    rw [ho.largest]
    exact le_maxRegionLen _ r hr
  · intro hne
    obtain ⟨r, hr, hr2, hr3⟩ := hinv.largest hne
    exact ⟨r, hr, hr2, hr3, (hlit r hr).1, (hlit r hr).2⟩
  · simp only
    constructor
    · intro hz i len hlen hm
      have hi : i < (preprocessText text1).length := by
        have := hm.1
        omega
      obtain ⟨hg, _⟩ := scanLensRef_best (preprocessText text1) (preprocessText text2)
        minSize hmin i
      have hb : bestLenRef (preprocessText text1) (preprocessText text2) minSize i > 0 := by
        rcases hg with ⟨_, hno⟩ | ⟨hge, _, _⟩
        · exact absurd hm (hno len hlen)
        · have : (0 : Int) < (bestLenRef (preprocessText text1) (preprocessText text2)
              minSize i : Int) := by omega
          exact_mod_cast this
      obtain ⟨a, ha, hab⟩ := attempts_find_match (preprocessText text1) (preprocessText text2)
        minSize (preprocessText text1).length 0 i (by omega) (Nat.zero_le _) hi hb
      have hmem : (a, bestLenRef (preprocessText text1) (preprocessText text2) minSize a)
          ∈ st.regions := by
        rw [hreg, mem_regions_iff]
        exact ⟨ha, hab, rfl⟩
      have := maxRegionLen_pos _ _ hmem hab
      rw [← ho.largest] at this
      omega
    · intro hno
      by_contra hne
      obtain ⟨r, hr, _, _⟩ := hinv.largest hne
      exact hno r.1 r.2 (hlit r hr).1 (hlit r hr).2

/-- Witness for C12 (amended), at `text1 = "xabcdef"`, `text2 = "xab abcdef"` and
`minSize = 2`. -/
theorem largest_is_longest_region_witness :
    ∃ st res, rollingScan (preprocessText (ofString "xabcdef"))
          (preprocessText (ofString "xab abcdef")) 2 = .ok st
      ∧ checkWithRollingHash (ofString "xabcdef") (ofString "xab abcdef") 2 = .ok res
      ∧ res.largestSubstringLength = maxRegionLen st.regions
      ∧ (∀ r ∈ st.regions, r.2 ≤ res.largestSubstringLength)
      ∧ res.largestSubstring.length = res.largestSubstringLength := by
  obtain ⟨st, res, h1, h2, h3, h4, h5, _⟩ :=
    largest_is_longest_region (ofString "xabcdef") (ofString "xab abcdef") 2 (by decide)
      (by decide) (by decide) (by decide) (by decide)
  exact ⟨st, res, h1, h2, h3, h4, h5⟩

end PlagiarismChecker
